import Mathlib

/-!
# Verification of `dur.Parse`

A shallow embedding of the Go package `dur` (file `dur.go`) and theorems about it.

Conventions of the embedding.

* A `rune` is a natural number (its code point); the input string is the list of its
  runes, as produced by the conversion `[]rune(s)`.
* `int` and `time.Duration` are 64 bit two's-complement integers: a value is an `Int`
  in the interval `[-2^63, 2^63)` and every arithmetic operation is followed by `wrap64`.
* `uint16`, `uint32`, `uint64` values are natural numbers reduced modulo `2^16`, `2^32`,
  `2^64`.
* A call of `Parse` ends in an `Outcome`: the returned pair `(time.Duration, error)`,
  a run-time panic (index out of range), or `timeout` when a loop of the embedding
  runs out of fuel (shown below never to happen with the fuel `Parse` supplies).
* The predicates of package `unicode` follow the Go library: the Latin-1 fast path
  written out, and beyond U+00FF a range table taken as the parameter `UnicodeTables`.
  `goTables` is the instance for Unicode 15.0.0.
-/

namespace Dur

/-! ## Machine integers -/

/-- Reduction of an integer to a signed 64 bit value (two's complement). -/
def wrap64 (x : Int) : Int :=
  (x + 9223372036854775808) % 18446744073709551616 - 9223372036854775808

/-- Addition of `int` / `int64` values. -/
def add64 (a b : Int) : Int := wrap64 (a + b)

/-- Multiplication of `int` / `int64` values. -/
def mul64 (a b : Int) : Int := wrap64 (a * b)

/-! ## Package `unicode` -/

/-- The range tables of package `unicode` consulted for runes above `MaxLatin1`:
`White_Space`, `Digit` (category Nd) and `Letter` (category L). -/
structure UnicodeTables where
  White_Space : Nat → Bool
  Digit : Nat → Bool
  Letter : Nat → Bool

/-- Largest Latin-1 code point, `unicode.MaxLatin1`. -/
def MaxLatin1 : Nat := 0xFF

/-- Membership of a rune in a table of inclusive ranges. -/
def inRanges (tbl : List (Nat × Nat)) (r : Nat) : Bool :=
  tbl.any fun p => decide (p.1 ≤ r) && decide (r ≤ p.2)

/-- Go `unicode.IsSpace`. -/
def IsSpace (T : UnicodeTables) (r : Nat) : Bool :=
  if r ≤ MaxLatin1 then
    r == 0x09 || r == 0x0A || r == 0x0B || r == 0x0C || r == 0x0D || r == 0x20 ||
      r == 0x85 || r == 0xA0
  else T.White_Space r

/-- Go `unicode.IsDigit`. -/
def IsDigit (T : UnicodeTables) (r : Nat) : Bool :=
  if r ≤ MaxLatin1 then decide (0x30 ≤ r) && decide (r ≤ 0x39) else T.Digit r

/-- Letters of Latin-1: the entries of `unicode.properties` carrying a letter flag. -/
def latin1Letter (r : Nat) : Bool :=
  (decide (0x41 ≤ r) && decide (r ≤ 0x5A)) || (decide (0x61 ≤ r) && decide (r ≤ 0x7A)) ||
    r == 0xAA || r == 0xB5 || r == 0xBA ||
    (decide (0xC0 ≤ r) && decide (r ≤ 0xD6)) || (decide (0xD8 ≤ r) && decide (r ≤ 0xF6)) ||
    (decide (0xF8 ≤ r) && decide (r ≤ 0xFF))

/-- Go `unicode.IsLetter`. -/
def IsLetter (T : UnicodeTables) (r : Nat) : Bool :=
  if r ≤ MaxLatin1 then latin1Letter r else T.Letter r

/-- Ranges of `unicode.White_Space` above U+00FF. -/
def whiteSpaceRanges : List (Nat × Nat) := [
  (0x1680, 0x1680), (0x2000, 0x200A), (0x2028, 0x2029), (0x202F, 0x202F), (0x205F, 0x205F),
  (0x3000, 0x3000)]

/-- Ranges of `unicode.Letter` (general category L) above U+00FF, Unicode 15.0.0. -/
def letterRanges : List (Nat × Nat) := [
  (0x100, 0x2C1), (0x2C6, 0x2D1), (0x2E0, 0x2E4), (0x2EC, 0x2EC), (0x2EE, 0x2EE), (0x370, 0x374),
  (0x376, 0x377), (0x37A, 0x37D), (0x37F, 0x37F), (0x386, 0x386), (0x388, 0x38A), (0x38C, 0x38C),
  (0x38E, 0x3A1), (0x3A3, 0x3F5), (0x3F7, 0x481), (0x48A, 0x52F), (0x531, 0x556), (0x559, 0x559),
  (0x560, 0x588), (0x5D0, 0x5EA), (0x5EF, 0x5F2), (0x620, 0x64A), (0x66E, 0x66F), (0x671, 0x6D3),
  (0x6D5, 0x6D5), (0x6E5, 0x6E6), (0x6EE, 0x6EF), (0x6FA, 0x6FC), (0x6FF, 0x6FF), (0x710, 0x710),
  (0x712, 0x72F), (0x74D, 0x7A5), (0x7B1, 0x7B1), (0x7CA, 0x7EA), (0x7F4, 0x7F5), (0x7FA, 0x7FA),
  (0x800, 0x815), (0x81A, 0x81A), (0x824, 0x824), (0x828, 0x828), (0x840, 0x858), (0x860, 0x86A),
  (0x870, 0x887), (0x889, 0x88E), (0x8A0, 0x8C9), (0x904, 0x939), (0x93D, 0x93D), (0x950, 0x950),
  (0x958, 0x961), (0x971, 0x980), (0x985, 0x98C), (0x98F, 0x990), (0x993, 0x9A8), (0x9AA, 0x9B0),
  (0x9B2, 0x9B2), (0x9B6, 0x9B9), (0x9BD, 0x9BD), (0x9CE, 0x9CE), (0x9DC, 0x9DD), (0x9DF, 0x9E1),
  (0x9F0, 0x9F1), (0x9FC, 0x9FC), (0xA05, 0xA0A), (0xA0F, 0xA10), (0xA13, 0xA28), (0xA2A, 0xA30),
  (0xA32, 0xA33), (0xA35, 0xA36), (0xA38, 0xA39), (0xA59, 0xA5C), (0xA5E, 0xA5E), (0xA72, 0xA74),
  (0xA85, 0xA8D), (0xA8F, 0xA91), (0xA93, 0xAA8), (0xAAA, 0xAB0), (0xAB2, 0xAB3), (0xAB5, 0xAB9),
  (0xABD, 0xABD), (0xAD0, 0xAD0), (0xAE0, 0xAE1), (0xAF9, 0xAF9), (0xB05, 0xB0C), (0xB0F, 0xB10),
  (0xB13, 0xB28), (0xB2A, 0xB30), (0xB32, 0xB33), (0xB35, 0xB39), (0xB3D, 0xB3D), (0xB5C, 0xB5D),
  (0xB5F, 0xB61), (0xB71, 0xB71), (0xB83, 0xB83), (0xB85, 0xB8A), (0xB8E, 0xB90), (0xB92, 0xB95),
  (0xB99, 0xB9A), (0xB9C, 0xB9C), (0xB9E, 0xB9F), (0xBA3, 0xBA4), (0xBA8, 0xBAA), (0xBAE, 0xBB9),
  (0xBD0, 0xBD0), (0xC05, 0xC0C), (0xC0E, 0xC10), (0xC12, 0xC28), (0xC2A, 0xC39), (0xC3D, 0xC3D),
  (0xC58, 0xC5A), (0xC5D, 0xC5D), (0xC60, 0xC61), (0xC80, 0xC80), (0xC85, 0xC8C), (0xC8E, 0xC90),
  (0xC92, 0xCA8), (0xCAA, 0xCB3), (0xCB5, 0xCB9), (0xCBD, 0xCBD), (0xCDD, 0xCDE), (0xCE0, 0xCE1),
  (0xCF1, 0xCF2), (0xD04, 0xD0C), (0xD0E, 0xD10), (0xD12, 0xD3A), (0xD3D, 0xD3D), (0xD4E, 0xD4E),
  (0xD54, 0xD56), (0xD5F, 0xD61), (0xD7A, 0xD7F), (0xD85, 0xD96), (0xD9A, 0xDB1), (0xDB3, 0xDBB),
  (0xDBD, 0xDBD), (0xDC0, 0xDC6), (0xE01, 0xE30), (0xE32, 0xE33), (0xE40, 0xE46), (0xE81, 0xE82),
  (0xE84, 0xE84), (0xE86, 0xE8A), (0xE8C, 0xEA3), (0xEA5, 0xEA5), (0xEA7, 0xEB0), (0xEB2, 0xEB3),
  (0xEBD, 0xEBD), (0xEC0, 0xEC4), (0xEC6, 0xEC6), (0xEDC, 0xEDF), (0xF00, 0xF00), (0xF40, 0xF47),
  (0xF49, 0xF6C), (0xF88, 0xF8C), (0x1000, 0x102A), (0x103F, 0x103F), (0x1050, 0x1055),
  (0x105A, 0x105D), (0x1061, 0x1061), (0x1065, 0x1066), (0x106E, 0x1070), (0x1075, 0x1081),
  (0x108E, 0x108E), (0x10A0, 0x10C5), (0x10C7, 0x10C7), (0x10CD, 0x10CD), (0x10D0, 0x10FA),
  (0x10FC, 0x1248), (0x124A, 0x124D), (0x1250, 0x1256), (0x1258, 0x1258), (0x125A, 0x125D),
  (0x1260, 0x1288), (0x128A, 0x128D), (0x1290, 0x12B0), (0x12B2, 0x12B5), (0x12B8, 0x12BE),
  (0x12C0, 0x12C0), (0x12C2, 0x12C5), (0x12C8, 0x12D6), (0x12D8, 0x1310), (0x1312, 0x1315),
  (0x1318, 0x135A), (0x1380, 0x138F), (0x13A0, 0x13F5), (0x13F8, 0x13FD), (0x1401, 0x166C),
  (0x166F, 0x167F), (0x1681, 0x169A), (0x16A0, 0x16EA), (0x16F1, 0x16F8), (0x1700, 0x1711),
  (0x171F, 0x1731), (0x1740, 0x1751), (0x1760, 0x176C), (0x176E, 0x1770), (0x1780, 0x17B3),
  (0x17D7, 0x17D7), (0x17DC, 0x17DC), (0x1820, 0x1878), (0x1880, 0x1884), (0x1887, 0x18A8),
  (0x18AA, 0x18AA), (0x18B0, 0x18F5), (0x1900, 0x191E), (0x1950, 0x196D), (0x1970, 0x1974),
  (0x1980, 0x19AB), (0x19B0, 0x19C9), (0x1A00, 0x1A16), (0x1A20, 0x1A54), (0x1AA7, 0x1AA7),
  (0x1B05, 0x1B33), (0x1B45, 0x1B4C), (0x1B83, 0x1BA0), (0x1BAE, 0x1BAF), (0x1BBA, 0x1BE5),
  (0x1C00, 0x1C23), (0x1C4D, 0x1C4F), (0x1C5A, 0x1C7D), (0x1C80, 0x1C88), (0x1C90, 0x1CBA),
  (0x1CBD, 0x1CBF), (0x1CE9, 0x1CEC), (0x1CEE, 0x1CF3), (0x1CF5, 0x1CF6), (0x1CFA, 0x1CFA),
  (0x1D00, 0x1DBF), (0x1E00, 0x1F15), (0x1F18, 0x1F1D), (0x1F20, 0x1F45), (0x1F48, 0x1F4D),
  (0x1F50, 0x1F57), (0x1F59, 0x1F59), (0x1F5B, 0x1F5B), (0x1F5D, 0x1F5D), (0x1F5F, 0x1F7D),
  (0x1F80, 0x1FB4), (0x1FB6, 0x1FBC), (0x1FBE, 0x1FBE), (0x1FC2, 0x1FC4), (0x1FC6, 0x1FCC),
  (0x1FD0, 0x1FD3), (0x1FD6, 0x1FDB), (0x1FE0, 0x1FEC), (0x1FF2, 0x1FF4), (0x1FF6, 0x1FFC),
  (0x2071, 0x2071), (0x207F, 0x207F), (0x2090, 0x209C), (0x2102, 0x2102), (0x2107, 0x2107),
  (0x210A, 0x2113), (0x2115, 0x2115), (0x2119, 0x211D), (0x2124, 0x2124), (0x2126, 0x2126),
  (0x2128, 0x2128), (0x212A, 0x212D), (0x212F, 0x2139), (0x213C, 0x213F), (0x2145, 0x2149),
  (0x214E, 0x214E), (0x2183, 0x2184), (0x2C00, 0x2CE4), (0x2CEB, 0x2CEE), (0x2CF2, 0x2CF3),
  (0x2D00, 0x2D25), (0x2D27, 0x2D27), (0x2D2D, 0x2D2D), (0x2D30, 0x2D67), (0x2D6F, 0x2D6F),
  (0x2D80, 0x2D96), (0x2DA0, 0x2DA6), (0x2DA8, 0x2DAE), (0x2DB0, 0x2DB6), (0x2DB8, 0x2DBE),
  (0x2DC0, 0x2DC6), (0x2DC8, 0x2DCE), (0x2DD0, 0x2DD6), (0x2DD8, 0x2DDE), (0x2E2F, 0x2E2F),
  (0x3005, 0x3006), (0x3031, 0x3035), (0x303B, 0x303C), (0x3041, 0x3096), (0x309D, 0x309F),
  (0x30A1, 0x30FA), (0x30FC, 0x30FF), (0x3105, 0x312F), (0x3131, 0x318E), (0x31A0, 0x31BF),
  (0x31F0, 0x31FF), (0x3400, 0x4DBF), (0x4E00, 0xA48C), (0xA4D0, 0xA4FD), (0xA500, 0xA60C),
  (0xA610, 0xA61F), (0xA62A, 0xA62B), (0xA640, 0xA66E), (0xA67F, 0xA69D), (0xA6A0, 0xA6E5),
  (0xA717, 0xA71F), (0xA722, 0xA788), (0xA78B, 0xA7CA), (0xA7D0, 0xA7D1), (0xA7D3, 0xA7D3),
  (0xA7D5, 0xA7D9), (0xA7F2, 0xA801), (0xA803, 0xA805), (0xA807, 0xA80A), (0xA80C, 0xA822),
  (0xA840, 0xA873), (0xA882, 0xA8B3), (0xA8F2, 0xA8F7), (0xA8FB, 0xA8FB), (0xA8FD, 0xA8FE),
  (0xA90A, 0xA925), (0xA930, 0xA946), (0xA960, 0xA97C), (0xA984, 0xA9B2), (0xA9CF, 0xA9CF),
  (0xA9E0, 0xA9E4), (0xA9E6, 0xA9EF), (0xA9FA, 0xA9FE), (0xAA00, 0xAA28), (0xAA40, 0xAA42),
  (0xAA44, 0xAA4B), (0xAA60, 0xAA76), (0xAA7A, 0xAA7A), (0xAA7E, 0xAAAF), (0xAAB1, 0xAAB1),
  (0xAAB5, 0xAAB6), (0xAAB9, 0xAABD), (0xAAC0, 0xAAC0), (0xAAC2, 0xAAC2), (0xAADB, 0xAADD),
  (0xAAE0, 0xAAEA), (0xAAF2, 0xAAF4), (0xAB01, 0xAB06), (0xAB09, 0xAB0E), (0xAB11, 0xAB16),
  (0xAB20, 0xAB26), (0xAB28, 0xAB2E), (0xAB30, 0xAB5A), (0xAB5C, 0xAB69), (0xAB70, 0xABE2),
  (0xAC00, 0xD7A3), (0xD7B0, 0xD7C6), (0xD7CB, 0xD7FB), (0xF900, 0xFA6D), (0xFA70, 0xFAD9),
  (0xFB00, 0xFB06), (0xFB13, 0xFB17), (0xFB1D, 0xFB1D), (0xFB1F, 0xFB28), (0xFB2A, 0xFB36),
  (0xFB38, 0xFB3C), (0xFB3E, 0xFB3E), (0xFB40, 0xFB41), (0xFB43, 0xFB44), (0xFB46, 0xFBB1),
  (0xFBD3, 0xFD3D), (0xFD50, 0xFD8F), (0xFD92, 0xFDC7), (0xFDF0, 0xFDFB), (0xFE70, 0xFE74),
  (0xFE76, 0xFEFC), (0xFF21, 0xFF3A), (0xFF41, 0xFF5A), (0xFF66, 0xFFBE), (0xFFC2, 0xFFC7),
  (0xFFCA, 0xFFCF), (0xFFD2, 0xFFD7), (0xFFDA, 0xFFDC), (0x10000, 0x1000B), (0x1000D, 0x10026),
  (0x10028, 0x1003A), (0x1003C, 0x1003D), (0x1003F, 0x1004D), (0x10050, 0x1005D),
  (0x10080, 0x100FA), (0x10280, 0x1029C), (0x102A0, 0x102D0), (0x10300, 0x1031F),
  (0x1032D, 0x10340), (0x10342, 0x10349), (0x10350, 0x10375), (0x10380, 0x1039D),
  (0x103A0, 0x103C3), (0x103C8, 0x103CF), (0x10400, 0x1049D), (0x104B0, 0x104D3),
  (0x104D8, 0x104FB), (0x10500, 0x10527), (0x10530, 0x10563), (0x10570, 0x1057A),
  (0x1057C, 0x1058A), (0x1058C, 0x10592), (0x10594, 0x10595), (0x10597, 0x105A1),
  (0x105A3, 0x105B1), (0x105B3, 0x105B9), (0x105BB, 0x105BC), (0x10600, 0x10736),
  (0x10740, 0x10755), (0x10760, 0x10767), (0x10780, 0x10785), (0x10787, 0x107B0),
  (0x107B2, 0x107BA), (0x10800, 0x10805), (0x10808, 0x10808), (0x1080A, 0x10835),
  (0x10837, 0x10838), (0x1083C, 0x1083C), (0x1083F, 0x10855), (0x10860, 0x10876),
  (0x10880, 0x1089E), (0x108E0, 0x108F2), (0x108F4, 0x108F5), (0x10900, 0x10915),
  (0x10920, 0x10939), (0x10980, 0x109B7), (0x109BE, 0x109BF), (0x10A00, 0x10A00),
  (0x10A10, 0x10A13), (0x10A15, 0x10A17), (0x10A19, 0x10A35), (0x10A60, 0x10A7C),
  (0x10A80, 0x10A9C), (0x10AC0, 0x10AC7), (0x10AC9, 0x10AE4), (0x10B00, 0x10B35),
  (0x10B40, 0x10B55), (0x10B60, 0x10B72), (0x10B80, 0x10B91), (0x10C00, 0x10C48),
  (0x10C80, 0x10CB2), (0x10CC0, 0x10CF2), (0x10D00, 0x10D23), (0x10E80, 0x10EA9),
  (0x10EB0, 0x10EB1), (0x10F00, 0x10F1C), (0x10F27, 0x10F27), (0x10F30, 0x10F45),
  (0x10F70, 0x10F81), (0x10FB0, 0x10FC4), (0x10FE0, 0x10FF6), (0x11003, 0x11037),
  (0x11071, 0x11072), (0x11075, 0x11075), (0x11083, 0x110AF), (0x110D0, 0x110E8),
  (0x11103, 0x11126), (0x11144, 0x11144), (0x11147, 0x11147), (0x11150, 0x11172),
  (0x11176, 0x11176), (0x11183, 0x111B2), (0x111C1, 0x111C4), (0x111DA, 0x111DA),
  (0x111DC, 0x111DC), (0x11200, 0x11211), (0x11213, 0x1122B), (0x1123F, 0x11240),
  (0x11280, 0x11286), (0x11288, 0x11288), (0x1128A, 0x1128D), (0x1128F, 0x1129D),
  (0x1129F, 0x112A8), (0x112B0, 0x112DE), (0x11305, 0x1130C), (0x1130F, 0x11310),
  (0x11313, 0x11328), (0x1132A, 0x11330), (0x11332, 0x11333), (0x11335, 0x11339),
  (0x1133D, 0x1133D), (0x11350, 0x11350), (0x1135D, 0x11361), (0x11400, 0x11434),
  (0x11447, 0x1144A), (0x1145F, 0x11461), (0x11480, 0x114AF), (0x114C4, 0x114C5),
  (0x114C7, 0x114C7), (0x11580, 0x115AE), (0x115D8, 0x115DB), (0x11600, 0x1162F),
  (0x11644, 0x11644), (0x11680, 0x116AA), (0x116B8, 0x116B8), (0x11700, 0x1171A),
  (0x11740, 0x11746), (0x11800, 0x1182B), (0x118A0, 0x118DF), (0x118FF, 0x11906),
  (0x11909, 0x11909), (0x1190C, 0x11913), (0x11915, 0x11916), (0x11918, 0x1192F),
  (0x1193F, 0x1193F), (0x11941, 0x11941), (0x119A0, 0x119A7), (0x119AA, 0x119D0),
  (0x119E1, 0x119E1), (0x119E3, 0x119E3), (0x11A00, 0x11A00), (0x11A0B, 0x11A32),
  (0x11A3A, 0x11A3A), (0x11A50, 0x11A50), (0x11A5C, 0x11A89), (0x11A9D, 0x11A9D),
  (0x11AB0, 0x11AF8), (0x11C00, 0x11C08), (0x11C0A, 0x11C2E), (0x11C40, 0x11C40),
  (0x11C72, 0x11C8F), (0x11D00, 0x11D06), (0x11D08, 0x11D09), (0x11D0B, 0x11D30),
  (0x11D46, 0x11D46), (0x11D60, 0x11D65), (0x11D67, 0x11D68), (0x11D6A, 0x11D89),
  (0x11D98, 0x11D98), (0x11EE0, 0x11EF2), (0x11F02, 0x11F02), (0x11F04, 0x11F10),
  (0x11F12, 0x11F33), (0x11FB0, 0x11FB0), (0x12000, 0x12399), (0x12480, 0x12543),
  (0x12F90, 0x12FF0), (0x13000, 0x1342E), (0x13441, 0x13446), (0x14400, 0x14646),
  (0x16800, 0x16A38), (0x16A40, 0x16A5E), (0x16A70, 0x16ABE), (0x16AD0, 0x16AED),
  (0x16B00, 0x16B2F), (0x16B40, 0x16B43), (0x16B63, 0x16B77), (0x16B7D, 0x16B8F),
  (0x16E40, 0x16E7F), (0x16F00, 0x16F4A), (0x16F50, 0x16F50), (0x16F93, 0x16F9F),
  (0x16FE0, 0x16FE1), (0x16FE3, 0x16FE3), (0x17000, 0x187F7), (0x18800, 0x18CD5),
  (0x18D00, 0x18D08), (0x1AFF0, 0x1AFF3), (0x1AFF5, 0x1AFFB), (0x1AFFD, 0x1AFFE),
  (0x1B000, 0x1B122), (0x1B132, 0x1B132), (0x1B150, 0x1B152), (0x1B155, 0x1B155),
  (0x1B164, 0x1B167), (0x1B170, 0x1B2FB), (0x1BC00, 0x1BC6A), (0x1BC70, 0x1BC7C),
  (0x1BC80, 0x1BC88), (0x1BC90, 0x1BC99), (0x1D400, 0x1D454), (0x1D456, 0x1D49C),
  (0x1D49E, 0x1D49F), (0x1D4A2, 0x1D4A2), (0x1D4A5, 0x1D4A6), (0x1D4A9, 0x1D4AC),
  (0x1D4AE, 0x1D4B9), (0x1D4BB, 0x1D4BB), (0x1D4BD, 0x1D4C3), (0x1D4C5, 0x1D505),
  (0x1D507, 0x1D50A), (0x1D50D, 0x1D514), (0x1D516, 0x1D51C), (0x1D51E, 0x1D539),
  (0x1D53B, 0x1D53E), (0x1D540, 0x1D544), (0x1D546, 0x1D546), (0x1D54A, 0x1D550),
  (0x1D552, 0x1D6A5), (0x1D6A8, 0x1D6C0), (0x1D6C2, 0x1D6DA), (0x1D6DC, 0x1D6FA),
  (0x1D6FC, 0x1D714), (0x1D716, 0x1D734), (0x1D736, 0x1D74E), (0x1D750, 0x1D76E),
  (0x1D770, 0x1D788), (0x1D78A, 0x1D7A8), (0x1D7AA, 0x1D7C2), (0x1D7C4, 0x1D7CB),
  (0x1DF00, 0x1DF1E), (0x1DF25, 0x1DF2A), (0x1E030, 0x1E06D), (0x1E100, 0x1E12C),
  (0x1E137, 0x1E13D), (0x1E14E, 0x1E14E), (0x1E290, 0x1E2AD), (0x1E2C0, 0x1E2EB),
  (0x1E4D0, 0x1E4EB), (0x1E7E0, 0x1E7E6), (0x1E7E8, 0x1E7EB), (0x1E7ED, 0x1E7EE),
  (0x1E7F0, 0x1E7FE), (0x1E800, 0x1E8C4), (0x1E900, 0x1E943), (0x1E94B, 0x1E94B),
  (0x1EE00, 0x1EE03), (0x1EE05, 0x1EE1F), (0x1EE21, 0x1EE22), (0x1EE24, 0x1EE24),
  (0x1EE27, 0x1EE27), (0x1EE29, 0x1EE32), (0x1EE34, 0x1EE37), (0x1EE39, 0x1EE39),
  (0x1EE3B, 0x1EE3B), (0x1EE42, 0x1EE42), (0x1EE47, 0x1EE47), (0x1EE49, 0x1EE49),
  (0x1EE4B, 0x1EE4B), (0x1EE4D, 0x1EE4F), (0x1EE51, 0x1EE52), (0x1EE54, 0x1EE54),
  (0x1EE57, 0x1EE57), (0x1EE59, 0x1EE59), (0x1EE5B, 0x1EE5B), (0x1EE5D, 0x1EE5D),
  (0x1EE5F, 0x1EE5F), (0x1EE61, 0x1EE62), (0x1EE64, 0x1EE64), (0x1EE67, 0x1EE6A),
  (0x1EE6C, 0x1EE72), (0x1EE74, 0x1EE77), (0x1EE79, 0x1EE7C), (0x1EE7E, 0x1EE7E),
  (0x1EE80, 0x1EE89), (0x1EE8B, 0x1EE9B), (0x1EEA1, 0x1EEA3), (0x1EEA5, 0x1EEA9),
  (0x1EEAB, 0x1EEBB), (0x20000, 0x2A6DF), (0x2A700, 0x2B739), (0x2B740, 0x2B81D),
  (0x2B820, 0x2CEA1), (0x2CEB0, 0x2EBE0), (0x2F800, 0x2FA1D), (0x30000, 0x3134A),
  (0x31350, 0x323AF)]

/-- Ranges of `unicode.Digit` (general category Nd) above U+00FF, Unicode 15.0.0. -/
def digitRanges : List (Nat × Nat) := [
  (0x660, 0x669), (0x6F0, 0x6F9), (0x7C0, 0x7C9), (0x966, 0x96F), (0x9E6, 0x9EF), (0xA66, 0xA6F),
  (0xAE6, 0xAEF), (0xB66, 0xB6F), (0xBE6, 0xBEF), (0xC66, 0xC6F), (0xCE6, 0xCEF), (0xD66, 0xD6F),
  (0xDE6, 0xDEF), (0xE50, 0xE59), (0xED0, 0xED9), (0xF20, 0xF29), (0x1040, 0x1049),
  (0x1090, 0x1099), (0x17E0, 0x17E9), (0x1810, 0x1819), (0x1946, 0x194F), (0x19D0, 0x19D9),
  (0x1A80, 0x1A89), (0x1A90, 0x1A99), (0x1B50, 0x1B59), (0x1BB0, 0x1BB9), (0x1C40, 0x1C49),
  (0x1C50, 0x1C59), (0xA620, 0xA629), (0xA8D0, 0xA8D9), (0xA900, 0xA909), (0xA9D0, 0xA9D9),
  (0xA9F0, 0xA9F9), (0xAA50, 0xAA59), (0xABF0, 0xABF9), (0xFF10, 0xFF19), (0x104A0, 0x104A9),
  (0x10D30, 0x10D39), (0x11066, 0x1106F), (0x110F0, 0x110F9), (0x11136, 0x1113F),
  (0x111D0, 0x111D9), (0x112F0, 0x112F9), (0x11450, 0x11459), (0x114D0, 0x114D9),
  (0x11650, 0x11659), (0x116C0, 0x116C9), (0x11730, 0x11739), (0x118E0, 0x118E9),
  (0x11950, 0x11959), (0x11C50, 0x11C59), (0x11D50, 0x11D59), (0x11DA0, 0x11DA9),
  (0x11F50, 0x11F59), (0x16A60, 0x16A69), (0x16AC0, 0x16AC9), (0x16B50, 0x16B59),
  (0x1D7CE, 0x1D7FF), (0x1E140, 0x1E149), (0x1E2F0, 0x1E2F9), (0x1E4F0, 0x1E4F9),
  (0x1E950, 0x1E959), (0x1FBF0, 0x1FBF9)]

/-- The tables of the Go standard library (Unicode 15.0.0). -/
def goTables : UnicodeTables where
  White_Space := inRanges whiteSpaceRanges
  Digit := inRanges digitRanges
  Letter := inRanges letterRanges

/-! ## Package `dur`: constants and tables -/

def unitNone : Nat := 0
def unitYear : Nat := 1
def unitMonth : Nat := 2
def unitDay : Nat := 3
def unitHour : Nat := 4
def unitMinute : Nat := 5
def unitSecond : Nat := 6
def unitMillisecond : Nat := 7
def unitMicrosecond : Nat := 8
def unitNanosecond : Nat := 9

/-- Go `type unitDef struct { dur time.Duration; unitType int }`. -/
structure unitDef where
  dur : Int
  unitType : Nat
  deriving DecidableEq

/-- Code points of a string: `[]rune(s)`. -/
def runesOf (s : String) : List Nat := s.toList.map Char.toNat

/-- Go `hash2`: the shift is performed on `uint16`. -/
def hash2 (c1 c2 : Nat) : Nat :=
  (((c1 % 65536) <<< 8) % 65536) ||| (c2 % 65536)

/-- Go `hash3`: the shifts are performed on `uint32`. -/
def hash3 (c1 c2 c3 : Nat) : Nat :=
  (((c1 % 4294967296) <<< 16) % 4294967296) ||| (((c2 % 4294967296) <<< 8) % 4294967296) |||
    (c3 % 4294967296)

/-- Go `hash4`: the shifts are performed on `uint64`. -/
def hash4 (c1 c2 c3 c4 : Nat) : Nat :=
  (((c1 % 18446744073709551616) <<< 24) % 18446744073709551616) |||
    (((c2 % 18446744073709551616) <<< 16) % 18446744073709551616) |||
    (((c3 % 18446744073709551616) <<< 8) % 18446744073709551616) |||
    (c4 % 18446744073709551616)

/-- Go `lower`. -/
def lower (c : Nat) : Nat :=
  if c ≥ 'A'.toNat ∧ c ≤ 'Z'.toNat then c + 'a'.toNat - 'A'.toNat else c

def yearDuration : Int := 31536000 * 1000000000
def monthDuration : Int := 2592000 * 1000000000
def dayDuration : Int := 86400 * 1000000000

/-- Go `time.Nanosecond` and the constants derived from it. -/
def Nanosecond : Int := 1
def Microsecond : Int := 1000 * Nanosecond
def Millisecond : Int := 1000 * Microsecond
def Second : Int := 1000 * Millisecond
def Minute : Int := 60 * Second
def Hour : Int := 60 * Minute

def defYear : unitDef := ⟨yearDuration, unitYear⟩
def defMonth : unitDef := ⟨monthDuration, unitMonth⟩
def defDay : unitDef := ⟨dayDuration, unitDay⟩
def defHour : unitDef := ⟨Hour, unitHour⟩
def defMinute : unitDef := ⟨Minute, unitMinute⟩
def defSecond : unitDef := ⟨Second, unitSecond⟩
def defMillisecond : unitDef := ⟨Millisecond, unitMillisecond⟩
def defMicrosecond : unitDef := ⟨Microsecond, unitMicrosecond⟩
def defNanosecond : unitDef := ⟨Nanosecond, unitNanosecond⟩

/-- Go map `unitMapLen1`, as a list of key/value pairs. -/
def unitMapLen1 : List (Nat × unitDef) := [
  ('y'.toNat, defYear),
  ('d'.toNat, defDay),
  ('h'.toNat, defHour),
  ('m'.toNat, defMinute),
  ('s'.toNat, defSecond)]

def unitMapLen2 : List (Nat × unitDef) := [
  (hash2 'y'.toNat 'r'.toNat, defYear),
  (hash2 'd'.toNat 'y'.toNat, defDay),
  (hash2 'h'.toNat 'r'.toNat, defHour),
  (hash2 'm'.toNat 's'.toNat, defMillisecond),
  (hash2 'u'.toNat 's'.toNat, defMicrosecond),
  (hash2 'n'.toNat 's'.toNat, defNanosecond)]

def unitMapLen3 : List (Nat × unitDef) := [
  (hash3 'y'.toNat 'r'.toNat 's'.toNat, defYear),
  (hash3 'd'.toNat 'a'.toNat 'y'.toNat, defDay),
  (hash3 'd'.toNat 'y'.toNat 's'.toNat, defDay),
  (hash3 'h'.toNat 'r'.toNat 's'.toNat, defHour),
  (hash3 'm'.toNat 'i'.toNat 'n'.toNat, defMinute),
  (hash3 'm'.toNat 'o'.toNat 'n'.toNat, defMonth),
  (hash3 's'.toNat 'e'.toNat 'c'.toNat, defSecond)]

def unitMapLen4 : List (Nat × unitDef) := [
  (hash4 'y'.toNat 'e'.toNat 'a'.toNat 'r'.toNat, defYear),
  (hash4 'd'.toNat 'a'.toNat 'y'.toNat 's'.toNat, defDay),
  (hash4 'h'.toNat 'o'.toNat 'u'.toNat 'r'.toNat, defHour),
  (hash4 'm'.toNat 'i'.toNat 'n'.toNat 's'.toNat, defMinute),
  (hash4 'm'.toNat 'o'.toNat 'n'.toNat 's'.toNat, defMonth),
  (hash4 's'.toNat 'e'.toNat 'c'.toNat 's'.toNat, defSecond),
  (hash4 'n'.toNat 'a'.toNat 'n'.toNat 'o'.toNat, defNanosecond)]

def longUnits : List (List Nat × unitDef) := [
  (runesOf "years", defYear),
  (runesOf "hours", defHour),
  (runesOf "minute", defMinute),
  (runesOf "minutes", defMinute),
  (runesOf "month", defMonth),
  (runesOf "months", defMonth),
  (runesOf "second", defSecond),
  (runesOf "seconds", defSecond),
  (runesOf "milli", defMillisecond),
  (runesOf "millis", defMillisecond),
  (runesOf "millisecond", defMillisecond),
  (runesOf "milliseconds", defMillisecond),
  (runesOf "micro", defMicrosecond),
  (runesOf "micros", defMicrosecond),
  (runesOf "microsecond", defMicrosecond),
  (runesOf "microseconds", defMicrosecond),
  (runesOf "nanos", defNanosecond),
  (runesOf "nanosecond", defNanosecond),
  (runesOf "nanoseconds", defNanosecond)]

/-! ## Package `dur`: `Parse` -/

/-- The errors `Parse` returns, named after their message; each wraps `ErrParseError`,
and `bare` is `ErrParseError` itself. -/
inductive ParseErr where
  | emptyString
  | missingNumber
  | missingUnit
  | bare
  | unknownUnit
  | duplicateUnit
  deriving DecidableEq

/-- How a call ends: `ret d err` is the Go result pair, `panic` an index out of range,
`timeout` exhaustion of the fuel of the embedding. -/
inductive Outcome where
  | ret (d : Int) (err : Option ParseErr)
  | panic
  | timeout
  deriving DecidableEq

/-- The variables of `Parse` that live across iterations of its main loop. -/
structure State where
  idx : Nat
  total : Int
  usedUnits : List Bool
  deriving DecidableEq

/-- The read `runes[idx]`. -/
def runeAt (runes : List Nat) (idx : Nat) : Except Outcome Nat :=
  match runes.get? idx with
  | some c => .ok c
  | none => .error .panic

/-- The read `usedUnits[i]`. -/
def usedAt (usedUnits : List Bool) (i : Nat) : Except Outcome Bool :=
  match usedUnits.get? i with
  | some b => .ok b
  | none => .error .panic

/-- A write `a[i] = v` into a fixed-size array. -/
def setAt {α : Type} (a : List α) (i : Nat) (v : α) : Except Outcome (List α) :=
  if i < a.length then .ok (a.set i v) else .error .panic

/-- The loop `for ; idx < length && p(runes[idx]); idx++ {}`. -/
def skipWhile (p : Nat → Bool) (runes : List Nat) : Nat → Nat → Except Outcome Nat
  | 0, idx => if idx < runes.length then .error .timeout else .ok idx
  | fuel + 1, idx =>
    if idx < runes.length then
      match runeAt runes idx with
      | .error o => .error o
      | .ok c => if p c then skipWhile p runes fuel (idx + 1) else .ok idx
    else .ok idx

/-- The loop `for ; idx < length && unicode.IsDigit(runes[idx]); idx++` with body
`num = num*10 + int(runes[idx]-'0')`. -/
def scanDigits (T : UnicodeTables) (runes : List Nat) :
    Nat → Nat → Int → Except Outcome (Nat × Int)
  | 0, idx, num => if idx < runes.length then .error .timeout else .ok (idx, num)
  | fuel + 1, idx, num =>
    if idx < runes.length then
      match runeAt runes idx with
      | .error o => .error o
      | .ok c =>
        if IsDigit T c then
          scanDigits T runes fuel (idx + 1) (add64 (mul64 num 10) ((c : Int) - ('0'.toNat : Int)))
        else .ok (idx, num)
    else .ok (idx, num)

/-- The loop `for i := range unitLen { c := runes[unitStart+i]; unitBuf[i] = lower(c) }`;
`n` counts the iterations left. -/
def fillUnitBuf (runes : List Nat) (unitStart : Nat) :
    Nat → Nat → List Nat → Except Outcome (List Nat)
  | 0, _, unitBuf => .ok unitBuf
  | n + 1, i, unitBuf =>
    match runeAt runes (unitStart + i) with
    | .error o => .error o
    | .ok c =>
      match setAt unitBuf i (lower c) with
      | .error o => .error o
      | .ok unitBuf => fillUnitBuf runes unitStart n (i + 1) unitBuf

/-- The `switch unitLen` selecting the table and the key; reads of `unitBuf` at the
constant indices 0 to 3 are within the array of 12. -/
def lookupUnit (unitBuf : List Nat) (unitLen : Nat) : Except Outcome (Option unitDef) :=
  match unitLen with
  | 1 => .ok (unitMapLen1.lookup (unitBuf.getD 0 0))
  | 2 => .ok (unitMapLen2.lookup (hash2 (unitBuf.getD 0 0) (unitBuf.getD 1 0)))
  | 3 => .ok (unitMapLen3.lookup (hash3 (unitBuf.getD 0 0) (unitBuf.getD 1 0) (unitBuf.getD 2 0)))
  | 4 => .ok (unitMapLen4.lookup
      (hash4 (unitBuf.getD 0 0) (unitBuf.getD 1 0) (unitBuf.getD 2 0) (unitBuf.getD 3 0)))
  | _ =>
    if unitLen ≤ unitBuf.length then .ok (longUnits.lookup (unitBuf.take unitLen))
    else .error .panic

/-- The sign `switch` at the head of an iteration: the sign and the next position. -/
def scanSign (T : UnicodeTables) (runes : List Nat) (idx : Nat) : Except Outcome (Int × Nat) :=
  if idx < runes.length then
    match runeAt runes idx with
    | .error o => .error o
    | .ok c =>
      if c = '-'.toNat then .ok (-1, idx + 1)
      else if c = '+'.toNat then .ok (1, idx + 1)
      else if !IsDigit T c then .error (.ret 0 (some .missingNumber))
      else .ok (1, idx)
  else .ok (1, idx)

/-- From the unit token to the end of an iteration: lines 171 to 212 of `dur.go`, entered
with `idx = unitStart` and the signed number `num*sign` read before. -/
def scanUnit (T : UnicodeTables) (runes : List Nat) (st : State) (sign num : Int)
    (unitStart : Nat) : Except Outcome State :=
  match skipWhile (IsLetter T) runes runes.length unitStart with
  | .error o => .error o
  | .ok idx =>
    let unitLen := idx - unitStart
    if unitLen = 0 ∨ unitLen > 12 then .error (.ret 0 (some .bare))
    else
      match fillUnitBuf runes unitStart unitLen 0 (List.replicate 12 0) with
      | .error o => .error o
      | .ok unitBuf =>
        match lookupUnit unitBuf unitLen with
        | .error o => .error o
        | .ok none => .error (.ret 0 (some .unknownUnit))
        | .ok (some ud) =>
          match usedAt st.usedUnits ud.unitType with
          | .error o => .error o
          | .ok true => .error (.ret 0 (some .duplicateUnit))
          | .ok false =>
            match setAt st.usedUnits ud.unitType true with
            | .error o => .error o
            | .ok usedUnits =>
              let total := add64 st.total (mul64 (mul64 num sign) ud.dur)
              match skipWhile (IsSpace T) runes runes.length idx with
              | .error o => .error o
              | .ok idx => .ok ⟨idx, total, usedUnits⟩

/-- One iteration of the main loop `for idx < length { ... }`: `.ok` is the state at the
end of the body, `.error` a `return` (or a panic) inside it. -/
def body (T : UnicodeTables) (runes : List Nat) (st : State) : Except Outcome State :=
  match scanSign T runes st.idx with
  | .error o => .error o
  | .ok (sign, idx) =>
    match scanDigits T runes runes.length idx 0 with
    | .error o => .error o
    | .ok (idx, num) =>
      match skipWhile (IsSpace T) runes runes.length idx with
      | .error o => .error o
      | .ok idx =>
        if idx ≥ runes.length then .error (.ret 0 (some .missingUnit))
        else scanUnit T runes st sign num idx

/-- The main loop `for idx < length { ... }` followed by `return total, nil`. -/
def loop (T : UnicodeTables) (runes : List Nat) : Nat → State → Outcome
  | 0, st => if st.idx < runes.length then .timeout else .ret st.total none
  | fuel + 1, st =>
    if st.idx < runes.length then
      match body T runes st with
      | .error o => o
      | .ok st => loop T runes fuel st
    else .ret st.total none

/-- Go `Parse`, on the runes of its argument. -/
def ParseRunes (T : UnicodeTables) (runes : List Nat) : Outcome :=
  if runes = [] then .ret 0 (some .emptyString)
  else
    match skipWhile (IsSpace T) runes runes.length 0 with
    | .error o => o
    | .ok idx =>
      if idx ≥ runes.length then .ret 0 (some .emptyString)
      else loop T runes runes.length ⟨idx, 0, List.replicate 10 false⟩

/-- Go `Parse`. -/
def Parse (T : UnicodeTables) (s : String) : Outcome := ParseRunes T (runesOf s)

/-! ## The loops of `Parse` read on the remaining input -/

/-- The position `idx` of `runes` is in range and `rest` is what remains from it. -/
def At (runes : List Nat) (idx : Nat) (rest : List Nat) : Prop :=
  runes.drop idx = rest ∧ idx ≤ runes.length

/-- The number read by the digit loop from the digits it consumes. -/
def numOf (ds : List Nat) (num : Int) : Int :=
  List.foldl (fun (n : Int) (c : Nat) => add64 (mul64 n 10) ((c : Int) - ('0'.toNat : Int))) num ds

/-- The unit definition a lower-cased token resolves to: the table chosen by the length
of the token, the key computed from its characters. -/
def resolve : List Nat → Option unitDef
  | [a] => unitMapLen1.lookup a
  | [a, b] => unitMapLen2.lookup (hash2 a b)
  | [a, b, c] => unitMapLen3.lookup (hash3 a b c)
  | [a, b, c, d] => unitMapLen4.lookup (hash4 a b c d)
  | w => longUnits.lookup w

/-- The sign `switch` on the remaining input: the sign and what remains after it. -/
def signOn (T : UnicodeTables) (rest : List Nat) : Except Outcome (Int × List Nat) :=
  match rest with
  | [] => .ok (1, [])
  | c :: cs =>
    if c = '-'.toNat then .ok (-1, cs)
    else if c = '+'.toNat then .ok (1, cs)
    else if !IsDigit T c then .error (.ret 0 (some .missingNumber))
    else .ok (1, c :: cs)

/-- The unit part of an iteration on the remaining input `rest`, which starts at the
unit token: what remains after the iteration, the new total and the new marks. -/
def unitOn (T : UnicodeTables) (rest : List Nat) (total : Int) (usedUnits : List Bool)
    (sign num : Int) : Except Outcome (List Nat × Int × List Bool) :=
  let w := rest.takeWhile (IsLetter T)
  if w.length = 0 ∨ w.length > 12 then .error (.ret 0 (some .bare))
  else
    match resolve (w.map lower) with
    | none => .error (.ret 0 (some .unknownUnit))
    | some ud =>
      match usedAt usedUnits ud.unitType with
      | .error o => .error o
      | .ok true => .error (.ret 0 (some .duplicateUnit))
      | .ok false =>
        match setAt usedUnits ud.unitType true with
        | .error o => .error o
        | .ok used =>
          .ok ((rest.dropWhile (IsLetter T)).dropWhile (IsSpace T),
            add64 total (mul64 (mul64 num sign) ud.dur), used)

/-- One iteration of the main loop on the remaining input. -/
def bodyOn (T : UnicodeTables) (rest : List Nat) (total : Int) (usedUnits : List Bool) :
    Except Outcome (List Nat × Int × List Bool) :=
  match signOn T rest with
  | .error o => .error o
  | .ok (sign, r1) =>
    let r3 := (r1.dropWhile (IsDigit T)).dropWhile (IsSpace T)
    if r3 = [] then .error (.ret 0 (some .missingUnit))
    else unitOn T r3 total usedUnits sign (numOf (r1.takeWhile (IsDigit T)) 0)

/-- The main loop on the remaining input. -/
def loopOn (T : UnicodeTables) : Nat → List Nat → Int → List Bool → Outcome
  | 0, rest, total, _ => if rest = [] then .ret total none else .timeout
  | fuel + 1, rest, total, usedUnits =>
    if rest = [] then .ret total none
    else
      match bodyOn T rest total usedUnits with
      | .error o => o
      | .ok (r, tot, used) => loopOn T fuel r tot used

/-! ## Tokens: the inputs the statements below quantify over -/

/-- The recognized unit spellings, each with the unit definition it denotes. -/
def spellings : List (String × unitDef) := [
  ("y", defYear), ("yr", defYear), ("yrs", defYear), ("year", defYear), ("years", defYear),
  ("mon", defMonth), ("mons", defMonth), ("month", defMonth), ("months", defMonth),
  ("d", defDay), ("dy", defDay), ("day", defDay), ("dys", defDay), ("days", defDay),
  ("h", defHour), ("hr", defHour), ("hrs", defHour), ("hour", defHour), ("hours", defHour),
  ("m", defMinute), ("min", defMinute), ("mins", defMinute), ("minute", defMinute),
  ("minutes", defMinute),
  ("s", defSecond), ("sec", defSecond), ("secs", defSecond), ("second", defSecond),
  ("seconds", defSecond),
  ("ms", defMillisecond), ("milli", defMillisecond), ("millis", defMillisecond),
  ("millisecond", defMillisecond), ("milliseconds", defMillisecond),
  ("us", defMicrosecond), ("micro", defMicrosecond), ("micros", defMicrosecond),
  ("microsecond", defMicrosecond), ("microseconds", defMicrosecond),
  ("ns", defNanosecond), ("nano", defNanosecond), ("nanos", defNanosecond),
  ("nanosecond", defNanosecond), ("nanoseconds", defNanosecond)]

/-- The optional sign of a token. -/
inductive Sign where
  | none
  | plus
  | minus
  deriving DecidableEq

/-- The text of a sign. -/
def Sign.text : Sign → String
  | .none => ""
  | .plus => "+"
  | .minus => "-"

/-- The factor a sign stands for. -/
def Sign.factor : Sign → Int
  | .minus => -1
  | _ => 1

/-- A token: an optional sign, a run of digits, a unit spelling and the unit definition
the spelling denotes. -/
structure Token where
  sign : Sign
  digits : String
  spelling : String
  unit : unitDef
  deriving DecidableEq

/-- The text of a token. -/
def Token.text (t : Token) : String := t.sign.text ++ t.digits ++ t.spelling

/-- The number a run of decimal digits denotes. -/
def decimal (ds : List Nat) : Nat := ds.foldl (fun n c => 10 * n + (c - '0'.toNat)) 0

/-- The exact value of a token in nanoseconds: sign * value(digits) * nanoseconds per unit. -/
def Token.value (t : Token) : Int := t.sign.factor * (decimal (runesOf t.digits) : Int) * t.unit.dur

/-- A run of ASCII decimal digits. -/
def asciiDigits (s : String) : Prop := ∀ c ∈ runesOf s, '0'.toNat ≤ c ∧ c ≤ '9'.toNat

instance (s : String) : Decidable (asciiDigits s) := by
  unfold asciiDigits
  infer_instance

/-- A well-formed token: a non-empty run of ASCII digits and a recognized spelling. -/
def Token.WellFormed (t : Token) : Prop :=
  runesOf t.digits ≠ [] ∧ asciiDigits t.digits ∧ (t.spelling, t.unit) ∈ spellings

/-- A token the scanner reads as one token: as `WellFormed`, except that the digits may be
missing after an explicit sign. -/
def Token.Readable (t : Token) : Prop :=
  (t.sign ≠ .none ∨ runesOf t.digits ≠ []) ∧ asciiDigits t.digits ∧
    (t.spelling, t.unit) ∈ spellings

instance (t : Token) : Decidable t.Readable := by
  unfold Token.Readable asciiDigits
  infer_instance

instance (t : Token) : Decidable t.WellFormed := by
  unfold Token.WellFormed asciiDigits
  infer_instance

/-- The tokens joined by single spaces. -/
def joinTokens : List Token → String
  | [] => ""
  | [t] => t.text
  | t :: t2 :: ts => t.text ++ " " ++ joinTokens (t2 :: ts)

/-- What follows the text of the first token in a joined list: nothing, or a space and
the remaining tokens. -/
def afterFirst (ts : List Token) : List Nat :=
  match ts with
  | [] => []
  | _ :: _ => 32 :: runesOf (joinTokens ts)

/-- The canonical units of a list of tokens. -/
def unitsOf (ts : List Token) : List Nat := ts.map fun t => t.unit.unitType

/-- The exact sum of the values of a list of tokens. -/
def totalOf (ts : List Token) : Int := (ts.map Token.value).sum

/-- The character `c2` is `c1` or `c1` with the case of an ASCII letter changed. -/
def caseVariant (c1 c2 : Nat) : Prop :=
  c2 = c1 ∨ ('A'.toNat ≤ c1 ∧ c1 ≤ 'Z'.toNat ∧ c2 = c1 + 32) ∨
    ('a'.toNat ≤ c1 ∧ c1 ≤ 'z'.toNat ∧ c2 + 32 = c1)

instance (c1 c2 : Nat) : Decidable (caseVariant c1 c2) := by
  unfold caseVariant
  infer_instance

/-- The string `s2` is obtained from `s1` by changing the case of some of its ASCII
letters. -/
def caseVariants (s1 s2 : String) : Prop :=
  (runesOf s1).length = (runesOf s2).length ∧
    ∀ p ∈ (runesOf s1).zip (runesOf s2), caseVariant p.1 p.2

instance (s1 s2 : String) : Decidable (caseVariants s1 s2) := by
  unfold caseVariants
  infer_instance

/-! ## The states `Parse` goes through -/

/-- The states of the main loop at the head of an iteration, as `Parse` reaches them on
`runes`: the state after the leading white space, and the state at the end of the body of
an iteration entered from a state reached before. -/
inductive Reaches (T : UnicodeTables) (runes : List Nat) : State → Prop where
  | start (idx : Nat) : runes ≠ [] →
      skipWhile (IsSpace T) runes runes.length 0 = .ok idx → idx < runes.length →
      Reaches T runes ⟨idx, 0, List.replicate 10 false⟩
  | next (st st2 : State) : Reaches T runes st → st.idx < runes.length →
      body T runes st = .ok st2 → Reaches T runes st2

/-- The position `unitStart` at which the iteration entered in state `st` looks for its
unit token (line 171 of `dur.go`), when the iteration gets there. -/
def unitStartOf (T : UnicodeTables) (runes : List Nat) (st : State) : Option Nat :=
  match scanSign T runes st.idx with
  | .error _ => none
  | .ok (_, idx) =>
    match scanDigits T runes runes.length idx 0 with
    | .error _ => none
    | .ok (idx, _) =>
      match skipWhile (IsSpace T) runes runes.length idx with
      | .error _ => none
      | .ok idx => if idx ≥ runes.length then none else some idx

/-- The length of the maximal run of consecutive letters of `runes` from position `u`. -/
def letterRun (T : UnicodeTables) (runes : List Nat) (u : Nat) : Nat :=
  ((runes.drop u).takeWhile (IsLetter T)).length

/-! ## Further notions used in the statements -/

/-- The white space characters of the tables are neither digits nor letters of the
tables, as in every version of Unicode. -/
def UnicodeTables.Separated (T : UnicodeTables) : Prop :=
  ∀ c, T.White_Space c = true → T.Digit c = false ∧ T.Letter c = false

/-- A (possibly empty) run of white space characters. -/
def whiteSpace (T : UnicodeTables) (s : String) : Prop :=
  ∀ c ∈ runesOf s, IsSpace T c = true

instance (T : UnicodeTables) (s : String) : Decidable (whiteSpace T s) := by
  unfold whiteSpace
  infer_instance

/-- A token written with white space between its digits and its spelling (`mid`) and
white space behind it (`trail`). -/
structure Spaced where
  tok : Token
  mid : String
  trail : String
  deriving DecidableEq

/-- The text of a spaced token. -/
def Spaced.text (s : Spaced) : String :=
  s.tok.sign.text ++ s.tok.digits ++ s.mid ++ s.tok.spelling ++ s.trail

/-- The spaced tokens written one after the other. -/
def layout : List Spaced → String
  | [] => ""
  | s :: ss => s.text ++ layout ss

/-- The white space of a spaced token is white space for the scanner. -/
def Spaced.Blank (T : UnicodeTables) (s : Spaced) : Prop :=
  whiteSpace T s.mid ∧ whiteSpace T s.trail

instance (T : UnicodeTables) (s : Spaced) : Decidable (s.Blank T) := by
  unfold Spaced.Blank
  infer_instance

/-- The number of iterations of the main loop that are entered from state `st`, counted
with the loop of `loop`. -/
def iterations (T : UnicodeTables) (runes : List Nat) : Nat → State → Nat
  | 0, _ => 0
  | fuel + 1, st =>
    if st.idx < runes.length then
      match body T runes st with
      | .error _ => 1
      | .ok st => 1 + iterations T runes fuel st
    else 0

/-- The number of iterations of the main loop `Parse` enters on `runes`. -/
def iterationsOf (T : UnicodeTables) (runes : List Nat) : Nat :=
  if runes = [] then 0
  else
    match skipWhile (IsSpace T) runes runes.length 0 with
    | .error _ => 0
    | .ok idx =>
      if idx ≥ runes.length then 0
      else iterations T runes runes.length ⟨idx, 0, List.replicate 10 false⟩

/-- The number of marks in `usedUnits`. -/
def marks (usedUnits : List Bool) : Nat := usedUnits.count true

/-- The end of an iteration that has read the token `t`: the duplicate check, the mark and
the new total, with `rest` the input that remains. -/
def markUnit (t : Token) (total : Int) (usedUnits : List Bool) (rest : List Nat) :
    Except Outcome (List Nat × Int × List Bool) :=
  match usedAt usedUnits t.unit.unitType with
  | .error o => .error o
  | .ok true => .error (.ret 0 (some .duplicateUnit))
  | .ok false =>
    match setAt usedUnits t.unit.unitType true with
    | .error o => .error o
    | .ok used =>
      .ok (rest,
        add64 total (mul64 (mul64 (wrap64 (decimal (runesOf t.digits) : Int)) t.sign.factor)
          t.unit.dur), used)

/-- A run of ASCII letters. -/
def asciiLetters (s : String) : Prop :=
  ∀ c ∈ runesOf s, ('A'.toNat ≤ c ∧ c ≤ 'Z'.toNat) ∨ ('a'.toNat ≤ c ∧ c ≤ 'z'.toNat)

instance (s : String) : Decidable (asciiLetters s) := by
  unfold asciiLetters
  infer_instance


/-! ## Reading the loops on the remaining input -/


theorem At.length_eq {runes : List Nat} {idx : Nat} {rest : List Nat} (h : At runes idx rest) :
    idx + rest.length = runes.length := by
  obtain ⟨h1, h2⟩ := h
  subst h1
  simp only [List.length_drop]
  omega

theorem At.nil_iff {runes : List Nat} {idx : Nat} {rest : List Nat} (h : At runes idx rest) :
    rest = [] ↔ runes.length ≤ idx := by
  have := h.length_eq
  constructor
  · intro e; subst e; simp at this; omega
  · intro e
    have : rest.length = 0 := by omega
    exact List.length_eq_zero.mp this

theorem At.cons {runes : List Nat} {idx : Nat} {c : Nat} {cs : List Nat}
    (h : At runes idx (c :: cs)) :
    idx < runes.length ∧ runeAt runes idx = .ok c ∧ At runes (idx + 1) cs := by
  have hl := h.length_eq
  simp only [List.length_cons] at hl
  have hlt : idx < runes.length := by omega
  obtain ⟨h1, _⟩ := h
  rw [List.drop_eq_getElem_cons hlt] at h1
  injection h1 with h1 h2
  refine ⟨hlt, ?_, h2, by omega⟩
  simp [runeAt, List.getElem?_eq_getElem hlt, h1]

theorem At.drop {runes : List Nat} {idx : Nat} {rest : List Nat} (h : At runes idx rest)
    (k : Nat) (hk : k ≤ rest.length) : At runes (idx + k) (rest.drop k) := by
  have hl := h.length_eq
  obtain ⟨h1, _⟩ := h
  refine ⟨?_, by omega⟩
  rw [← h1, List.drop_drop]

theorem At.start (runes : List Nat) : At runes 0 runes := ⟨rfl, Nat.zero_le _⟩

theorem skipWhile_at (p : Nat → Bool) (runes : List Nat) :
    ∀ (fuel idx : Nat) (rest : List Nat), At runes idx rest → runes.length ≤ fuel + idx →
      skipWhile p runes fuel idx = .ok (idx + (rest.takeWhile p).length) := by
  intro fuel
  induction fuel with
  | zero =>
    intro idx rest h hf
    have hn : rest = [] := h.nil_iff.mpr (by omega)
    subst hn
    have : ¬ idx < runes.length := by omega
    simp [skipWhile, this]
  | succ fuel ih =>
    intro idx rest h hf
    cases rest with
    | nil =>
      have : ¬ idx < runes.length := by have := h.nil_iff.mp rfl; omega
      simp [skipWhile, this]
    | cons c cs =>
      obtain ⟨hlt, hr, hnext⟩ := h.cons
      simp only [skipWhile, hlt, if_true, hr]
      by_cases hp : p c = true
      · simp only [hp, if_true, List.takeWhile_cons_of_pos hp, List.length_cons]
        rw [ih (idx + 1) cs hnext (by omega)]
        congr 1; omega
      · simp [hp]

theorem length_takeWhile_le_length (p : Nat → Bool) (l : List Nat) :
    (l.takeWhile p).length ≤ l.length := by
  induction l with
  | nil => simp
  | cons a l ih =>
    by_cases h : p a = true
    · simp only [List.takeWhile_cons_of_pos h, List.length_cons]; omega
    · simp [List.takeWhile_cons_of_neg h]

theorem drop_length_takeWhile_eq (p : Nat → Bool) (l : List Nat) :
    l.drop (l.takeWhile p).length = l.dropWhile p := by
  induction l with
  | nil => simp
  | cons a l ih =>
    by_cases h : p a = true
    · simp [List.takeWhile_cons_of_pos h, List.dropWhile_cons_of_pos h, ih]
    · simp [List.takeWhile_cons_of_neg h, List.dropWhile_cons_of_neg h]

theorem At.dropWhile {runes : List Nat} {idx : Nat} {rest : List Nat} (h : At runes idx rest)
    (p : Nat → Bool) : At runes (idx + (rest.takeWhile p).length) (rest.dropWhile p) := by
  have := h.drop (rest.takeWhile p).length (length_takeWhile_le_length p rest)
  rwa [drop_length_takeWhile_eq] at this

theorem scanDigits_at (T : UnicodeTables) (runes : List Nat) :
    ∀ (fuel idx : Nat) (num : Int) (rest : List Nat), At runes idx rest →
      runes.length ≤ fuel + idx →
      scanDigits T runes fuel idx num =
        .ok (idx + (rest.takeWhile (IsDigit T)).length, numOf (rest.takeWhile (IsDigit T)) num) := by
  intro fuel
  induction fuel with
  | zero =>
    intro idx num rest h hf
    have hn : rest = [] := h.nil_iff.mpr (by omega)
    subst hn
    have : ¬ idx < runes.length := by omega
    simp [scanDigits, this, numOf]
  | succ fuel ih =>
    intro idx num rest h hf
    cases rest with
    | nil =>
      have : ¬ idx < runes.length := by have := h.nil_iff.mp rfl; omega
      simp [scanDigits, this, numOf]
    | cons c cs =>
      obtain ⟨hlt, hr, hnext⟩ := h.cons
      simp only [scanDigits, hlt, if_true, hr]
      by_cases hp : IsDigit T c = true
      · simp only [hp, if_true, List.takeWhile_cons_of_pos hp, List.length_cons]
        rw [ih (idx + 1) _ cs hnext (by omega)]
        simp only [numOf, List.foldl_cons]
        congr 2; omega
      · simp [hp, numOf]


theorem take_length_takeWhile_eq (p : Nat → Bool) (l : List Nat) :
    l.take (l.takeWhile p).length = l.takeWhile p := by
  induction l with
  | nil => simp
  | cons a l ih =>
    by_cases h : p a = true
    · simp [List.takeWhile_cons_of_pos h, ih]
    · simp [List.takeWhile_cons_of_neg h]

theorem fillUnitBuf_at (runes : List Nat) (unitStart : Nat) :
    ∀ (n i : Nat) (unitBuf rest : List Nat), At runes (unitStart + i) rest → n ≤ rest.length →
      i + n ≤ unitBuf.length →
      fillUnitBuf runes unitStart n i unitBuf =
        .ok (unitBuf.take i ++ (rest.take n).map lower ++ unitBuf.drop (i + n)) := by
  intro n
  induction n with
  | zero =>
    intro i unitBuf rest _ _ _
    simp [fillUnitBuf]
  | succ n ih =>
    intro i unitBuf rest h hn hb
    cases rest with
    | nil => simp at hn
    | cons c cs =>
      obtain ⟨_, hr, hnext⟩ := h.cons
      have hi : i < unitBuf.length := by omega
      simp only [List.length_cons] at hn
      simp only [fillUnitBuf, hr, setAt, hi, if_true]
      rw [ih (i + 1) _ cs hnext (by omega) (by simp only [List.length_set]; omega)]
      congr 1
      rw [List.set_eq_take_append_cons_drop]
      simp only [hi, if_true]
      have e1 : (List.take i unitBuf ++ lower c :: List.drop (i + 1) unitBuf).take (i + 1)
          = List.take i unitBuf ++ [lower c] := by
        rw [List.take_append_eq_append_take]
        simp [List.length_take, Nat.min_eq_left (Nat.le_of_lt hi)]
      have e2 : (List.take i unitBuf ++ lower c :: List.drop (i + 1) unitBuf).drop (i + 1 + n)
          = List.drop (i + (n + 1)) unitBuf := by
        rw [List.drop_append_eq_append_drop]
        simp only [List.length_take, Nat.min_eq_left (Nat.le_of_lt hi)]
        have : i + 1 + n - i = n + 1 := by omega
        rw [this, List.drop_succ_cons, List.drop_drop]
        have : List.drop (i + 1 + n) (List.take i unitBuf) = [] := by
          apply List.drop_eq_nil_of_le
          simp only [List.length_take]; omega
        rw [this]
        simp only [List.nil_append]
        congr 1; omega
      rw [e1, e2]
      simp [List.take_succ_cons]

theorem lookupUnit_eq (w : List Nat) (pad : List Nat) (h1 : 0 < w.length) :
    lookupUnit (w ++ pad) w.length = .ok (resolve w) := by
  match w, h1 with
  | [a], _ => simp [lookupUnit, resolve]
  | [a, b], _ => simp [lookupUnit, resolve]
  | [a, b, c], _ => simp [lookupUnit, resolve]
  | [a, b, c, d], _ => simp [lookupUnit, resolve]
  | a :: b :: c :: d :: e :: t, _ =>
    have hl : (a :: b :: c :: d :: e :: t).length = t.length + 5 := by simp
    rw [hl]
    have ht : List.take (t.length + 5) (a :: b :: c :: d :: e :: t ++ pad)
        = a :: b :: c :: d :: e :: t := by
      rw [← hl]; exact List.take_left' rfl
    simp only [lookupUnit, resolve]
    rw [ht]
    simp


theorem scanSign_at (T : UnicodeTables) (runes : List Nat) (idx : Nat) (rest : List Nat)
    (h : At runes idx rest) :
    scanSign T runes idx =
      match signOn T rest with
      | .error o => .error o
      | .ok (sign, r) => .ok (sign, runes.length - r.length) := by
  cases rest with
  | nil =>
    have hl := h.length_eq
    have : ¬ idx < runes.length := by simp at hl; omega
    simp only [scanSign, this, if_false, signOn, List.length_nil]
    simp at hl
    simp [hl]
  | cons c cs =>
    obtain ⟨hlt, hr, hnext⟩ := h.cons
    have hl := h.length_eq
    have hl2 := hnext.length_eq
    simp only [List.length_cons] at hl
    simp only [scanSign, hlt, if_true, hr, signOn]
    by_cases h1 : c = '-'.toNat
    · simp only [h1, if_true]
      congr 2; omega
    · by_cases h2 : c = '+'.toNat
      · simp only [h1, h2, if_true, if_false]
        split
        · simp_all
        · congr 2; omega
      · simp only [h1, h2, if_false]
        by_cases h3 : IsDigit T c = true
        · simp only [h3, Bool.not_true, if_false, List.length_cons, Bool.false_eq_true]
          congr 2; omega
        · simp [h3]

theorem signOn_at (T : UnicodeTables) (runes : List Nat) (idx : Nat) (rest : List Nat)
    (h : At runes idx rest) (sign : Int) (r : List Nat) (hs : signOn T rest = .ok (sign, r)) :
    At runes (runes.length - r.length) r ∧ r.length ≤ rest.length ∧
      (rest ≠ [] → r.length = rest.length → IsDigit T (rest.headD 0) = true) := by
  cases rest with
  | nil =>
    simp only [signOn] at hs
    injection hs with hs
    injection hs with _ hs
    subst hs
    have := h.length_eq
    simp at this
    simp only [List.length_nil, Nat.sub_zero]
    refine ⟨?_, Nat.le_refl _, fun hne => absurd rfl hne⟩
    rw [← this]; exact h
  | cons c cs =>
    obtain ⟨hlt, hr, hnext⟩ := h.cons
    have hl := h.length_eq
    have hl2 := hnext.length_eq
    simp only [List.length_cons] at hl
    simp only [signOn] at hs
    by_cases h1 : c = '-'.toNat
    · simp only [h1, if_true] at hs
      injection hs with hs; injection hs with _ hs; subst hs
      refine ⟨?_, by simp, fun _ hh => by simp at hh⟩
      have : runes.length - cs.length = idx + 1 := by omega
      rw [this]; exact hnext
    · by_cases h2 : c = '+'.toNat
      · simp only [h1, h2, if_true, if_false] at hs
        split at hs
        · simp_all
        · injection hs with hs; injection hs with _ hs; subst hs
          refine ⟨?_, by simp, fun _ hh => by simp at hh⟩
          have : runes.length - cs.length = idx + 1 := by omega
          rw [this]; exact hnext
      · by_cases h3 : IsDigit T c = true
        · simp only [h1, h2, h3, if_false, Bool.not_true, Bool.false_eq_true] at hs
          injection hs with hs; injection hs with _ hs; subst hs
          refine ⟨?_, Nat.le_refl _, fun _ _ => by simpa using h3⟩
          have : runes.length - (c :: cs).length = idx := by simp only [List.length_cons]; omega
          rw [this]; exact h
        · rw [if_neg h1, if_neg h2] at hs
          simp [h3] at hs


theorem scanUnit_at (T : UnicodeTables) (runes : List Nat) (st : State) (sign num : Int)
    (unitStart : Nat) (rest : List Nat) (h : At runes unitStart rest) :
    scanUnit T runes st sign num unitStart =
      match unitOn T rest st.total st.usedUnits sign num with
      | .error o => .error o
      | .ok (r, tot, used) => .ok ⟨runes.length - r.length, tot, used⟩ := by
  have hw := length_takeWhile_le_length (IsLetter T) rest
  have h2 := h.dropWhile (IsLetter T)
  have h3 := h2.dropWhile (IsSpace T)
  have hl3 := h3.length_eq
  simp only [scanUnit, unitOn]
  rw [skipWhile_at (IsLetter T) runes runes.length unitStart rest h (by omega)]
  simp only [Nat.add_sub_cancel_left]
  by_cases hlen : (rest.takeWhile (IsLetter T)).length = 0 ∨
      (rest.takeWhile (IsLetter T)).length > 12
  · simp only [hlen, if_true]
  · simp only [hlen, if_false]
    have hpos : 0 < (rest.takeWhile (IsLetter T)).length := by omega
    have hle : (rest.takeWhile (IsLetter T)).length ≤ 12 := by omega
    rw [fillUnitBuf_at runes unitStart _ 0 _ rest (by simpa using h) hw (by simpa using hle)]
    simp only [List.take_zero, List.nil_append, Nat.zero_add, take_length_takeWhile_eq]
    have hlk := lookupUnit_eq ((rest.takeWhile (IsLetter T)).map lower)
      (List.drop (rest.takeWhile (IsLetter T)).length (List.replicate 12 0))
      (by simpa using hpos)
    simp only [List.length_map] at hlk
    rw [hlk]
    cases hres : resolve ((rest.takeWhile (IsLetter T)).map lower) with
    | none => rfl
    | some ud =>
      simp only []
      cases hu : usedAt st.usedUnits ud.unitType with
      | error o => rfl
      | ok b =>
        cases b with
        | true => rfl
        | false =>
          simp only []
          cases hset : setAt st.usedUnits ud.unitType true with
          | error o => rfl
          | ok used =>
            simp only []
            rw [skipWhile_at (IsSpace T) runes runes.length _ _ h2 (by omega)]
            have e : unitStart + (rest.takeWhile (IsLetter T)).length +
                ((rest.dropWhile (IsLetter T)).takeWhile (IsSpace T)).length =
                runes.length - ((rest.dropWhile (IsLetter T)).dropWhile (IsSpace T)).length := by
              omega
            rw [e]

theorem body_at (T : UnicodeTables) (runes : List Nat) (st : State) (rest : List Nat)
    (h : At runes st.idx rest) :
    body T runes st =
      match bodyOn T rest st.total st.usedUnits with
      | .error o => .error o
      | .ok (r, tot, used) => .ok ⟨runes.length - r.length, tot, used⟩ := by
  simp only [body, bodyOn]
  rw [scanSign_at T runes st.idx rest h]
  cases hs : signOn T rest with
  | error o => rfl
  | ok p =>
    obtain ⟨sign, r1⟩ := p
    obtain ⟨h1, _, _⟩ := signOn_at T runes st.idx rest h sign r1 hs
    have h2 := h1.dropWhile (IsDigit T)
    have h3 := h2.dropWhile (IsSpace T)
    simp only []
    rw [scanDigits_at T runes runes.length _ 0 r1 h1 (by omega)]
    simp only []
    rw [skipWhile_at (IsSpace T) runes runes.length _ _ h2 (by omega)]
    simp only []
    have hnil := h3.nil_iff
    by_cases hr3 : (r1.dropWhile (IsDigit T)).dropWhile (IsSpace T) = []
    · have := hnil.mp hr3
      simp only [hr3, if_true, ge_iff_le, this]
    · have : ¬ runes.length ≤ runes.length - r1.length + (r1.takeWhile (IsDigit T)).length +
          ((r1.dropWhile (IsDigit T)).takeWhile (IsSpace T)).length := fun hh => hr3 (hnil.mpr hh)
      simp only [hr3, if_false, ge_iff_le, this]
      exact scanUnit_at T runes st sign _ _ _ h3


theorem length_takeWhile_add_dropWhile (p : Nat → Bool) (l : List Nat) :
    (l.takeWhile p).length + (l.dropWhile p).length = l.length := by
  have := ((At.start l).dropWhile p).length_eq
  omega

theorem length_dropWhile_le_length (p : Nat → Bool) (l : List Nat) :
    (l.dropWhile p).length ≤ l.length := by
  have := length_takeWhile_add_dropWhile p l
  omega

theorem unitOn_ok (T : UnicodeTables) (rest : List Nat) (total : Int) (usedUnits : List Bool)
    (sign num : Int) (r : List Nat) (tot : Int) (used : List Bool)
    (h : unitOn T rest total usedUnits sign num = .ok (r, tot, used)) :
    0 < (rest.takeWhile (IsLetter T)).length ∧ (rest.takeWhile (IsLetter T)).length ≤ 12 ∧
    r = (rest.dropWhile (IsLetter T)).dropWhile (IsSpace T) ∧
    ∃ ud, resolve ((rest.takeWhile (IsLetter T)).map lower) = some ud ∧
      usedAt usedUnits ud.unitType = .ok false ∧
      setAt usedUnits ud.unitType true = .ok used ∧
      tot = add64 total (mul64 (mul64 num sign) ud.dur) := by
  simp only [unitOn] at h
  split at h
  · cases h
  · rename_i hlen
    have hpos : 0 < (rest.takeWhile (IsLetter T)).length := by omega
    have hle : (rest.takeWhile (IsLetter T)).length ≤ 12 := by omega
    cases hres : resolve ((rest.takeWhile (IsLetter T)).map lower) with
    | none => simp [hres] at h
    | some ud =>
      simp only [hres] at h
      cases hu : usedAt usedUnits ud.unitType with
      | error o => simp [hu] at h
      | ok b =>
        cases b with
        | true => simp [hu] at h
        | false =>
          simp only [hu] at h
          cases hset : setAt usedUnits ud.unitType true with
          | error o => simp [hset] at h
          | ok used2 =>
            simp only [hset] at h
            injection h with h
            injection h with ha hb
            injection hb with hb hc
            subst hc
            exact ⟨hpos, hle, ha.symm, ud, rfl, hu, hset, hb.symm⟩

theorem bodyOn_at (T : UnicodeTables) (runes : List Nat) (idx : Nat) (rest : List Nat)
    (h : At runes idx rest) (total : Int) (usedUnits : List Bool) (r : List Nat) (tot : Int)
    (used : List Bool) (hb : bodyOn T rest total usedUnits = .ok (r, tot, used)) :
    At runes (runes.length - r.length) r ∧ r.length < rest.length := by
  simp only [bodyOn] at hb
  cases hs : signOn T rest with
  | error o => simp [hs] at hb
  | ok p =>
    obtain ⟨sign, r1⟩ := p
    obtain ⟨h1, hle1, _⟩ := signOn_at T runes idx rest h sign r1 hs
    simp only [hs] at hb
    split at hb
    · cases hb
    · obtain ⟨hpos, _, hr, _⟩ := unitOn_ok T _ _ _ _ _ _ _ _ hb
      have h2 := h1.dropWhile (IsDigit T)
      have h3 := h2.dropWhile (IsSpace T)
      have h4 := h3.dropWhile (IsLetter T)
      have h5 := h4.dropWhile (IsSpace T)
      rw [← hr] at h5
      have l1 := h1.length_eq
      have l5 := h5.length_eq
      have l0 := h.length_eq
      refine ⟨?_, by omega⟩
      have e : runes.length - r.length = runes.length - r1.length +
          (r1.takeWhile (IsDigit T)).length +
          ((r1.dropWhile (IsDigit T)).takeWhile (IsSpace T)).length +
          (((r1.dropWhile (IsDigit T)).dropWhile (IsSpace T)).takeWhile (IsLetter T)).length +
          ((((r1.dropWhile (IsDigit T)).dropWhile (IsSpace T)).dropWhile
            (IsLetter T)).takeWhile (IsSpace T)).length := by omega
      rw [e]; exact h5

theorem bodyOn_length_lt (T : UnicodeTables) (rest : List Nat) (total : Int)
    (usedUnits : List Bool) (r : List Nat) (tot : Int) (used : List Bool)
    (hb : bodyOn T rest total usedUnits = .ok (r, tot, used)) : r.length < rest.length :=
  (bodyOn_at T rest 0 rest (At.start rest) total usedUnits r tot used hb).2

theorem loop_eq_loopOn (T : UnicodeTables) (runes : List Nat) :
    ∀ (fuel : Nat) (st : State) (rest : List Nat), At runes st.idx rest →
      loop T runes fuel st = loopOn T fuel rest st.total st.usedUnits := by
  intro fuel
  induction fuel with
  | zero =>
    intro st rest h
    have hn := h.nil_iff
    by_cases hr : rest = []
    · have : ¬ st.idx < runes.length := by have := hn.mp hr; omega
      simp [loop, loopOn, hr, this]
    · have : st.idx < runes.length := by
        by_contra hh; exact hr (hn.mpr (by omega))
      simp [loop, loopOn, hr, this]
  | succ fuel ih =>
    intro st rest h
    have hn := h.nil_iff
    by_cases hr : rest = []
    · have : ¬ st.idx < runes.length := by have := hn.mp hr; omega
      simp [loop, loopOn, hr, this]
    · have : st.idx < runes.length := by
        by_contra hh; exact hr (hn.mpr (by omega))
      simp only [loop, loopOn, hr, this, if_true, if_false]
      rw [body_at T runes st rest h]
      cases hb : bodyOn T rest st.total st.usedUnits with
      | error o => rfl
      | ok p =>
        obtain ⟨r, tot, used⟩ := p
        obtain ⟨hat, _⟩ := bodyOn_at T runes st.idx rest h _ _ r tot used hb
        simp only []
        exact ih ⟨runes.length - r.length, tot, used⟩ r hat

theorem loopOn_fuel (T : UnicodeTables) :
    ∀ (f1 f2 : Nat) (rest : List Nat) (total : Int) (usedUnits : List Bool),
      rest.length ≤ f1 → rest.length ≤ f2 →
      loopOn T f1 rest total usedUnits = loopOn T f2 rest total usedUnits := by
  intro f1
  induction f1 with
  | zero =>
    intro f2 rest total usedUnits h1 _
    have : rest = [] := List.length_eq_zero.mp (by omega)
    subst this
    cases f2 <;> simp [loopOn]
  | succ f1 ih =>
    intro f2 rest total usedUnits h1 h2
    cases f2 with
    | zero =>
      have : rest = [] := List.length_eq_zero.mp (by omega)
      subst this
      simp [loopOn]
    | succ f2 =>
      by_cases hr : rest = []
      · simp [loopOn, hr]
      · simp only [loopOn, hr, if_false]
        cases hb : bodyOn T rest total usedUnits with
        | error o => rfl
        | ok p =>
          obtain ⟨r, tot, used⟩ := p
          have := bodyOn_length_lt T rest total usedUnits r tot used hb
          simp only []
          exact ih f2 r tot used (by omega) (by omega)

theorem ParseRunes_eq (T : UnicodeTables) (runes : List Nat) :
    ParseRunes T runes =
      if runes.dropWhile (IsSpace T) = [] then .ret 0 (some .emptyString)
      else loopOn T runes.length (runes.dropWhile (IsSpace T)) 0 (List.replicate 10 false) := by
  simp only [ParseRunes]
  by_cases h0 : runes = []
  · simp [h0]
  · simp only [h0, if_false]
    have hat := (At.start runes).dropWhile (IsSpace T)
    rw [skipWhile_at (IsSpace T) runes runes.length 0 runes (At.start runes) (by omega)]
    simp only []
    have hn := hat.nil_iff
    by_cases hr : runes.dropWhile (IsSpace T) = []
    · have := hn.mp hr
      simp only [hr, if_true, ge_iff_le, this]
    · have : ¬ runes.length ≤ 0 + (runes.takeWhile (IsSpace T)).length :=
        fun hh => hr (hn.mpr hh)
      simp only [hr, if_false, ge_iff_le, this]
      exact loop_eq_loopOn T runes runes.length ⟨_, 0, List.replicate 10 false⟩ _ hat

theorem ParseRunes_of_fuel (T : UnicodeTables) (runes : List Nat) (fuel : Nat)
    (hr : runes.dropWhile (IsSpace T) ≠ [])
    (hf : (runes.dropWhile (IsSpace T)).length ≤ fuel) :
    ParseRunes T runes =
      loopOn T fuel (runes.dropWhile (IsSpace T)) 0 (List.replicate 10 false) := by
  rw [ParseRunes_eq, if_neg hr]
  exact loopOn_fuel T _ _ _ _ _ (length_dropWhile_le_length _ _) hf


/-! ## Arithmetic modulo `2^64` -/

theorem wrap64_modEq (x : Int) : wrap64 x ≡ x [ZMOD 18446744073709551616] := by
  unfold wrap64
  have h : (x + 9223372036854775808) % 18446744073709551616 ≡ x + 9223372036854775808
      [ZMOD 18446744073709551616] := Int.mod_modEq _ _
  have := h.sub_right 9223372036854775808
  simpa using this

theorem wrap64_congr {x y : Int} (h : x ≡ y [ZMOD 18446744073709551616]) :
    wrap64 x = wrap64 y := by
  unfold wrap64
  have : (x + 9223372036854775808) % 18446744073709551616 =
      (y + 9223372036854775808) % 18446744073709551616 := h.add_right _
  rw [this]

theorem wrap64_range (x : Int) :
    -9223372036854775808 ≤ wrap64 x ∧ wrap64 x < 9223372036854775808 := by
  unfold wrap64
  have h1 := Int.emod_nonneg (x + 9223372036854775808)
    (show (18446744073709551616 : Int) ≠ 0 by decide)
  have h2 := Int.emod_lt_of_pos (x + 9223372036854775808)
    (show (0 : Int) < 18446744073709551616 by decide)
  constructor <;> omega

theorem wrap64_of_range {x : Int} (h1 : -9223372036854775808 ≤ x)
    (h2 : x < 9223372036854775808) : wrap64 x = x := by
  unfold wrap64
  rw [Int.emod_eq_of_lt (by omega) (by omega)]
  omega

theorem wrap64_idem (x : Int) : wrap64 (wrap64 x) = wrap64 x :=
  wrap64_congr (wrap64_modEq x)

theorem add64_wrap (a b : Int) : add64 (wrap64 a) b = wrap64 (a + b) :=
  wrap64_congr ((wrap64_modEq a).add_right b)

theorem mul64_wrap (a b : Int) : mul64 (wrap64 a) b = wrap64 (a * b) :=
  wrap64_congr ((wrap64_modEq a).mul_right b)

theorem add64_wrap_wrap (a b : Int) : add64 (wrap64 a) (wrap64 b) = wrap64 (a + b) :=
  wrap64_congr ((wrap64_modEq a).add (wrap64_modEq b))

/-! ## Splitting the input at the end of a run -/

theorem takeWhile_append_stop (p : Nat → Bool) (a b : List Nat)
    (ha : ∀ x ∈ a, p x = true) (hb : ∀ c ∈ b.head?, p c = false) :
    (a ++ b).takeWhile p = a ∧ (a ++ b).dropWhile p = b := by
  induction a with
  | nil =>
    cases b with
    | nil => simp
    | cons c cs =>
      have : p c = false := hb c (by simp)
      simp [List.takeWhile_cons, List.dropWhile_cons, this]
  | cons x xs ih =>
    have hx : p x = true := ha x (by simp)
    have := ih (fun y hy => ha y (by simp [hy]))
    simp [List.takeWhile_cons, List.dropWhile_cons, hx, this]

theorem dropWhile_stop (p : Nat → Bool) (b : List Nat) (hb : ∀ c ∈ b.head?, p c = false) :
    b.dropWhile p = b := by
  have := (takeWhile_append_stop p [] b (by simp) hb).2
  simpa using this


/-! ## Character classes of the characters of a token -/

theorem runesOf_append (a b : String) : runesOf (a ++ b) = runesOf a ++ runesOf b := by
  simp [runesOf, String.data_append]

theorem lowerLetter_class (T : UnicodeTables) (c : Nat) (h1 : 97 ≤ c) (h2 : c ≤ 122) :
    IsLetter T c = true ∧ lower c = c ∧ IsDigit T c = false ∧ IsSpace T c = false := by
  have h255 : c ≤ MaxLatin1 := by unfold MaxLatin1; omega
  refine ⟨?_, ?_, ?_, ?_⟩
  · simp only [IsLetter, h255, if_true, latin1Letter]
    have : decide (0x61 ≤ c) = true ∧ decide (c ≤ 0x7A) = true := by
      constructor <;> simp <;> omega
    simp [this.1, this.2]
  · have : ¬ (c ≥ 'A'.toNat ∧ c ≤ 'Z'.toNat) := by
      have : 'Z'.toNat = 90 := by decide
      omega
    simp only [lower, this, if_false]
  · simp only [IsDigit, h255, if_true]
    have : decide (c ≤ 0x39) = false := by simp; omega
    simp [this]
  · simp only [IsSpace, h255, if_true]
    have : ∀ k, k < 97 ∨ 122 < k → (c == k) = false := by
      intro k hk; simp; omega
    simp [this]

theorem digit_class (T : UnicodeTables) (c : Nat) (h1 : 48 ≤ c) (h2 : c ≤ 57) :
    IsDigit T c = true ∧ c ≠ 45 ∧ c ≠ 43 ∧ IsLetter T c = false ∧ IsSpace T c = false := by
  have h255 : c ≤ MaxLatin1 := by unfold MaxLatin1; omega
  refine ⟨?_, by omega, by omega, ?_, ?_⟩
  · simp only [IsDigit, h255, if_true]
    have : decide (0x30 ≤ c) = true ∧ decide (c ≤ 0x39) = true := by
      constructor <;> simp <;> omega
    simp [this.1, this.2]
  · simp only [IsLetter, h255, if_true, latin1Letter]
    have a1 : decide (0x41 ≤ c) = false := by simp; omega
    have a2 : decide (0x61 ≤ c) = false := by simp; omega
    have a3 : decide (0xC0 ≤ c) = false := by simp; omega
    have a4 : decide (0xD8 ≤ c) = false := by simp; omega
    have a5 : decide (0xF8 ≤ c) = false := by simp; omega
    have : ∀ k, k < 48 ∨ 57 < k → (c == k) = false := by
      intro k hk; simp; omega
    simp [a1, a2, a3, a4, a5, this]
  · simp only [IsSpace, h255, if_true]
    have : ∀ k, k < 48 ∨ 57 < k → (c == k) = false := by
      intro k hk; simp; omega
    simp [this]

theorem space_class (T : UnicodeTables) :
    IsSpace T 32 = true ∧ IsLetter T 32 = false ∧ IsDigit T 32 = false := by
  refine ⟨?_, ?_, ?_⟩ <;> simp [IsSpace, IsLetter, IsDigit, MaxLatin1, latin1Letter]

theorem sign_class (T : UnicodeTables) (c : Nat) (h : c = 43 ∨ c = 45) :
    IsSpace T c = false ∧ IsLetter T c = false ∧ IsDigit T c = false := by
  rcases h with h | h <;> subst h <;>
    refine ⟨?_, ?_, ?_⟩ <;> simp [IsSpace, IsLetter, IsDigit, MaxLatin1, latin1Letter]

set_option maxRecDepth 100000 in
theorem spellings_facts : ∀ p ∈ spellings,
    0 < (runesOf p.1).length ∧ (runesOf p.1).length ≤ 12 ∧
    (∀ c ∈ runesOf p.1, 97 ≤ c ∧ c ≤ 122) ∧ resolve (runesOf p.1) = some p.2 ∧
    1 ≤ p.2.unitType ∧ p.2.unitType ≤ 9 := by
  decide


/-! ## One iteration on a well-formed token -/

theorem numOf_wrap (ds : List Nat) : ∀ (m : Int),
    numOf ds (wrap64 m) =
      wrap64 (List.foldl (fun (n : Int) (c : Nat) => 10 * n + ((c : Int) - 48)) m ds) := by
  induction ds with
  | nil => intro m; simp [numOf, wrap64_idem]
  | cons c cs ih =>
    intro m
    have := ih (10 * m + ((c : Int) - 48))
    simp only [numOf, List.foldl_cons] at this ⊢
    rw [← this]
    congr 1
    rw [mul64_wrap, add64_wrap]
    have : ('0'.toNat : Int) = 48 := by decide
    rw [this, Int.mul_comm]

theorem decimal_cast (ds : List Nat) (h : ∀ c ∈ ds, 48 ≤ c) : ∀ (m : Nat),
    List.foldl (fun (n : Int) (c : Nat) => 10 * n + ((c : Int) - 48)) (m : Int) ds =
      ((List.foldl (fun (n c : Nat) => 10 * n + (c - 48)) m ds : Nat) : Int) := by
  induction ds with
  | nil => intro m; simp
  | cons c cs ih =>
    intro m
    have hc : 48 ≤ c := h c (by simp)
    have := ih (fun x hx => h x (by simp [hx])) (10 * m + (c - 48))
    simp only [List.foldl_cons]
    rw [← this]
    congr 1
    omega

theorem numOf_digits (ds : List Nat) (h : ∀ c ∈ ds, 48 ≤ c) :
    numOf ds 0 = wrap64 (decimal ds : Int) := by
  have h0 : (0 : Int) = wrap64 0 := by decide
  have := numOf_wrap ds 0
  rw [← h0] at this
  rw [this]
  have := decimal_cast ds h 0
  simp only [Nat.cast_zero] at this
  rw [this]
  rfl

theorem signOn_token (T : UnicodeTables) (sg : Sign) (rest : List Nat)
    (h : sg ≠ .none ∨ ∃ d ds, rest = d :: ds ∧ 48 ≤ d ∧ d ≤ 57) :
    signOn T (runesOf sg.text ++ rest) = .ok (sg.factor, rest) := by
  cases sg with
  | none =>
    rcases h with h | ⟨d, ds, hr, hd1, hd2⟩
    · exact absurd rfl h
    · obtain ⟨h1, h2, h3, _, _⟩ := digit_class T d hd1 hd2
      have : runesOf Sign.none.text = [] := by decide
      rw [this, hr]
      simp only [List.nil_append, signOn]
      have e1 : ¬ d = '-'.toNat := h2
      have e2 : ¬ d = '+'.toNat := h3
      rw [if_neg e1, if_neg e2]
      simp [h1, Sign.factor]
  | plus =>
    have : runesOf Sign.plus.text = [43] := by decide
    rw [this]
    have e1 : ¬ (43 : Nat) = '-'.toNat := by decide
    have e2 : (43 : Nat) = '+'.toNat := by decide
    simp only [List.cons_append, List.nil_append, signOn]
    rw [if_neg e1, if_pos e2]
    rfl
  | minus =>
    have : runesOf Sign.minus.text = [45] := by decide
    rw [this]
    have e1 : (45 : Nat) = '-'.toNat := by decide
    simp only [List.cons_append, List.nil_append, signOn]
    rw [if_pos e1]
    rfl

theorem bodyOn_token (T : UnicodeTables) (t : Token) (ht : t.Readable) (tail : List Nat)
    (htail : ∀ c ∈ tail.head?, IsLetter T c = false) (total : Int) (usedUnits : List Bool) :
    bodyOn T (runesOf t.text ++ tail) total usedUnits =
      match usedAt usedUnits t.unit.unitType with
      | .error o => .error o
      | .ok true => .error (.ret 0 (some .duplicateUnit))
      | .ok false =>
        match setAt usedUnits t.unit.unitType true with
        | .error o => .error o
        | .ok used =>
          .ok (tail.dropWhile (IsSpace T),
            add64 total (mul64 (mul64 (wrap64 (decimal (runesOf t.digits) : Int)) t.sign.factor)
              t.unit.dur), used) := by
  obtain ⟨hne, hdig, hsp⟩ := ht
  obtain ⟨hpos, hle, hlet, hres, _, _⟩ := spellings_facts _ hsp
  simp only [] at hpos hle hlet hres
  have hdig2 : ∀ c ∈ runesOf t.digits, 48 ≤ c ∧ c ≤ 57 := hdig
  -- shape of the text
  have htext : runesOf t.text ++ tail =
      runesOf t.sign.text ++ (runesOf t.digits ++ (runesOf t.spelling ++ tail)) := by
    simp only [Token.text, runesOf_append, List.append_assoc]
  rw [htext]
  obtain ⟨w0, ws, hw⟩ : ∃ w0 ws, runesOf t.spelling = w0 :: ws := by
    cases h : runesOf t.spelling with
    | nil => rw [h] at hpos; simp at hpos
    | cons a b => exact ⟨a, b, rfl⟩
  have hw0 := lowerLetter_class T w0 (hlet w0 (by simp [hw])).1 (hlet w0 (by simp [hw])).2
  have hsign := signOn_token T t.sign (runesOf t.digits ++ (runesOf t.spelling ++ tail)) (by
    rcases hne with h | h
    · exact Or.inl h
    · right
      cases hd : runesOf t.digits with
      | nil => exact absurd hd h
      | cons a b => exact ⟨a, _, rfl, hdig2 a (by simp [hd])⟩)
  simp only [bodyOn, hsign]
  obtain ⟨hdt, hdd⟩ := takeWhile_append_stop (IsDigit T) (runesOf t.digits)
    (runesOf t.spelling ++ tail)
    (fun x hx => (digit_class T x (hdig2 x hx).1 (hdig2 x hx).2).1)
    (by rw [hw]; intro c hc; simp at hc; subst hc; exact hw0.2.2.1)
  rw [hdt, hdd]
  have hsd : (runesOf t.spelling ++ tail).dropWhile (IsSpace T) = runesOf t.spelling ++ tail :=
    dropWhile_stop _ _ (by rw [hw]; intro c hc; simp at hc; subst hc; exact hw0.2.2.2)
  rw [hsd]
  have hnn : ¬ (runesOf t.spelling ++ tail = []) := by rw [hw]; simp
  simp only [hnn, if_false]
  obtain ⟨hlt, hld⟩ := takeWhile_append_stop (IsLetter T) (runesOf t.spelling) tail
    (fun x hx => (lowerLetter_class T x (hlet x hx).1 (hlet x hx).2).1) htail
  have hlow : (runesOf t.spelling).map lower = runesOf t.spelling := by
    have : (runesOf t.spelling).map lower = (runesOf t.spelling).map id :=
      List.map_congr_left (fun x hx => (lowerLetter_class T x (hlet x hx).1 (hlet x hx).2).2.1)
    rw [this, List.map_id]
  have hlen : ¬ ((runesOf t.spelling).length = 0 ∨ (runesOf t.spelling).length > 12) := by omega
  simp only [unitOn, hlt, hld, hlen, if_false, hlow, hres]
  rw [numOf_digits _ (fun c hc => (hdig2 c hc).1)]


/-! ## The main loop on a list of well-formed tokens -/

theorem usedAt_set_self (used : List Bool) (u : Nat) (h : u < used.length) :
    usedAt (used.set u true) u = .ok true := by
  simp [usedAt, List.getElem?_set_self, h]

theorem usedAt_set_ne (used : List Bool) (u v : Nat) (h : u ≠ v) :
    usedAt (used.set u true) v = usedAt used v := by
  simp [usedAt, List.getElem?_set_ne h]

theorem usedAt_total (used : List Bool) (u : Nat) (h : u < used.length) :
    usedAt used u = .ok true ∨ usedAt used u = .ok false := by
  simp only [usedAt, List.get?_eq_getElem?, List.getElem?_eq_getElem h]
  cases used[u] <;> simp

theorem usedAt_replicate (u : Nat) (h : u < 10) :
    usedAt (List.replicate 10 false) u = .ok false := by
  interval_cases u <;> rfl

theorem text_cons (T : UnicodeTables) (t : Token) (ht : t.Readable) :
    ∃ c rest, runesOf t.text = c :: rest ∧ IsSpace T c = false ∧ IsLetter T c = false := by
  obtain ⟨hne, hdig, _⟩ := ht
  have hdig2 : ∀ c ∈ runesOf t.digits, 48 ≤ c ∧ c ≤ 57 := hdig
  have htext : runesOf t.text = runesOf t.sign.text ++ (runesOf t.digits ++ runesOf t.spelling) := by
    simp only [Token.text, runesOf_append, List.append_assoc]
  rw [htext]
  cases hs : t.sign with
  | none =>
    have hnn : runesOf t.digits ≠ [] := by
      rcases hne with h | h
      · exact absurd hs h
      · exact h
    obtain ⟨d0, ds, hds⟩ : ∃ d0 ds, runesOf t.digits = d0 :: ds := by
      cases h : runesOf t.digits with
      | nil => exact absurd h hnn
      | cons a b => exact ⟨a, b, rfl⟩
    have hd := digit_class T d0 (hdig2 d0 (by simp [hds])).1 (hdig2 d0 (by simp [hds])).2
    have : runesOf Sign.none.text = [] := by decide
    rw [this, hds]
    exact ⟨d0, _, rfl, hd.2.2.2.2, hd.2.2.2.1⟩
  | plus =>
    have : runesOf Sign.plus.text = [43] := by decide
    rw [this]
    exact ⟨43, _, rfl, (sign_class T 43 (Or.inl rfl)).1, (sign_class T 43 (Or.inl rfl)).2.1⟩
  | minus =>
    have : runesOf Sign.minus.text = [45] := by decide
    rw [this]
    exact ⟨45, _, rfl, (sign_class T 45 (Or.inr rfl)).1, (sign_class T 45 (Or.inr rfl)).2.1⟩

/-- What follows the first token of a joined list. -/
theorem join_cons (t : Token) (ts : List Token) :
    runesOf (joinTokens (t :: ts)) =
      runesOf t.text ++ afterFirst ts := by
  cases ts with
  | nil => simp [joinTokens, afterFirst]
  | cons t2 ts =>
    have : runesOf " " = [32] := by decide
    simp [joinTokens, afterFirst, runesOf_append, this]

theorem join_head (T : UnicodeTables) (t : Token) (ts : List Token) (ht : t.Readable) :
    ∃ c rest, runesOf (joinTokens (t :: ts)) = c :: rest ∧ IsSpace T c = false ∧
      IsLetter T c = false := by
  obtain ⟨c, rest, h, h1, h2⟩ := text_cons T t ht
  rw [join_cons, h]
  exact ⟨c, _, rfl, h1, h2⟩

theorem join_tail (T : UnicodeTables) (ts : List Token) (hts : ∀ t ∈ ts, t.Readable) :
    (∀ c ∈ (afterFirst ts).head?,
        IsLetter T c = false) ∧
    (afterFirst ts).dropWhile (IsSpace T) =
      runesOf (joinTokens ts) := by
  cases ts with
  | nil =>
    simp [afterFirst, joinTokens, runesOf]
  | cons t2 ts =>
    obtain ⟨c, rest, h, h1, _⟩ := join_head T t2 ts (hts t2 (by simp))
    have hs := space_class T
    constructor
    · intro c hc
      simp [afterFirst] at hc
      subst hc
      exact hs.2.1
    · simp only [afterFirst]
      rw [List.dropWhile_cons_of_pos hs.1]
      apply dropWhile_stop
      rw [h]
      intro c2 hc2
      simp at hc2
      subst hc2
      exact h1

theorem loopOn_token_dup (T : UnicodeTables) (t : Token) (ts : List Token)
    (hts : ∀ t2 ∈ t :: ts, t2.Readable) (fuel : Nat) (total : Int) (used : List Bool)
    (hu : usedAt used t.unit.unitType = .ok true) :
    loopOn T (fuel + 1) (runesOf (joinTokens (t :: ts))) total used =
      .ret 0 (some .duplicateUnit) := by
  have ht := hts t (by simp)
  obtain ⟨c, rest, h, _, _⟩ := join_head T t ts ht
  have hne : ¬ runesOf (joinTokens (t :: ts)) = [] := by rw [h]; simp
  simp only [loopOn, hne, if_false]
  rw [join_cons, bodyOn_token T t ht _ (join_tail T ts (fun x hx => hts x (by simp [hx]))).1]
  simp only [hu]

theorem loopOn_token_ok (T : UnicodeTables) (t : Token) (ts : List Token)
    (hts : ∀ t2 ∈ t :: ts, t2.Readable) (fuel : Nat) (x : Int) (used : List Bool)
    (hlen : used.length = 10) (hu : usedAt used t.unit.unitType = .ok false) :
    loopOn T (fuel + 1) (runesOf (joinTokens (t :: ts))) (wrap64 x) used =
      loopOn T fuel (runesOf (joinTokens ts)) (wrap64 (x + t.value))
        (used.set t.unit.unitType true) := by
  have ht := hts t (by simp)
  obtain ⟨c, rest, h, _, _⟩ := join_head T t ts ht
  have hne : ¬ runesOf (joinTokens (t :: ts)) = [] := by rw [h]; simp
  obtain ⟨_, _, _, _, _, h9⟩ := spellings_facts _ ht.2.2
  simp only [] at h9
  have hset : setAt used t.unit.unitType true = .ok (used.set t.unit.unitType true) := by
    have : t.unit.unitType < used.length := by omega
    simp only [setAt, this, if_true]
  obtain ⟨htl, hdrop⟩ := join_tail T ts (fun x hx => hts x (by simp [hx]))
  simp only [loopOn, hne, if_false]
  rw [join_cons, bodyOn_token T t ht _ htl]
  simp only [hu, hset, hdrop]
  congr 1
  rw [mul64_wrap, mul64_wrap, add64_wrap_wrap, Token.value]
  congr 1
  ring

theorem length_join_cons (T : UnicodeTables) (t : Token) (ts : List Token)
    (ht : t.Readable) :
    (runesOf (joinTokens ts)).length < (runesOf (joinTokens (t :: ts))).length := by
  obtain ⟨c, rest, h, _, _⟩ := text_cons T t ht
  rw [join_cons, h]
  cases ts with
  | nil => simp [afterFirst, joinTokens, runesOf]
  | cons t2 ts =>
    simp only [afterFirst, List.length_append, List.length_cons]
    omega


theorem loopOn_tokens (T : UnicodeTables) : ∀ (ts : List Token),
    (∀ t ∈ ts, t.Readable) → (unitsOf ts).Nodup →
    ∀ (fuel : Nat) (x : Int) (used : List Bool), used.length = 10 →
      (∀ t ∈ ts, usedAt used t.unit.unitType = .ok false) →
      (runesOf (joinTokens ts)).length ≤ fuel →
      loopOn T fuel (runesOf (joinTokens ts)) (wrap64 x) used =
        .ret (wrap64 (x + totalOf ts)) none := by
  intro ts
  induction ts with
  | nil =>
    intro _ _ fuel x used _ _ _
    have : runesOf (joinTokens []) = [] := by decide
    rw [this]
    cases fuel <;> simp [loopOn, totalOf]
  | cons t ts ih =>
    intro hwf hnd fuel x used hlen hused hfuel
    have ht := hwf t (by simp)
    have hlt := length_join_cons T t ts ht
    cases fuel with
    | zero => omega
    | succ fuel =>
      rw [loopOn_token_ok T t ts hwf fuel x used hlen (hused t (by simp))]
      simp only [unitsOf, List.map_cons, List.nodup_cons, List.mem_map, not_exists,
        not_and] at hnd
      rw [ih (fun y hy => hwf y (by simp [hy])) hnd.2 fuel (x + t.value) _
        (by simp [hlen]) ?_ (by omega)]
      · simp only [totalOf, List.map_cons, List.sum_cons]
        congr 2
        ring
      · intro y hy
        rw [usedAt_set_ne _ _ _ (fun e => hnd.1 y hy e.symm)]
        exact hused y (by simp [hy])

theorem loopOn_tokens_dup (T : UnicodeTables) : ∀ (ts : List Token),
    (∀ t ∈ ts, t.Readable) →
    ∀ (fuel : Nat) (x : Int) (used : List Bool), used.length = 10 →
      ((∃ t ∈ ts, usedAt used t.unit.unitType = .ok true) ∨ ¬ (unitsOf ts).Nodup) →
      (runesOf (joinTokens ts)).length ≤ fuel →
      loopOn T fuel (runesOf (joinTokens ts)) (wrap64 x) used =
        .ret 0 (some .duplicateUnit) := by
  intro ts
  induction ts with
  | nil =>
    intro _ fuel x used _ h _
    rcases h with ⟨t, ht, _⟩ | h
    · simp at ht
    · simp [unitsOf] at h
  | cons t ts ih =>
    intro hwf fuel x used hlen h hfuel
    have ht := hwf t (by simp)
    have hlt := length_join_cons T t ts ht
    obtain ⟨_, _, _, _, _, h9⟩ := spellings_facts _ ht.2.2
    simp only [] at h9
    have hin : t.unit.unitType < used.length := by omega
    cases fuel with
    | zero => omega
    | succ fuel =>
      rcases usedAt_total used t.unit.unitType hin with hu | hu
      · exact loopOn_token_dup T t ts hwf fuel _ used hu
      · rw [loopOn_token_ok T t ts hwf fuel x used hlen hu]
        apply ih (fun y hy => hwf y (by simp [hy])) fuel _ _ (by simp [hlen]) ?_ (by omega)
        have key : ∀ y ∈ ts, usedAt used y.unit.unitType = .ok true ∨
            y.unit.unitType = t.unit.unitType →
            usedAt (used.set t.unit.unitType true) y.unit.unitType = .ok true := by
          intro y _ hy
          by_cases e : t.unit.unitType = y.unit.unitType
          · rw [← e]; exact usedAt_set_self used _ hin
          · rw [usedAt_set_ne _ _ _ e]
            rcases hy with hy | hy
            · exact hy
            · exact absurd hy.symm e
        rcases h with ⟨y, hy, hyu⟩ | h
        · simp only [List.mem_cons] at hy
          rcases hy with hy | hy
          · subst hy; rw [hu] at hyu; cases hyu
          · exact Or.inl ⟨y, hy, key y hy (Or.inl hyu)⟩
        · simp only [unitsOf, List.map_cons, List.nodup_cons, List.mem_map, not_and,
            not_not] at h
          by_cases hm : ∃ a ∈ ts, a.unit.unitType = t.unit.unitType
          · obtain ⟨y, hy, hyu⟩ := hm
            exact Or.inl ⟨y, hy, key y hy (Or.inr hyu)⟩
          · exact Or.inr (h hm)


/-! ## `Parse` on a list of well-formed tokens -/

theorem Parse_join_start (T : UnicodeTables) (t : Token) (ts : List Token)
    (ht : t.Readable) :
    (runesOf (joinTokens (t :: ts))).dropWhile (IsSpace T) = runesOf (joinTokens (t :: ts)) ∧
      runesOf (joinTokens (t :: ts)) ≠ [] := by
  obtain ⟨c, rest, h, h1, _⟩ := join_head T t ts ht
  constructor
  · apply dropWhile_stop
    rw [h]
    intro c2 hc2
    simp at hc2
    subst hc2
    exact h1
  · rw [h]; simp

theorem Parse_tokens (T : UnicodeTables) (ts : List Token) (hne : ts ≠ [])
    (hwf : ∀ t ∈ ts, t.Readable) (hnd : (unitsOf ts).Nodup) :
    Parse T (joinTokens ts) = .ret (wrap64 (totalOf ts)) none := by
  cases ts with
  | nil => exact absurd rfl hne
  | cons t ts =>
    obtain ⟨h1, h2⟩ := Parse_join_start T t ts (hwf t (by simp))
    have h0 : (0 : Int) = wrap64 0 := by decide
    unfold Parse
    rw [ParseRunes_of_fuel T _ (runesOf (joinTokens (t :: ts))).length (by rw [h1]; exact h2)
      (by rw [h1]), h1, h0]
    rw [loopOn_tokens T (t :: ts) hwf hnd _ 0 _ (by simp) ?_ (Nat.le_refl _)]
    · simp
    · intro y hy
      obtain ⟨_, _, _, _, _, h9⟩ := spellings_facts _ (hwf y hy).2.2
      exact usedAt_replicate _ (by simp only [] at h9; omega)

theorem Parse_tokens_dup (T : UnicodeTables) (ts : List Token)
    (hwf : ∀ t ∈ ts, t.Readable) (hdup : ¬ (unitsOf ts).Nodup) :
    Parse T (joinTokens ts) = .ret 0 (some .duplicateUnit) := by
  cases ts with
  | nil => simp [unitsOf] at hdup
  | cons t ts =>
    obtain ⟨h1, h2⟩ := Parse_join_start T t ts (hwf t (by simp))
    have h0 : (0 : Int) = wrap64 0 := by decide
    unfold Parse
    rw [ParseRunes_of_fuel T _ (runesOf (joinTokens (t :: ts))).length (by rw [h1]; exact h2)
      (by rw [h1]), h1, h0]
    exact loopOn_tokens_dup T (t :: ts) hwf _ 0 _ (by simp) (Or.inr hdup) (Nat.le_refl _)


theorem Token.WellFormed.readable {t : Token} (h : t.WellFormed) : t.Readable :=
  ⟨Or.inr h.1, h.2.1, h.2.2⟩


theorem Parse_congr (T : UnicodeTables) (a b : String) (h : runesOf a = runesOf b) :
    Parse T a = Parse T b := by
  unfold Parse
  rw [h]

theorem runesOf_empty_append (a : String) : runesOf ("" ++ a) = runesOf a := by
  rw [runesOf_append]
  rfl

/-- An input whose first character is neither white space, nor a sign, nor a digit. -/
theorem ParseRunes_missingNumber (T : UnicodeTables) (c : Nat) (rest : List Nat)
    (h1 : IsSpace T c = false) (h2 : c ≠ 45) (h3 : c ≠ 43) (h4 : IsDigit T c = false) :
    ParseRunes T (c :: rest) = .ret 0 (some .missingNumber) := by
  have hd : (c :: rest).dropWhile (IsSpace T) = c :: rest :=
    dropWhile_stop _ _ (by intro x hx; simp at hx; subst hx; exact h1)
  rw [ParseRunes_eq, hd]
  have e1 : ¬ c = '-'.toNat := h2
  have e2 : ¬ c = '+'.toNat := h3
  simp only [List.cons_ne_nil, if_false, List.length_cons, loopOn, bodyOn, signOn]
  rw [if_neg e1, if_neg e2]
  simp [h4]

set_option maxRecDepth 100000 in
theorem spellings_dur : ∀ p ∈ spellings, wrap64 p.2.dur = p.2.dur := by
  decide

theorem totalOf_single (t : Token) : totalOf [t] = t.value := by
  simp [totalOf]

theorem wrap64_neg_wrap (a : Int) : wrap64 (-(wrap64 a)) = wrap64 (-a) :=
  wrap64_congr (wrap64_modEq a).neg

theorem wrap64_neg_exact (x : Int) (h : -9223372036854775808 < x)
    (h2 : x < 9223372036854775808) : wrap64 (-x) = -x :=
  wrap64_of_range (by omega) (by omega)


/-! ## Lower-casing the whole input -/

theorem lower_eq (c : Nat) : lower c = if 65 ≤ c ∧ c ≤ 90 then c + 32 else c := by
  have h1 : 'A'.toNat = 65 := by decide
  have h2 : 'Z'.toNat = 90 := by decide
  have h3 : 'a'.toNat = 97 := by decide
  simp only [lower, h1, h2, h3, ge_iff_le]
  split <;> omega

theorem upperLetter_class (T : UnicodeTables) (c : Nat) (h1 : 65 ≤ c) (h2 : c ≤ 90) :
    IsLetter T c = true ∧ IsDigit T c = false ∧ IsSpace T c = false := by
  have h255 : c ≤ MaxLatin1 := by unfold MaxLatin1; omega
  refine ⟨?_, ?_, ?_⟩
  · simp only [IsLetter, h255, if_true, latin1Letter]
    have : decide (0x41 ≤ c) = true ∧ decide (c ≤ 0x5A) = true := by
      constructor <;> simp <;> omega
    simp [this.1, this.2]
  · simp only [IsDigit, h255, if_true]
    have : decide (c ≤ 0x39) = false := by simp; omega
    simp [this]
  · simp only [IsSpace, h255, if_true]
    have : ∀ k, k < 65 ∨ 90 < k → (c == k) = false := by
      intro k hk; simp; omega
    simp [this]

theorem lower_class (T : UnicodeTables) (c : Nat) :
    IsSpace T (lower c) = IsSpace T c ∧ IsDigit T (lower c) = IsDigit T c ∧
      IsLetter T (lower c) = IsLetter T c ∧ (lower c = 45 ↔ c = 45) ∧
      (lower c = 43 ↔ c = 43) ∧ lower (lower c) = lower c ∧
      (IsDigit T c = true → lower c = c) := by
  rw [lower_eq, lower_eq]
  by_cases h : 65 ≤ c ∧ c ≤ 90
  · obtain ⟨u1, u2, u3⟩ := upperLetter_class T c h.1 h.2
    obtain ⟨l1, _, l2, l3⟩ := lowerLetter_class T (c + 32) (by omega) (by omega)
    have h2 : ¬ (65 ≤ c + 32 ∧ c + 32 ≤ 90) := by omega
    simp only [h, and_self, if_true, h2, if_false, u1, u2, u3, l1, l2, l3, true_and]
    refine ⟨by omega, by omega, by simp⟩
  · simp only [h, if_false, true_and]
    simp

theorem takeWhile_map_lower (p : Nat → Bool) (hp : ∀ c, p (lower c) = p c) (l : List Nat) :
    (l.map lower).takeWhile p = (l.takeWhile p).map lower ∧
      (l.map lower).dropWhile p = (l.dropWhile p).map lower := by
  induction l with
  | nil => simp
  | cons a l ih =>
    by_cases h : p a = true
    · have h2 : p (lower a) = true := by rw [hp]; exact h
      simp [List.takeWhile_cons, List.dropWhile_cons, h, h2, ih]
    · have h2 : ¬ p (lower a) = true := by rw [hp]; exact h
      simp [List.takeWhile_cons, List.dropWhile_cons, h, h2]

theorem signOn_lower (T : UnicodeTables) (rest : List Nat) :
    signOn T (rest.map lower) =
      match signOn T rest with
      | .error o => .error o
      | .ok (s, r) => .ok (s, r.map lower) := by
  cases rest with
  | nil => simp [signOn]
  | cons c cs =>
    obtain ⟨_, hd, _, h45, h43, _, _⟩ := lower_class T c
    have e45 : ('-'.toNat : Nat) = 45 := by decide
    have e43 : ('+'.toNat : Nat) = 43 := by decide
    simp only [List.map_cons, signOn, e45, e43, hd]
    by_cases h1 : c = 45
    · rw [if_pos h1, if_pos (h45.mpr h1)]
    · have n1 : ¬ lower c = 45 := fun h => h1 (h45.mp h)
      rw [if_neg h1, if_neg n1]
      by_cases h2 : c = 43
      · rw [if_pos h2, if_pos (h43.mpr h2)]
      · have n2 : ¬ lower c = 43 := fun h => h2 (h43.mp h)
        rw [if_neg h2, if_neg n2]
        split <;> simp

theorem map_lower_digits (T : UnicodeTables) (l : List Nat) :
    ((l.takeWhile (IsDigit T)).map lower) = l.takeWhile (IsDigit T) := by
  have : (l.takeWhile (IsDigit T)).map lower = (l.takeWhile (IsDigit T)).map id :=
    List.map_congr_left (fun x hx => (lower_class T x).2.2.2.2.2.2 (List.mem_takeWhile_imp hx))
  rw [this, List.map_id]

theorem unitOn_lower (T : UnicodeTables) (rest : List Nat) (total : Int) (used : List Bool)
    (sign num : Int) :
    unitOn T (rest.map lower) total used sign num =
      match unitOn T rest total used sign num with
      | .error o => .error o
      | .ok (r, tot, u) => .ok (r.map lower, tot, u) := by
  obtain ⟨ht, hd⟩ := takeWhile_map_lower (IsLetter T) (fun c => (lower_class T c).2.2.1) rest
  obtain ⟨_, hd2⟩ := takeWhile_map_lower (IsSpace T) (fun c => (lower_class T c).1)
    (rest.dropWhile (IsLetter T))
  have hmm : ((rest.takeWhile (IsLetter T)).map lower).map lower =
      (rest.takeWhile (IsLetter T)).map lower := by
    rw [List.map_map]
    apply List.map_congr_left
    intro x _
    exact (lower_class T x).2.2.2.2.2.1
  simp only [unitOn, ht, hd, hd2, hmm, List.length_map]
  split
  · rfl
  · cases resolve ((rest.takeWhile (IsLetter T)).map lower) with
    | none => rfl
    | some ud =>
      simp only []
      cases usedAt used ud.unitType with
      | error o => rfl
      | ok b =>
        cases b with
        | true => rfl
        | false =>
          simp only []
          cases setAt used ud.unitType true with
          | error o => rfl
          | ok u => rfl

theorem bodyOn_lower (T : UnicodeTables) (rest : List Nat) (total : Int) (used : List Bool) :
    bodyOn T (rest.map lower) total used =
      match bodyOn T rest total used with
      | .error o => .error o
      | .ok (r, tot, u) => .ok (r.map lower, tot, u) := by
  simp only [bodyOn, signOn_lower]
  cases signOn T rest with
  | error o => rfl
  | ok p =>
    obtain ⟨s, r1⟩ := p
    obtain ⟨ht, hd⟩ := takeWhile_map_lower (IsDigit T) (fun c => (lower_class T c).2.1) r1
    obtain ⟨_, hd2⟩ := takeWhile_map_lower (IsSpace T) (fun c => (lower_class T c).1)
      (r1.dropWhile (IsDigit T))
    simp only [ht, hd, hd2, map_lower_digits, List.map_eq_nil_iff]
    split
    · rfl
    · exact unitOn_lower T _ total used s _

theorem loopOn_lower (T : UnicodeTables) : ∀ (fuel : Nat) (rest : List Nat) (total : Int)
    (used : List Bool),
    loopOn T fuel (rest.map lower) total used = loopOn T fuel rest total used := by
  intro fuel
  induction fuel with
  | zero => intro rest total used; simp [loopOn]
  | succ fuel ih =>
    intro rest total used
    simp only [loopOn, List.map_eq_nil_iff, bodyOn_lower]
    split
    · rfl
    · cases bodyOn T rest total used with
      | error o => rfl
      | ok p =>
        obtain ⟨r, tot, u⟩ := p
        exact ih r tot u

theorem ParseRunes_lower (T : UnicodeTables) (runes : List Nat) :
    ParseRunes T (runes.map lower) = ParseRunes T runes := by
  obtain ⟨_, hd⟩ := takeWhile_map_lower (IsSpace T) (fun c => (lower_class T c).1) runes
  simp only [ParseRunes_eq, hd, List.map_eq_nil_iff, List.length_map, loopOn_lower]

theorem caseVariant_lower (c1 c2 : Nat) (h : caseVariant c1 c2) : lower c2 = lower c1 := by
  have h1 : 'A'.toNat = 65 := by decide
  have h2 : 'Z'.toNat = 90 := by decide
  have h3 : 'a'.toNat = 97 := by decide
  have h4 : 'z'.toNat = 122 := by decide
  rw [lower_eq, lower_eq]
  simp only [caseVariant, h1, h2, h3, h4] at h
  rcases h with h | ⟨a, b, h⟩ | ⟨a, b, h⟩
  · rw [h]
  · subst h
    have n : ¬ (65 ≤ c1 + 32 ∧ c1 + 32 ≤ 90) := by omega
    simp only [a, b, n, and_self, if_true, if_false]
  · have n : ¬ (65 ≤ c1 ∧ c1 ≤ 90) := by omega
    have p : 65 ≤ c2 ∧ c2 ≤ 90 := by omega
    simp only [n, p, and_self, if_true, if_false]
    omega

theorem caseVariants_lower : ∀ (l1 l2 : List Nat), l1.length = l2.length →
    (∀ p ∈ l1.zip l2, caseVariant p.1 p.2) → l2.map lower = l1.map lower := by
  intro l1
  induction l1 with
  | nil =>
    intro l2 hl _
    cases l2 with
    | nil => rfl
    | cons b l2 => simp at hl
  | cons a l1 ih =>
    intro l2 hl h
    cases l2 with
    | nil => simp at hl
    | cons b l2 =>
      simp only [List.length_cons, Nat.add_right_cancel_iff] at hl
      simp only [List.map_cons]
      rw [caseVariant_lower a b (h (a, b) (by simp)),
        ih l2 hl (fun p hp => h p (by simp [hp]))]


/-! ## What an iteration can return -/

theorem signOn_error (T : UnicodeTables) (rest : List Nat) (o : Outcome)
    (h : signOn T rest = .error o) : o = .ret 0 (some .missingNumber) := by
  cases rest with
  | nil => simp [signOn] at h
  | cons c cs =>
    simp only [signOn] at h
    split at h
    · cases h
    · split at h
      · cases h
      · split at h
        · injection h with h; exact h.symm
        · cases h

theorem usedAt_error (used : List Bool) (i : Nat) (o : Outcome)
    (h : usedAt used i = .error o) : o = .panic := by
  simp only [usedAt] at h
  split at h
  · cases h
  · injection h with h; exact h.symm

theorem setAt_error (used : List Bool) (i : Nat) (v : Bool) (o : Outcome)
    (h : setAt used i v = .error o) : o = .panic := by
  simp only [setAt] at h
  split at h
  · cases h
  · injection h with h; exact h.symm

theorem unitOn_error (T : UnicodeTables) (rest : List Nat) (total : Int) (used : List Bool)
    (sign num : Int) (o : Outcome) (h : unitOn T rest total used sign num = .error o) :
    o = .panic ∨ o = .ret 0 (some .bare) ∨ o = .ret 0 (some .unknownUnit) ∨
      o = .ret 0 (some .duplicateUnit) := by
  simp only [unitOn] at h
  split at h
  · injection h with h; exact Or.inr (Or.inl h.symm)
  · cases hres : resolve ((rest.takeWhile (IsLetter T)).map lower) with
    | none =>
      simp only [hres] at h
      injection h with h; exact Or.inr (Or.inr (Or.inl h.symm))
    | some ud =>
      simp only [hres] at h
      cases hu : usedAt used ud.unitType with
      | error o2 =>
        simp only [hu] at h
        injection h with h
        subst h
        exact Or.inl (usedAt_error _ _ _ hu)
      | ok b =>
        cases b with
        | true =>
          simp only [hu] at h
          injection h with h; exact Or.inr (Or.inr (Or.inr h.symm))
        | false =>
          simp only [hu] at h
          cases hset : setAt used ud.unitType true with
          | error o2 =>
            simp only [hset] at h
            injection h with h
            subst h
            exact Or.inl (setAt_error _ _ _ _ hset)
          | ok u => simp [hset] at h

theorem bodyOn_error (T : UnicodeTables) (rest : List Nat) (total : Int) (used : List Bool)
    (o : Outcome) (h : bodyOn T rest total used = .error o) :
    o = .panic ∨ ∃ e, o = .ret 0 (some e) ∧ e ≠ .emptyString := by
  simp only [bodyOn] at h
  cases hs : signOn T rest with
  | error o2 =>
    simp only [hs] at h
    injection h with h
    subst h
    exact Or.inr ⟨_, signOn_error T rest _ hs, by decide⟩
  | ok p =>
    obtain ⟨s, r1⟩ := p
    simp only [hs] at h
    split at h
    · injection h with h
      exact Or.inr ⟨_, h.symm, by decide⟩
    · rcases unitOn_error T _ _ _ _ _ _ h with h | h | h | h
      · exact Or.inl h
      · exact Or.inr ⟨_, h, by decide⟩
      · exact Or.inr ⟨_, h, by decide⟩
      · exact Or.inr ⟨_, h, by decide⟩

theorem loopOn_error (T : UnicodeTables) : ∀ (fuel : Nat) (rest : List Nat) (total : Int)
    (used : List Bool) (d : Int) (e : ParseErr),
    loopOn T fuel rest total used = .ret d (some e) → d = 0 ∧ e ≠ .emptyString := by
  intro fuel
  induction fuel with
  | zero =>
    intro rest total used d e h
    simp only [loopOn] at h
    split at h <;> cases h
  | succ fuel ih =>
    intro rest total used d e h
    simp only [loopOn] at h
    split at h
    · cases h
    · cases hb : bodyOn T rest total used with
      | error o =>
        simp only [hb] at h
        subst h
        rcases bodyOn_error T rest total used _ hb with h | ⟨e2, h, hne⟩
        · cases h
        · injection h with h1 h2
          injection h2 with h2
          subst h2
          exact ⟨h1, hne⟩
      | ok p =>
        obtain ⟨r, tot, u⟩ := p
        simp only [hb] at h
        exact ih r tot u d e h


/-! ## Reached states -/

theorem At.of_le {runes : List Nat} {idx : Nat} (h : idx ≤ runes.length) :
    At runes idx (runes.drop idx) := ⟨rfl, h⟩

theorem loop_fuel (T : UnicodeTables) (runes : List Nat) (st : State) (f1 f2 : Nat)
    (h : st.idx ≤ runes.length) (h1 : runes.length ≤ f1 + st.idx)
    (h2 : runes.length ≤ f2 + st.idx) : loop T runes f1 st = loop T runes f2 st := by
  have hat := At.of_le h
  have hl := hat.length_eq
  rw [loop_eq_loopOn T runes f1 st _ hat, loop_eq_loopOn T runes f2 st _ hat]
  exact loopOn_fuel T f1 f2 _ _ _ (by omega) (by omega)

theorem body_idx (T : UnicodeTables) (runes : List Nat) (st st2 : State)
    (h : st.idx ≤ runes.length) (hb : body T runes st = .ok st2) :
    st2.idx ≤ runes.length := by
  rw [body_at T runes st _ (At.of_le h)] at hb
  cases hbo : bodyOn T (runes.drop st.idx) st.total st.usedUnits with
  | error o => simp [hbo] at hb
  | ok p =>
    obtain ⟨r, tot, u⟩ := p
    simp only [hbo] at hb
    injection hb with hb
    subst hb
    exact Nat.sub_le _ _

theorem Reaches.idx_le {T : UnicodeTables} {runes : List Nat} {st : State}
    (h : Reaches T runes st) : st.idx ≤ runes.length := by
  induction h with
  | start idx _ _ hlt => exact Nat.le_of_lt hlt
  | next st st2 _ hlt hb _ => exact body_idx T runes st st2 (Nat.le_of_lt hlt) hb

theorem Reaches.parse {T : UnicodeTables} {runes : List Nat} {st : State}
    (h : Reaches T runes st) :
    ∀ fuel, runes.length ≤ fuel + st.idx → ParseRunes T runes = loop T runes fuel st := by
  induction h with
  | start idx hne hskip hlt =>
    intro fuel hf
    have hge : ¬ idx ≥ runes.length := by omega
    simp only [ParseRunes, hne, if_false, hskip, hge]
    exact loop_fuel T runes _ _ _ (Nat.le_of_lt hlt) (by simp) hf
  | next st st2 hr hlt hb ih =>
    intro fuel hf
    have h2 := body_idx T runes st st2 (Nat.le_of_lt hlt) hb
    rw [ih (max fuel runes.length + 1) (by omega)]
    simp only [loop, hlt, if_true, hb]
    exact loop_fuel T runes st2 _ _ h2 (by omega) hf

theorem body_malformed (T : UnicodeTables) (runes : List Nat) (st : State) (u : Nat)
    (hu : unitStartOf T runes st = some u)
    (hrun : letterRun T runes u = 0 ∨ 13 ≤ letterRun T runes u) :
    body T runes st = .error (.ret 0 (some .bare)) := by
  simp only [unitStartOf] at hu
  simp only [body]
  cases h1 : scanSign T runes st.idx with
  | error o => simp [h1] at hu
  | ok p1 =>
    obtain ⟨sign, i1⟩ := p1
    simp only [h1] at hu ⊢
    cases h2 : scanDigits T runes runes.length i1 0 with
    | error o => simp [h2] at hu
    | ok p2 =>
      obtain ⟨i2, num⟩ := p2
      simp only [h2] at hu ⊢
      cases h3 : skipWhile (IsSpace T) runes runes.length i2 with
      | error o => simp [h3] at hu
      | ok i3 =>
        simp only [h3] at hu ⊢
        split at hu
        · cases hu
        · rename_i hlt
          injection hu with hu
          subst hu
          simp only [hlt, if_false, scanUnit]
          rw [skipWhile_at (IsLetter T) runes runes.length i3 _ (At.of_le (by omega))
            (by omega)]
          simp only [Nat.add_sub_cancel_left]
          simp only [letterRun] at hrun
          have : (List.takeWhile (IsLetter T) (List.drop i3 runes)).length = 0 ∨
              (List.takeWhile (IsLetter T) (List.drop i3 runes)).length > 12 := by omega
          simp only [this, if_true]


/-! ## The fuel `Parse` supplies is enough -/

theorem loopOn_ne_timeout (T : UnicodeTables) : ∀ (fuel : Nat) (rest : List Nat) (total : Int)
    (used : List Bool), rest.length ≤ fuel → loopOn T fuel rest total used ≠ .timeout := by
  intro fuel
  induction fuel with
  | zero =>
    intro rest total used h
    have : rest = [] := List.length_eq_zero.mp (by omega)
    simp [loopOn, this]
  | succ fuel ih =>
    intro rest total used h
    simp only [loopOn]
    split
    · simp
    · cases hb : bodyOn T rest total used with
      | error o =>
        simp only []
        rcases bodyOn_error T rest total used o hb with ho | ⟨e, ho, _⟩ <;> rw [ho] <;> simp
      | ok p =>
        obtain ⟨r, tot, u⟩ := p
        have := bodyOn_length_lt T rest total used r tot u hb
        exact ih r tot u (by omega)

theorem ParseRunes_ne_timeout (T : UnicodeTables) (runes : List Nat) :
    ParseRunes T runes ≠ .timeout := by
  rw [ParseRunes_eq]
  split
  · simp
  · exact loopOn_ne_timeout T _ _ _ _ (length_dropWhile_le_length _ _)


/-! ## The marks of `usedUnits` and the absence of panics -/

theorem lookup_mem {α : Type} [BEq α] (k : α) (v : unitDef) :
    ∀ (l : List (α × unitDef)), l.lookup k = some v → v ∈ l.map Prod.snd := by
  intro l
  induction l with
  | nil => intro h; simp [List.lookup] at h
  | cons p l ih =>
    intro h
    obtain ⟨a, b⟩ := p
    simp only [List.lookup] at h
    split at h
    · injection h with h
      simp [h]
    · simp [ih h]

theorem tables_range :
    (∀ ud ∈ unitMapLen1.map Prod.snd, 1 ≤ ud.unitType ∧ ud.unitType ≤ 9) ∧
    (∀ ud ∈ unitMapLen2.map Prod.snd, 1 ≤ ud.unitType ∧ ud.unitType ≤ 9) ∧
    (∀ ud ∈ unitMapLen3.map Prod.snd, 1 ≤ ud.unitType ∧ ud.unitType ≤ 9) ∧
    (∀ ud ∈ unitMapLen4.map Prod.snd, 1 ≤ ud.unitType ∧ ud.unitType ≤ 9) ∧
    (∀ ud ∈ longUnits.map Prod.snd, 1 ≤ ud.unitType ∧ ud.unitType ≤ 9) := by
  decide

theorem resolve_range (w : List Nat) (ud : unitDef) (h : resolve w = some ud) :
    1 ≤ ud.unitType ∧ ud.unitType ≤ 9 := by
  obtain ⟨t1, t2, t3, t4, t5⟩ := tables_range
  unfold resolve at h
  split at h
  · exact t1 ud (lookup_mem _ _ _ h)
  · exact t2 ud (lookup_mem _ _ _ h)
  · exact t3 ud (lookup_mem _ _ _ h)
  · exact t4 ud (lookup_mem _ _ _ h)
  · exact t5 ud (lookup_mem _ _ _ h)

theorem lookupUnit_range (unitBuf : List Nat) (unitLen : Nat) (ud : unitDef)
    (h : lookupUnit unitBuf unitLen = .ok (some ud)) :
    1 ≤ ud.unitType ∧ ud.unitType ≤ 9 := by
  obtain ⟨t1, t2, t3, t4, t5⟩ := tables_range
  unfold lookupUnit at h
  split at h
  · injection h with h; exact t1 ud (lookup_mem _ _ _ h)
  · injection h with h; exact t2 ud (lookup_mem _ _ _ h)
  · injection h with h; exact t3 ud (lookup_mem _ _ _ h)
  · injection h with h; exact t4 ud (lookup_mem _ _ _ h)
  · split at h
    · injection h with h; exact t5 ud (lookup_mem _ _ _ h)
    · cases h

theorem unitOn_not_panic (T : UnicodeTables) (rest : List Nat) (total : Int)
    (used : List Bool) (sign num : Int) (hlen : used.length = 10) :
    unitOn T rest total used sign num ≠ .error .panic := by
  intro h
  simp only [unitOn] at h
  split at h
  · cases h
  · cases hres : resolve ((rest.takeWhile (IsLetter T)).map lower) with
    | none => simp [hres] at h
    | some ud =>
      have hr := resolve_range _ _ hres
      have hin : ud.unitType < used.length := by omega
      simp only [hres] at h
      rcases usedAt_total used ud.unitType hin with hu | hu
      · simp [hu] at h
      · simp only [hu, setAt, hin, if_true] at h
        cases h

theorem bodyOn_not_panic (T : UnicodeTables) (rest : List Nat) (total : Int)
    (used : List Bool) (hlen : used.length = 10) :
    bodyOn T rest total used ≠ .error .panic := by
  intro h
  simp only [bodyOn] at h
  cases hs : signOn T rest with
  | error o =>
    simp only [hs] at h
    have := signOn_error T rest o hs
    subst this
    cases h
  | ok p =>
    obtain ⟨s, r1⟩ := p
    simp only [hs] at h
    split at h
    · cases h
    · exact unitOn_not_panic T _ total used s _ hlen h

/-- What a completed iteration does to the marks: one unit between 1 and 9 that was not
marked is marked. -/
theorem bodyOn_marks (T : UnicodeTables) (rest : List Nat) (total : Int) (used : List Bool)
    (r : List Nat) (tot : Int) (used2 : List Bool)
    (h : bodyOn T rest total used = .ok (r, tot, used2)) :
    ∃ u, 1 ≤ u ∧ u ≤ 9 ∧ u < used.length ∧ usedAt used u = .ok false ∧
      used2 = used.set u true := by
  simp only [bodyOn] at h
  cases hs : signOn T rest with
  | error o => simp [hs] at h
  | ok p =>
    obtain ⟨s, r1⟩ := p
    simp only [hs] at h
    split at h
    · cases h
    · obtain ⟨_, _, _, ud, hres, hu, hset, _⟩ := unitOn_ok T _ _ _ _ _ _ _ _ h
      have hr := resolve_range _ _ hres
      simp only [setAt] at hset
      split at hset
      · rename_i hin
        injection hset with hset
        exact ⟨ud.unitType, hr.1, hr.2, hin, hu, hset.symm⟩
      · cases hset

theorem loopOn_ret (T : UnicodeTables) : ∀ (fuel : Nat) (rest : List Nat) (total : Int)
    (used : List Bool), used.length = 10 → rest.length ≤ fuel →
    ∃ d e, loopOn T fuel rest total used = .ret d e := by
  intro fuel
  induction fuel with
  | zero =>
    intro rest total used _ h
    have : rest = [] := List.length_eq_zero.mp (by omega)
    exact ⟨total, none, by simp [loopOn, this]⟩
  | succ fuel ih =>
    intro rest total used hlen h
    simp only [loopOn]
    split
    · exact ⟨total, none, rfl⟩
    · cases hb : bodyOn T rest total used with
      | error o =>
        rcases bodyOn_error T rest total used o hb with ho | ⟨e, ho, _⟩
        · subst ho
          exact absurd hb (bodyOn_not_panic T rest total used hlen)
        · exact ⟨0, some e, ho⟩
      | ok p =>
        obtain ⟨r, tot, u⟩ := p
        have hl := bodyOn_length_lt T rest total used r tot u hb
        obtain ⟨k, _, _, _, _, hset⟩ := bodyOn_marks T rest total used r tot u hb
        exact ih r tot u (by rw [hset, List.length_set]; exact hlen) (by omega)

theorem ParseRunes_ret (T : UnicodeTables) (runes : List Nat) :
    ∃ d e, ParseRunes T runes = .ret d e := by
  rw [ParseRunes_eq]
  split
  · exact ⟨0, some .emptyString, rfl⟩
  · exact loopOn_ret T _ _ _ _ (by simp) (length_dropWhile_le_length _ _)


/-! ## Progress of an iteration and the number of iterations -/

theorem scanUnit_idx (T : UnicodeTables) (runes : List Nat) (st st2 : State) (sign num : Int)
    (u : Nat) (hu : u ≤ runes.length) (h : scanUnit T runes st sign num u = .ok st2) :
    1 ≤ letterRun T runes u ∧ u + letterRun T runes u ≤ st2.idx := by
  have hat := At.of_le hu
  have hat2 := hat.dropWhile (IsLetter T)
  simp only [scanUnit] at h
  rw [skipWhile_at (IsLetter T) runes runes.length u _ hat (by omega)] at h
  simp only [Nat.add_sub_cancel_left] at h
  split at h
  · cases h
  · rename_i hlen
    simp only [letterRun]
    refine ⟨by omega, ?_⟩
    split at h
    · cases h
    · split at h
      · cases h
      · cases h
      · split at h
        · cases h
        · cases h
        · split at h
          · cases h
          · rw [skipWhile_at (IsSpace T) runes runes.length _ _ hat2 (by omega)] at h
            injection h with h
            subst h
            simp only []
            omega

theorem body_unit (T : UnicodeTables) (runes : List Nat) (st st2 : State)
    (hidx : st.idx ≤ runes.length) (h : body T runes st = .ok st2) :
    ∃ u, unitStartOf T runes st = some u ∧ st.idx ≤ u ∧ 1 ≤ letterRun T runes u ∧
      u + letterRun T runes u ≤ st2.idx := by
  have hat := At.of_le hidx
  simp only [body] at h
  simp only [unitStartOf]
  cases h1 : scanSign T runes st.idx with
  | error o => simp [h1] at h
  | ok p1 =>
    obtain ⟨sign, i1⟩ := p1
    simp only [h1] at h ⊢
    -- the position after the sign
    have hs := scanSign_at T runes st.idx _ hat
    rw [h1] at hs
    cases hso : signOn T (runes.drop st.idx) with
    | error o => simp [hso] at hs
    | ok q =>
      obtain ⟨s2, r⟩ := q
      simp only [hso] at hs
      injection hs with hs
      injection hs with _ hi1
      obtain ⟨hat1, hle, _⟩ := signOn_at T runes st.idx _ hat s2 r hso
      rw [← hi1] at hat1
      have hl0 := hat.length_eq
      rw [scanDigits_at T runes runes.length i1 0 r hat1 (by omega)] at h ⊢
      simp only [] at h ⊢
      have hat2 := hat1.dropWhile (IsDigit T)
      rw [skipWhile_at (IsSpace T) runes runes.length _ _ hat2 (by omega)] at h ⊢
      simp only [] at h ⊢
      split at h
      · cases h
      · rename_i hlt
        simp only [hlt, if_false]
        obtain ⟨a, b⟩ := scanUnit_idx T runes st st2 sign _ _ (by omega) h
        exact ⟨_, rfl, by omega, a, b⟩

theorem body_progress (T : UnicodeTables) (runes : List Nat) (st st2 : State)
    (hidx : st.idx ≤ runes.length) (h : body T runes st = .ok st2) :
    st.idx < st2.idx ∧ st2.idx ≤ runes.length := by
  obtain ⟨u, _, h1, h2, h3⟩ := body_unit T runes st st2 hidx h
  exact ⟨by omega, body_idx T runes st st2 hidx h⟩

theorem iterations_le (T : UnicodeTables) (runes : List Nat) : ∀ (fuel : Nat) (st : State),
    st.idx ≤ runes.length → iterations T runes fuel st ≤ runes.length - st.idx := by
  intro fuel
  induction fuel with
  | zero => intro st _; simp [iterations]
  | succ fuel ih =>
    intro st hidx
    simp only [iterations]
    split
    · rename_i hlt
      cases hb : body T runes st with
      | error o => simp only []; omega
      | ok st2 =>
        obtain ⟨h1, h2⟩ := body_progress T runes st st2 hidx hb
        have := ih st2 h2
        simp only []
        omega
    · omega

theorem body_marks (T : UnicodeTables) (runes : List Nat) (st st2 : State)
    (hidx : st.idx ≤ runes.length) (h : body T runes st = .ok st2) :
    ∃ u, 1 ≤ u ∧ u ≤ 9 ∧ u < st.usedUnits.length ∧ usedAt st.usedUnits u = .ok false ∧
      st2.usedUnits = st.usedUnits.set u true := by
  rw [body_at T runes st _ (At.of_le hidx)] at h
  cases hbo : bodyOn T (runes.drop st.idx) st.total st.usedUnits with
  | error o => simp [hbo] at h
  | ok p =>
    obtain ⟨r, tot, u⟩ := p
    simp only [hbo] at h
    injection h with h
    subst h
    exact bodyOn_marks T _ _ _ r tot u hbo

theorem body_error (T : UnicodeTables) (runes : List Nat) (st : State) (o : Outcome)
    (hidx : st.idx ≤ runes.length) (h : body T runes st = .error o) :
    o = .panic ∨ ∃ e, o = .ret 0 (some e) ∧ e ≠ .emptyString := by
  rw [body_at T runes st _ (At.of_le hidx)] at h
  cases hbo : bodyOn T (runes.drop st.idx) st.total st.usedUnits with
  | error o2 =>
    simp only [hbo] at h
    injection h with h
    subst h
    exact bodyOn_error T _ _ _ _ hbo
  | ok p =>
    obtain ⟨r, tot, u⟩ := p
    simp [hbo] at h

theorem marks_set (used : List Bool) (u : Nat) (hu : u < used.length)
    (h : usedAt used u = .ok false) : marks (used.set u true) = marks used + 1 := by
  have hget : used[u] = false := by
    simp only [usedAt, List.get?_eq_getElem?, List.getElem?_eq_getElem hu] at h
    cases hb : used[u] with
    | true => rw [hb] at h; cases h
    | false => rfl
  simp only [marks]
  rw [List.count_set true true used u hu, hget]
  simp

theorem marks_le (used : List Bool) (hlen : used.length = 10)
    (h0 : usedAt used 0 = .ok false) : marks used ≤ 9 := by
  cases used with
  | nil => simp at hlen
  | cons b tl =>
    simp only [usedAt, List.get?_cons_zero] at h0
    cases b with
    | true => cases h0
    | false =>
      simp only [marks, List.length_cons] at hlen ⊢
      have := List.count_le_length true tl
      rw [List.count_cons]
      simp only [Bool.false_eq_true, beq_iff_eq, if_false]
      omega

theorem iterations_marks (T : UnicodeTables) (runes : List Nat) : ∀ (fuel : Nat) (st : State)
    (d : Int), st.idx ≤ runes.length → st.usedUnits.length = 10 →
    usedAt st.usedUnits 0 = .ok false → loop T runes fuel st = .ret d none →
    iterations T runes fuel st + marks st.usedUnits ≤ 9 := by
  intro fuel
  induction fuel with
  | zero =>
    intro st d _ hlen h0 _
    have := marks_le _ hlen h0
    simp only [iterations]
    omega
  | succ fuel ih =>
    intro st d hidx hlen h0 hl
    have hm := marks_le _ hlen h0
    simp only [loop] at hl
    simp only [iterations]
    split at hl
    · rename_i hlt
      simp only [hlt, if_true]
      cases hb : body T runes st with
      | error o =>
        simp only [hb] at hl
        subst hl
        rcases body_error T runes st _ hidx hb with h | ⟨e, h, _⟩ <;> cases h
      | ok st2 =>
        simp only [hb] at hl ⊢
        obtain ⟨_, h2⟩ := body_progress T runes st st2 hidx hb
        obtain ⟨u, u1, u9, ulen, hu, hset⟩ := body_marks T runes st st2 hidx hb
        have hlen2 : st2.usedUnits.length = 10 := by rw [hset, List.length_set]; exact hlen
        have h02 : usedAt st2.usedUnits 0 = .ok false := by
          rw [hset, usedAt_set_ne _ _ _ (by omega)]; exact h0
        have := ih st2 d h2 hlen2 h02 hl
        rw [hset, marks_set _ _ ulen hu] at this
        omega
    · rename_i hlt
      simp only [hlt, if_false]
      omega


theorem Reaches.used_length {T : UnicodeTables} {runes : List Nat} {st : State}
    (h : Reaches T runes st) :
    st.usedUnits.length = 10 ∧ usedAt st.usedUnits 0 = .ok false := by
  induction h with
  | start idx _ _ _ => exact ⟨by simp, usedAt_replicate 0 (by omega)⟩
  | next st st2 hr hlt hb ih =>
    obtain ⟨u, u1, _, _, _, hset⟩ := body_marks T runes st st2 (Nat.le_of_lt hlt) hb
    rw [hset]
    exact ⟨by rw [List.length_set]; exact ih.1,
      by rw [usedAt_set_ne _ _ _ (by omega)]; exact ih.2⟩

theorem body_not_panic (T : UnicodeTables) (runes : List Nat) (st : State)
    (hidx : st.idx ≤ runes.length) (hlen : st.usedUnits.length = 10) :
    body T runes st ≠ .error .panic := by
  rw [body_at T runes st _ (At.of_le hidx)]
  intro h
  cases hbo : bodyOn T (runes.drop st.idx) st.total st.usedUnits with
  | error o =>
    simp only [hbo] at h
    injection h with h
    subst h
    exact bodyOn_not_panic T _ _ _ hlen hbo
  | ok p =>
    obtain ⟨r, tot, u⟩ := p
    simp [hbo] at h

theorem iterationsOf_pos (T : UnicodeTables) (runes : List Nat) (d : Int)
    (h : ParseRunes T runes = .ret d none) :
    1 ≤ iterationsOf T runes ∧ iterationsOf T runes ≤ 9 := by
  simp only [ParseRunes] at h
  simp only [iterationsOf]
  split at h
  · cases h
  · rename_i hne
    simp only [hne, if_false]
    rw [skipWhile_at (IsSpace T) runes runes.length 0 runes (At.start runes) (by omega)] at h ⊢
    simp only [] at h ⊢
    split at h
    · cases h
    · rename_i hlt
      simp only [hlt, if_false]
      have hidx : (0 + (runes.takeWhile (IsSpace T)).length) < runes.length := by omega
      have hm := iterations_marks T runes runes.length
        ⟨0 + (runes.takeWhile (IsSpace T)).length, 0, List.replicate 10 false⟩ d
        (Nat.le_of_lt hidx) (by simp) (usedAt_replicate 0 (by omega)) h
      have hz : marks (List.replicate 10 false) = 0 := by decide
      simp only [hz, Nat.add_zero] at hm
      refine ⟨?_, hm⟩
      cases hl : runes.length with
      | zero => rw [hl] at hidx; omega
      | succ n =>
        rw [hl] at h
        simp only [iterations, loop]
        have hidx2 : (0 + (runes.takeWhile (IsSpace T)).length) < runes.length := hidx
        simp only [hidx2, if_true] at h ⊢
        split <;> omega


/-! ## White space around tokens -/

theorem latin1_space_class (T : UnicodeTables) (c : Nat) (h255 : c ≤ MaxLatin1)
    (h : IsSpace T c = true) :
    IsDigit T c = false ∧ IsLetter T c = false ∧ c ≠ 43 ∧ c ≠ 45 := by
  simp only [IsSpace, h255, if_true, Bool.or_eq_true, beq_iff_eq] at h
  rcases h with ((((((h | h) | h) | h) | h) | h) | h) | h <;> subst h <;>
    simp [IsDigit, IsLetter, MaxLatin1, latin1Letter]

theorem space_class_of (T : UnicodeTables) (hT : T.Separated) (c : Nat)
    (h : IsSpace T c = true) :
    IsDigit T c = false ∧ IsLetter T c = false ∧ c ≠ 43 ∧ c ≠ 45 := by
  by_cases h255 : c ≤ MaxLatin1
  · exact latin1_space_class T c h255 h
  · simp only [IsSpace, h255, if_false] at h
    obtain ⟨h1, h2⟩ := hT c h
    have : ¬ c ≤ 255 := h255
    refine ⟨?_, ?_, by omega, by omega⟩
    · simp only [IsDigit, h255, if_false, h1]
    · simp only [IsLetter, h255, if_false, h2]

set_option maxRecDepth 100000 in
theorem goTables_separated : goTables.Separated := by
  intro c h
  have hc : c = 0x1680 ∨ (0x2000 ≤ c ∧ c ≤ 0x200A) ∨ (0x2028 ≤ c ∧ c ≤ 0x2029) ∨
      c = 0x202F ∨ c = 0x205F ∨ c = 0x3000 := by
    simp only [goTables, inRanges, whiteSpaceRanges, List.any_cons, List.any_nil,
      Bool.or_false, Bool.or_eq_true, Bool.and_eq_true, decide_eq_true_eq] at h
    omega
  rcases hc with h | ⟨h1, h2⟩ | ⟨h1, h2⟩ | h | h | h
  · subst h; decide
  · interval_cases c <;> decide
  · interval_cases c <;> decide
  · subst h; decide
  · subst h; decide
  · subst h; decide

theorem dropWhile_all (p : Nat → Bool) (a b : List Nat) (ha : ∀ x ∈ a, p x = true) :
    (a ++ b).dropWhile p = b.dropWhile p := by
  induction a with
  | nil => rfl
  | cons x xs ih =>
    have hx : p x = true := ha x (by simp)
    simp only [List.cons_append, List.dropWhile_cons, hx, if_true]
    exact ih (fun y hy => ha y (by simp [hy]))

theorem bodyOn_word (T : UnicodeTables) (sg : Sign) (ds mid w tail : List Nat)
    (hsd : sg ≠ .none ∨ ds ≠ []) (hds : ∀ c ∈ ds, 48 ≤ c ∧ c ≤ 57)
    (hmid : ∀ c ∈ mid, IsSpace T c = true ∧ IsDigit T c = false)
    (hw : ∀ c ∈ w, IsLetter T c = true ∧ IsDigit T c = false ∧ IsSpace T c = false)
    (hwne : w ≠ []) (total : Int) (used : List Bool) :
    bodyOn T (runesOf sg.text ++ (ds ++ (mid ++ (w ++ tail)))) total used =
      unitOn T (w ++ tail) total used sg.factor (wrap64 (decimal ds : Int)) := by
  obtain ⟨w0, ws, hw0⟩ : ∃ w0 ws, w = w0 :: ws := by
    cases w with
    | nil => exact absurd rfl hwne
    | cons a b => exact ⟨a, b, rfl⟩
  have hwc := hw w0 (by simp [hw0])
  have hsign := signOn_token T sg (ds ++ (mid ++ (w ++ tail))) (by
    rcases hsd with h | h
    · exact Or.inl h
    · right
      cases ds with
      | nil => exact absurd rfl h
      | cons a b => exact ⟨a, _, rfl, hds a (by simp)⟩)
  simp only [bodyOn, hsign]
  obtain ⟨hdt, hdd⟩ := takeWhile_append_stop (IsDigit T) ds (mid ++ (w ++ tail))
    (fun x hx => (digit_class T x (hds x hx).1 (hds x hx).2).1)
    (by
      cases mid with
      | nil => rw [hw0]; intro c hc; simp at hc; subst hc; exact hwc.2.1
      | cons m ms => intro c hc; simp at hc; subst hc; exact (hmid _ (by simp)).2)
  rw [hdt, hdd]
  have hsd2 : (mid ++ (w ++ tail)).dropWhile (IsSpace T) = w ++ tail := by
    rw [dropWhile_all _ _ _ (fun x hx => (hmid x hx).1)]
    exact dropWhile_stop _ _ (by rw [hw0]; intro c hc; simp at hc; subst hc; exact hwc.2.2)
  rw [hsd2]
  have hnn : ¬ (w ++ tail = []) := by rw [hw0]; simp
  simp only [hnn, if_false]
  rw [numOf_digits _ (fun c hc => (hds c hc).1)]

theorem unitOn_word (T : UnicodeTables) (w tail : List Nat)
    (hw : ∀ c ∈ w, IsLetter T c = true)
    (htail : ∀ c ∈ tail.head?, IsLetter T c = false) (total : Int) (used : List Bool)
    (sign num : Int) :
    unitOn T (w ++ tail) total used sign num =
      if w.length = 0 ∨ w.length > 12 then .error (.ret 0 (some .bare))
      else
        match resolve (w.map lower) with
        | none => .error (.ret 0 (some .unknownUnit))
        | some ud =>
          match usedAt used ud.unitType with
          | .error o => .error o
          | .ok true => .error (.ret 0 (some .duplicateUnit))
          | .ok false =>
            match setAt used ud.unitType true with
            | .error o => .error o
            | .ok used2 =>
              .ok (tail.dropWhile (IsSpace T),
                add64 total (mul64 (mul64 num sign) ud.dur), used2) := by
  obtain ⟨hlt, hld⟩ := takeWhile_append_stop (IsLetter T) w tail hw htail
  simp only [unitOn, hlt, hld]


theorem bodyOn_token_mark (T : UnicodeTables) (t : Token) (ht : t.Readable) (tail : List Nat)
    (htail : ∀ c ∈ tail.head?, IsLetter T c = false) (total : Int) (used : List Bool) :
    bodyOn T (runesOf t.text ++ tail) total used =
      markUnit t total used (tail.dropWhile (IsSpace T)) :=
  bodyOn_token T t ht tail htail total used

theorem markUnit_cases (t : Token) (total : Int) (used : List Bool) :
    (∃ o, ∀ rest, markUnit t total used rest = .error o) ∨
      (∃ tot u, ∀ rest, markUnit t total used rest = .ok (rest, tot, u)) := by
  simp only [markUnit]
  cases usedAt used t.unit.unitType with
  | error o => exact Or.inl ⟨o, fun _ => rfl⟩
  | ok b =>
    cases b with
    | true => exact Or.inl ⟨_, fun _ => rfl⟩
    | false =>
      cases setAt used t.unit.unitType true with
      | error o => exact Or.inl ⟨o, fun _ => rfl⟩
      | ok u => exact Or.inr ⟨_, u, fun _ => rfl⟩

theorem spaced_runes (s : Spaced) :
    runesOf s.text = runesOf s.tok.sign.text ++ (runesOf s.tok.digits ++
      (runesOf s.mid ++ (runesOf s.tok.spelling ++ runesOf s.trail))) := by
  simp only [Spaced.text, runesOf_append, List.append_assoc]

theorem spaced_head (T : UnicodeTables) (s : Spaced) (ht : s.tok.Readable) (rest : List Nat) :
    ∃ c cs, runesOf s.text ++ rest = c :: cs ∧ IsSpace T c = false ∧
      IsLetter T c = false := by
  obtain ⟨hne, hdig, _⟩ := ht
  have hdig2 : ∀ c ∈ runesOf s.tok.digits, 48 ≤ c ∧ c ≤ 57 := hdig
  rw [spaced_runes]
  cases hs : s.tok.sign with
  | none =>
    have hnn : runesOf s.tok.digits ≠ [] := by
      rcases hne with h | h
      · exact absurd hs h
      · exact h
    obtain ⟨d0, ds, hds⟩ : ∃ d0 ds, runesOf s.tok.digits = d0 :: ds := by
      cases h : runesOf s.tok.digits with
      | nil => exact absurd h hnn
      | cons a b => exact ⟨a, b, rfl⟩
    have hd := digit_class T d0 (hdig2 d0 (by simp [hds])).1 (hdig2 d0 (by simp [hds])).2
    have : runesOf Sign.none.text = [] := by decide
    rw [this, hds]
    exact ⟨d0, _, rfl, hd.2.2.2.2, hd.2.2.2.1⟩
  | plus =>
    have : runesOf Sign.plus.text = [43] := by decide
    rw [this]
    exact ⟨43, _, rfl, (sign_class T 43 (Or.inl rfl)).1, (sign_class T 43 (Or.inl rfl)).2.1⟩
  | minus =>
    have : runesOf Sign.minus.text = [45] := by decide
    rw [this]
    exact ⟨45, _, rfl, (sign_class T 45 (Or.inr rfl)).1, (sign_class T 45 (Or.inr rfl)).2.1⟩

theorem layout_cons (s : Spaced) (ss : List Spaced) :
    runesOf (layout (s :: ss)) = runesOf s.text ++ runesOf (layout ss) := by
  simp only [layout, runesOf_append]

theorem layout_head (T : UnicodeTables) (ss : List Spaced)
    (hss : ∀ s ∈ ss, s.tok.Readable) :
    ∀ c ∈ (runesOf (layout ss)).head?, IsSpace T c = false ∧ IsLetter T c = false := by
  cases ss with
  | nil =>
    have : runesOf (layout []) = [] := by decide
    rw [this]
    intro c hc
    simp at hc
  | cons s ss =>
    obtain ⟨c, cs, h, h1, h2⟩ := spaced_head T s (hss s (by simp)) (runesOf (layout ss))
    rw [layout_cons, h]
    intro c2 hc2
    simp at hc2
    subst hc2
    exact ⟨h1, h2⟩

theorem bodyOn_spaced (T : UnicodeTables) (hT : T.Separated) (s : Spaced)
    (ht : s.tok.Readable) (hb : s.Blank T) (rest : List Nat)
    (hrest : ∀ c ∈ rest.head?, IsSpace T c = false ∧ IsLetter T c = false) (total : Int)
    (used : List Bool) :
    bodyOn T (runesOf s.text ++ rest) total used = markUnit s.tok total used rest := by
  obtain ⟨hne, hdig, hsp⟩ := ht
  obtain ⟨hpos, hle, hlet, hres, _, _⟩ := spellings_facts _ hsp
  simp only [] at hpos hle hlet hres
  have hwl : ∀ c ∈ runesOf s.tok.spelling,
      IsLetter T c = true ∧ IsDigit T c = false ∧ IsSpace T c = false := fun c hc =>
    ⟨(lowerLetter_class T c (hlet c hc).1 (hlet c hc).2).1,
      (lowerLetter_class T c (hlet c hc).1 (hlet c hc).2).2.2.1,
      (lowerLetter_class T c (hlet c hc).1 (hlet c hc).2).2.2.2⟩
  have hwne : runesOf s.tok.spelling ≠ [] := by
    intro h; rw [h] at hpos; simp at hpos
  have htext : runesOf s.text ++ rest = runesOf s.tok.sign.text ++ (runesOf s.tok.digits ++
      (runesOf s.mid ++ (runesOf s.tok.spelling ++ (runesOf s.trail ++ rest)))) := by
    rw [spaced_runes]
    simp only [List.append_assoc]
  rw [htext, bodyOn_word T s.tok.sign _ _ _ _ hne hdig
    (fun c hc => ⟨hb.1 c hc, (space_class_of T hT c (hb.1 c hc)).1⟩) hwl hwne]
  have htail : ∀ c ∈ (runesOf s.trail ++ rest).head?, IsLetter T c = false := by
    cases htr : runesOf s.trail with
    | nil => intro c hc; exact (hrest c (by simpa using hc)).2
    | cons a b =>
      intro c hc
      simp at hc
      subst hc
      exact (space_class_of T hT _ (hb.2 _ (by simp [htr]))).2.1
  rw [unitOn_word T _ _ (fun c hc => (hwl c hc).1) htail]
  have hlen : ¬ ((runesOf s.tok.spelling).length = 0 ∨ (runesOf s.tok.spelling).length > 12) := by
    omega
  have hlow : (runesOf s.tok.spelling).map lower = runesOf s.tok.spelling := by
    have : (runesOf s.tok.spelling).map lower = (runesOf s.tok.spelling).map id :=
      List.map_congr_left (fun x hx => (lowerLetter_class T x (hlet x hx).1 (hlet x hx).2).2.1)
    rw [this, List.map_id]
  have hdrop : (runesOf s.trail ++ rest).dropWhile (IsSpace T) = rest := by
    rw [dropWhile_all _ _ _ hb.2]
    exact dropWhile_stop _ _ (fun c hc => (hrest c hc).1)
  simp only [hlen, if_false, hlow, hres, hdrop, markUnit]

theorem loopOn_layout (T : UnicodeTables) (hT : T.Separated) : ∀ (ss : List Spaced),
    (∀ s ∈ ss, s.tok.Readable ∧ s.Blank T) →
    ∀ (f1 f2 : Nat) (total : Int) (used : List Bool),
      (runesOf (layout ss)).length ≤ f1 →
      (runesOf (joinTokens (ss.map Spaced.tok))).length ≤ f2 →
      loopOn T f1 (runesOf (layout ss)) total used =
        loopOn T f2 (runesOf (joinTokens (ss.map Spaced.tok))) total used := by
  intro ss
  induction ss with
  | nil =>
    intro _ f1 f2 total used _ _
    have e1 : runesOf (layout []) = [] := by decide
    have e2 : runesOf (joinTokens (([] : List Spaced).map Spaced.tok)) = [] := by decide
    rw [e1, e2]
    cases f1 <;> cases f2 <;> simp [loopOn]
  | cons s ss ih =>
    intro hss f1 f2 total used h1 h2
    have hs := hss s (by simp)
    have hss2 : ∀ x ∈ ss, x.tok.Readable ∧ x.Blank T := fun x hx => hss x (by simp [hx])
    have hr2 : ∀ t ∈ ss.map Spaced.tok, t.Readable := by
      intro t ht
      simp only [List.mem_map] at ht
      obtain ⟨x, hx, rfl⟩ := ht
      exact (hss2 x hx).1
    -- both inputs start with a character of the first token
    obtain ⟨c1, cs1, hc1, _, _⟩ := spaced_head T s hs.1 (runesOf (layout ss))
    rw [← layout_cons] at hc1
    obtain ⟨c2, cs2, hc2, _, _⟩ := join_head T s.tok (ss.map Spaced.tok) hs.1
    have hl1 := length_join_cons T s.tok (ss.map Spaced.tok) hs.1
    simp only [List.map_cons] at h2 ⊢
    cases f1 with
    | zero => rw [hc1] at h1; simp at h1
    | succ f1 =>
      cases f2 with
      | zero => omega
      | succ f2 =>
        have hn1 : ¬ runesOf (layout (s :: ss)) = [] := by rw [hc1]; simp
        have hn2 : ¬ runesOf (joinTokens (s.tok :: ss.map Spaced.tok)) = [] := by
          rw [hc2]; simp
        obtain ⟨htl, hdrop⟩ := join_tail T (ss.map Spaced.tok) hr2
        simp only [loopOn, hn1, hn2, if_false]
        rw [layout_cons, bodyOn_spaced T hT s hs.1 hs.2 _
          (layout_head T ss (fun x hx => (hss2 x hx).1)), join_cons,
          bodyOn_token_mark T s.tok hs.1 _ htl, hdrop]
        have hlen1 : (runesOf (layout ss)).length ≤ f1 := by
          rw [layout_cons] at h1
          have : 0 < (runesOf s.text).length := by
            obtain ⟨c, cs, h, _, _⟩ := spaced_head T s hs.1 []
            simp only [List.append_nil] at h
            rw [h]; simp
          simp only [List.length_append] at h1
          omega
        rcases markUnit_cases s.tok total used with ⟨o, ho⟩ | ⟨tot, u, ho⟩
        · rw [ho, ho]
        · rw [ho, ho]
          exact ih hss2 f1 f2 tot u hlen1 (by omega)


/-! ## Well-formed tokens followed by something else -/

theorem loopOn_step (T : UnicodeTables) (t : Token) (ht : t.Readable) (tail : List Nat)
    (htail : ∀ c ∈ tail.head?, IsLetter T c = false) (fuel : Nat) (x : Int)
    (used : List Bool) (hlen : used.length = 10)
    (hu : usedAt used t.unit.unitType = .ok false) :
    loopOn T (fuel + 1) (runesOf t.text ++ tail) (wrap64 x) used =
      loopOn T fuel (tail.dropWhile (IsSpace T)) (wrap64 (x + t.value))
        (used.set t.unit.unitType true) := by
  obtain ⟨c, rest, h, _, _⟩ := text_cons T t ht
  have hne : ¬ runesOf t.text ++ tail = [] := by rw [h]; simp
  obtain ⟨_, _, _, _, _, h9⟩ := spellings_facts _ ht.2.2
  simp only [] at h9
  have hset : setAt used t.unit.unitType true = .ok (used.set t.unit.unitType true) := by
    have : t.unit.unitType < used.length := by omega
    simp only [setAt, this, if_true]
  simp only [loopOn, hne, if_false]
  rw [bodyOn_token T t ht _ htail]
  simp only [hu, hset]
  congr 1
  rw [mul64_wrap, mul64_wrap, add64_wrap_wrap, Token.value]
  congr 1
  ring

theorem loopOn_tokens_then (T : UnicodeTables) : ∀ (ts : List Token) (t : Token),
    (∀ y ∈ t :: ts, y.Readable) → (unitsOf (t :: ts)).Nodup →
    ∀ (R : List Nat) (x : Int) (used : List Bool), used.length = 10 →
      (∀ y ∈ t :: ts, usedAt used y.unit.unitType = .ok false) →
      (∀ c ∈ R.head?, IsLetter T c = false) →
      ∃ tot u, u.length = 10 ∧ ∀ fuel, (runesOf (joinTokens (t :: ts)) ++ R).length ≤ fuel →
        loopOn T fuel (runesOf (joinTokens (t :: ts)) ++ R) (wrap64 x) used =
          loopOn T fuel (R.dropWhile (IsSpace T)) tot u := by
  intro ts
  induction ts with
  | nil =>
    intro t hwf _ R x used hlen hused hR
    have ht := hwf t (by simp)
    refine ⟨wrap64 (x + t.value), used.set t.unit.unitType true, by simp [hlen], ?_⟩
    intro fuel hf
    have hj : runesOf (joinTokens [t]) = runesOf t.text := rfl
    rw [hj] at hf ⊢
    obtain ⟨c, rest, h, _, _⟩ := text_cons T t ht
    have hdl := length_dropWhile_le_length (IsSpace T) R
    cases fuel with
    | zero => rw [h] at hf; simp at hf
    | succ fuel =>
      rw [loopOn_step T t ht R hR fuel x used hlen (hused t (by simp))]
      simp only [List.length_append, h, List.length_cons] at hf
      exact loopOn_fuel T _ _ _ _ _ (by omega) (by omega)
  | cons t2 ts ih =>
    intro t hwf hnd R x used hlen hused hR
    have ht := hwf t (by simp)
    simp only [unitsOf, List.map_cons, List.nodup_cons, List.mem_cons, List.mem_map,
      not_or, not_exists, not_and] at hnd
    have hnd2 : (unitsOf (t2 :: ts)).Nodup := by
      simp only [unitsOf, List.map_cons, List.nodup_cons, List.mem_map, not_exists, not_and]
      exact hnd.2
    have hne : ∀ y ∈ t2 :: ts, t.unit.unitType ≠ y.unit.unitType := by
      intro y hy
      simp only [List.mem_cons] at hy
      rcases hy with hy | hy
      · subst hy; exact hnd.1.1
      · exact fun e => hnd.1.2 y hy e.symm
    obtain ⟨tot, u, hulen, hloop⟩ := ih t2 (fun y hy => hwf y (by simp [hy])) hnd2 R
      (x + t.value) (used.set t.unit.unitType true) (by simp [hlen])
      (fun y hy => by
        rw [usedAt_set_ne _ _ _ (hne y hy)]
        exact hused y (by simp [hy])) hR
    refine ⟨tot, u, hulen, ?_⟩
    intro fuel hf
    obtain ⟨c, rest, h, _, _⟩ := text_cons T t ht
    obtain ⟨c2, rest2, h2, hsp2, _⟩ := join_head T t2 ts (hwf t2 (by simp))
    have hs := space_class T
    have hshape : runesOf (joinTokens (t :: t2 :: ts)) ++ R =
        runesOf t.text ++ (32 :: (runesOf (joinTokens (t2 :: ts)) ++ R)) := by
      rw [join_cons]
      simp [afterFirst]
    have hdrop : (32 :: (runesOf (joinTokens (t2 :: ts)) ++ R)).dropWhile (IsSpace T) =
        runesOf (joinTokens (t2 :: ts)) ++ R := by
      rw [List.dropWhile_cons_of_pos hs.1]
      apply dropWhile_stop
      rw [h2]
      intro c3 hc3
      simp at hc3
      subst hc3
      exact hsp2
    have hdl := length_dropWhile_le_length (IsSpace T) R
    rw [hshape] at hf ⊢
    cases fuel with
    | zero => rw [h] at hf; simp at hf
    | succ fuel =>
      rw [loopOn_step T t ht _ (by intro c3 hc3; simp at hc3; subst hc3; exact hs.2.1)
        fuel x used hlen (hused t (by simp)), hdrop]
      simp only [List.length_append, h, List.length_cons] at hf
      rw [hloop fuel (by simp only [List.length_append]; omega)]
      exact loopOn_fuel T _ _ _ _ _ (by omega) (by omega)

/-- After any list of well-formed tokens with distinct units the main loop continues on
what follows them, less its leading white space. -/
theorem ParseRunes_then (T : UnicodeTables) (hT : T.Separated) (ts : List Token)
    (hwf : ∀ t ∈ ts, t.Readable) (hnd : (unitsOf ts).Nodup) (gap R : List Nat)
    (hgap : ∀ c ∈ gap, IsSpace T c = true) (c : Nat) (cs : List Nat) (hR : R = c :: cs)
    (hc : IsSpace T c = false) (hlet : ts = [] ∨ gap ≠ [] ∨ IsLetter T c = false) :
    ∃ tot u, u.length = 10 ∧ ∀ fuel, R.length ≤ fuel →
      ParseRunes T (runesOf (joinTokens ts) ++ (gap ++ R)) = loopOn T fuel R tot u := by
  have hdropR : R.dropWhile (IsSpace T) = R :=
    dropWhile_stop _ _ (by rw [hR]; intro x hx; simp at hx; subst hx; exact hc)
  have hgr : (gap ++ R).dropWhile (IsSpace T) = R := by
    rw [dropWhile_all _ _ _ hgap, hdropR]
  cases ts with
  | nil =>
    refine ⟨0, List.replicate 10 false, by simp, ?_⟩
    intro fuel hf
    have : runesOf (joinTokens []) = [] := by decide
    rw [this, List.nil_append]
    rw [ParseRunes_of_fuel T _ fuel (by rw [hgr, hR]; simp) (by rw [hgr]; exact hf), hgr]
  | cons t ts =>
    have ht := hwf t (by simp)
    obtain ⟨c1, r1, h1, hs1, _⟩ := join_head T t ts ht
    have hhead : ∀ x ∈ (gap ++ R).head?, IsLetter T x = false := by
      cases gap with
      | nil =>
        rcases hlet with h | h | h
        · cases h
        · exact absurd rfl h
        · rw [hR]; intro x hx; simp at hx; subst hx; exact h
      | cons g gs =>
        intro x hx
        simp at hx
        subst hx
        exact (space_class_of T hT _ (hgap _ (by simp))).2.1
    obtain ⟨tot, u, hulen, hloop⟩ := loopOn_tokens_then T ts t hwf hnd (gap ++ R) 0
      (List.replicate 10 false) (by simp)
      (fun y hy => by
        obtain ⟨_, _, _, _, _, h9⟩ := spellings_facts _ (hwf y hy).2.2
        exact usedAt_replicate _ (by simp only [] at h9; omega)) hhead
    refine ⟨tot, u, hulen, ?_⟩
    intro fuel hf
    have hstart : (runesOf (joinTokens (t :: ts)) ++ (gap ++ R)).dropWhile (IsSpace T) =
        runesOf (joinTokens (t :: ts)) ++ (gap ++ R) :=
      dropWhile_stop _ _ (by rw [h1]; intro x hx; simp at hx; subst hx; exact hs1)
    have h0 : (0 : Int) = wrap64 0 := by decide
    rw [ParseRunes_eq, hstart, if_neg (by rw [h1]; simp), h0, hloop _ (Nat.le_refl _), hgr]
    exact loopOn_fuel T _ _ _ _ _ (by simp only [List.length_append]; omega) hf

theorem dropWhile_of_all (p q : Nat → Bool) (ws : List Nat) (hws : ∀ c ∈ ws, q c = true) :
    (ws.dropWhile p).dropWhile q = [] := by
  apply List.dropWhile_eq_nil_iff.mpr
  intro x hx
  exact hws x ((List.dropWhile_sublist p).subset hx)

theorem bodyOn_fragment (T : UnicodeTables) (sg : Sign) (ds ws : List Nat)
    (hsd : sg ≠ .none ∨ ds ≠ []) (hds : ∀ c ∈ ds, 48 ≤ c ∧ c ≤ 57)
    (hws : ∀ c ∈ ws, IsSpace T c = true) (total : Int) (used : List Bool) :
    bodyOn T (runesOf sg.text ++ (ds ++ ws)) total used =
      .error (.ret 0 (some .missingUnit)) := by
  have hsign := signOn_token T sg (ds ++ ws) (by
    rcases hsd with h | h
    · exact Or.inl h
    · right
      cases ds with
      | nil => exact absurd rfl h
      | cons a b => exact ⟨a, _, rfl, hds a (by simp)⟩)
  simp only [bodyOn, hsign]
  rw [dropWhile_all _ _ _ (fun x hx => (digit_class T x (hds x hx).1 (hds x hx).2).1),
    dropWhile_of_all _ _ _ hws]
  simp

theorem bodyOn_missingNumber (T : UnicodeTables) (c : Nat) (cs : List Nat) (h2 : c ≠ 45)
    (h3 : c ≠ 43) (h4 : IsDigit T c = false) (total : Int) (used : List Bool) :
    bodyOn T (c :: cs) total used = .error (.ret 0 (some .missingNumber)) := by
  have e1 : ¬ c = '-'.toNat := h2
  have e2 : ¬ c = '+'.toNat := h3
  simp only [bodyOn, signOn]
  rw [if_neg e1, if_neg e2]
  simp [h4]


theorem fragment_head (T : UnicodeTables) (sg : Sign) (ds ws : List Nat)
    (hsd : sg ≠ .none ∨ ds ≠ []) (hds : ∀ c ∈ ds, 48 ≤ c ∧ c ≤ 57) :
    ∃ c cs, runesOf sg.text ++ (ds ++ ws) = c :: cs ∧ IsSpace T c = false ∧
      IsLetter T c = false := by
  cases sg with
  | none =>
    have : runesOf Sign.none.text = [] := by decide
    rw [this]
    cases ds with
    | nil =>
      rcases hsd with h | h
      · exact absurd rfl h
      · exact absurd rfl h
    | cons d0 ds =>
      have hd := digit_class T d0 (hds d0 (by simp)).1 (hds d0 (by simp)).2
      exact ⟨d0, _, rfl, hd.2.2.2.2, hd.2.2.2.1⟩
  | plus =>
    have : runesOf Sign.plus.text = [43] := by decide
    rw [this]
    exact ⟨43, _, rfl, (sign_class T 43 (Or.inl rfl)).1, (sign_class T 43 (Or.inl rfl)).2.1⟩
  | minus =>
    have : runesOf Sign.minus.text = [45] := by decide
    rw [this]
    exact ⟨45, _, rfl, (sign_class T 45 (Or.inr rfl)).1, (sign_class T 45 (Or.inr rfl)).2.1⟩

theorem Parse_layout (T : UnicodeTables) (hT : T.Separated) (lead : String)
    (ss : List Spaced) (hlead : whiteSpace T lead)
    (hss : ∀ s ∈ ss, s.tok.Readable ∧ s.Blank T) :
    Parse T (lead ++ layout ss) = Parse T (joinTokens (ss.map Spaced.tok)) := by
  unfold Parse
  rw [runesOf_append, ParseRunes_eq, ParseRunes_eq, dropWhile_all _ _ _ hlead]
  have hL : (runesOf (layout ss)).dropWhile (IsSpace T) = runesOf (layout ss) :=
    dropWhile_stop _ _ (fun c hc => (layout_head T ss (fun s hs => (hss s hs).1) c hc).1)
  rw [hL]
  cases ss with
  | nil =>
    have e1 : runesOf (layout []) = [] := by decide
    have e2 : runesOf (joinTokens (([] : List Spaced).map Spaced.tok)) = [] := by decide
    rw [e1, e2]
    rfl
  | cons s ss =>
    obtain ⟨h1, h2⟩ := Parse_join_start T s.tok (ss.map Spaced.tok) (hss s (by simp)).1
    simp only [List.map_cons] at h1 h2 ⊢
    obtain ⟨c1, cs1, hc1, _, _⟩ := spaced_head T s (hss s (by simp)).1 (runesOf (layout ss))
    rw [← layout_cons] at hc1
    rw [h1, if_neg (by rw [hc1]; simp), if_neg h2]
    have := loopOn_layout T hT (s :: ss) hss
      (runesOf lead ++ runesOf (layout (s :: ss))).length
      (runesOf (joinTokens (s.tok :: ss.map Spaced.tok))).length 0 (List.replicate 10 false)
      (by simp) (Nat.le_refl _)
    simp only [List.map_cons] at this
    exact this


/-! ## The packed keys on characters below 256 -/

theorem hash2_small (a b : Nat) (ha : a < 256) (hb : b < 256) : hash2 a b = a * 256 + b := by
  have h := Nat.mul_add_lt_is_or (show b < 2 ^ 8 by omega) a
  simp only [hash2, Nat.shiftLeft_eq]
  rw [Nat.mod_eq_of_lt (show a < 65536 by omega), Nat.mod_eq_of_lt (show b < 65536 by omega),
    Nat.mod_eq_of_lt (show a * 2 ^ 8 < 65536 by omega)]
  rw [show a * 2 ^ 8 = 2 ^ 8 * a by omega, ← h]
  omega

theorem hash3_small (a b c : Nat) (ha : a < 256) (hb : b < 256) (hc : c < 256) :
    hash3 a b c = a * 65536 + b * 256 + c := by
  have h1 := Nat.mul_add_lt_is_or (show b * 2 ^ 8 < 2 ^ 16 by omega) a
  have h2 := Nat.mul_add_lt_is_or (show c < 2 ^ 8 by omega) (a * 2 ^ 8 + b)
  simp only [hash3, Nat.shiftLeft_eq]
  rw [Nat.mod_eq_of_lt (show a < 4294967296 by omega),
    Nat.mod_eq_of_lt (show b < 4294967296 by omega),
    Nat.mod_eq_of_lt (show c < 4294967296 by omega),
    Nat.mod_eq_of_lt (show a * 2 ^ 16 < 4294967296 by omega),
    Nat.mod_eq_of_lt (show b * 2 ^ 8 < 4294967296 by omega)]
  rw [show a * 2 ^ 16 = 2 ^ 16 * a by omega, ← h1,
    show 2 ^ 16 * a + b * 2 ^ 8 = 2 ^ 8 * (a * 2 ^ 8 + b) by omega, ← h2]
  omega

theorem hash4_small (a b c d : Nat) (ha : a < 256) (hb : b < 256) (hc : c < 256)
    (hd : d < 256) : hash4 a b c d = a * 16777216 + b * 65536 + c * 256 + d := by
  have h1 := Nat.mul_add_lt_is_or (show b * 2 ^ 16 < 2 ^ 24 by omega) a
  have h2 := Nat.mul_add_lt_is_or (show c * 2 ^ 8 < 2 ^ 16 by omega) (a * 2 ^ 8 + b)
  have h3 := Nat.mul_add_lt_is_or (show d < 2 ^ 8 by omega) (a * 2 ^ 16 + b * 2 ^ 8 + c)
  simp only [hash4, Nat.shiftLeft_eq]
  rw [Nat.mod_eq_of_lt (show a < 18446744073709551616 by omega),
    Nat.mod_eq_of_lt (show b < 18446744073709551616 by omega),
    Nat.mod_eq_of_lt (show c < 18446744073709551616 by omega),
    Nat.mod_eq_of_lt (show d < 18446744073709551616 by omega),
    Nat.mod_eq_of_lt (show a * 2 ^ 24 < 18446744073709551616 by omega),
    Nat.mod_eq_of_lt (show b * 2 ^ 16 < 18446744073709551616 by omega),
    Nat.mod_eq_of_lt (show c * 2 ^ 8 < 18446744073709551616 by omega)]
  rw [show a * 2 ^ 24 = 2 ^ 24 * a by omega, ← h1,
    show 2 ^ 24 * a + b * 2 ^ 16 = 2 ^ 16 * (a * 2 ^ 8 + b) by omega, ← h2,
    show 2 ^ 16 * (a * 2 ^ 8 + b) + c * 2 ^ 8 = 2 ^ 8 * (a * 2 ^ 16 + b * 2 ^ 8 + c) by omega,
    ← h3]
  omega


/-! ## Exact lookup of tokens of ASCII letters -/

theorem lookup_mem_pair {α : Type} [BEq α] [LawfulBEq α] (k : α) (v : unitDef) :
    ∀ (l : List (α × unitDef)), l.lookup k = some v → (k, v) ∈ l := by
  intro l
  induction l with
  | nil => intro h; simp [List.lookup] at h
  | cons p l ih =>
    intro h
    obtain ⟨a, b⟩ := p
    simp only [List.lookup] at h
    split at h
    · rename_i heq
      injection h with h
      have : k = a := by simpa using heq
      simp [this, h]
    · simp [ih h]

set_option maxRecDepth 100000 in
theorem tables_spelled :
    (∀ q ∈ unitMapLen1, ∃ p ∈ spellings, runesOf p.1 = [q.1] ∧ p.2 = q.2) ∧
    (∀ q ∈ unitMapLen2, ∃ p ∈ spellings, (runesOf p.1).length = 2 ∧
      hash2 ((runesOf p.1).getD 0 0) ((runesOf p.1).getD 1 0) = q.1 ∧ p.2 = q.2) ∧
    (∀ q ∈ unitMapLen3, ∃ p ∈ spellings, (runesOf p.1).length = 3 ∧
      hash3 ((runesOf p.1).getD 0 0) ((runesOf p.1).getD 1 0) ((runesOf p.1).getD 2 0) = q.1 ∧
      p.2 = q.2) ∧
    (∀ q ∈ unitMapLen4, ∃ p ∈ spellings, (runesOf p.1).length = 4 ∧
      hash4 ((runesOf p.1).getD 0 0) ((runesOf p.1).getD 1 0) ((runesOf p.1).getD 2 0)
        ((runesOf p.1).getD 3 0) = q.1 ∧ p.2 = q.2) ∧
    (∀ q ∈ longUnits, ∃ p ∈ spellings, runesOf p.1 = q.1 ∧ p.2 = q.2) := by
  decide

theorem resolve_exact (w : List Nat) (ud : unitDef) (hw : ∀ c ∈ w, 97 ≤ c ∧ c ≤ 122)
    (h : resolve w = some ud) : ∃ p ∈ spellings, runesOf p.1 = w ∧ p.2 = ud := by
  obtain ⟨t1, t2, t3, t4, t5⟩ := tables_spelled
  unfold resolve at h
  split at h
  · rename_i a
    obtain ⟨p, hp, h1, h2⟩ := t1 _ (lookup_mem_pair _ _ _ h)
    exact ⟨p, hp, h1, h2⟩
  · rename_i a b
    obtain ⟨p, hp, hl, hk, h2⟩ := t2 _ (lookup_mem_pair _ _ _ h)
    obtain ⟨_, _, hlet, _, _, _⟩ := spellings_facts p hp
    refine ⟨p, hp, ?_, h2⟩
    match hr : runesOf p.1, hl with
    | [x, y], _ =>
      rw [hr] at hk hlet
      simp only [List.getD_cons_zero, List.getD_cons_succ] at hk
      have hx := hlet x (by simp)
      have hy := hlet y (by simp)
      have ha := hw a (by simp)
      have hb := hw b (by simp)
      rw [hash2_small x y (by omega) (by omega), hash2_small a b (by omega) (by omega)] at hk
      have : x = a ∧ y = b := by omega
      rw [this.1, this.2]
  · rename_i a b c
    obtain ⟨p, hp, hl, hk, h2⟩ := t3 _ (lookup_mem_pair _ _ _ h)
    obtain ⟨_, _, hlet, _, _, _⟩ := spellings_facts p hp
    refine ⟨p, hp, ?_, h2⟩
    match hr : runesOf p.1, hl with
    | [x, y, z], _ =>
      rw [hr] at hk hlet
      simp only [List.getD_cons_zero, List.getD_cons_succ] at hk
      have hx := hlet x (by simp)
      have hy := hlet y (by simp)
      have hz := hlet z (by simp)
      have ha := hw a (by simp)
      have hb := hw b (by simp)
      have hc := hw c (by simp)
      rw [hash3_small x y z (by omega) (by omega) (by omega),
        hash3_small a b c (by omega) (by omega) (by omega)] at hk
      have : x = a ∧ y = b ∧ z = c := by omega
      rw [this.1, this.2.1, this.2.2]
  · rename_i a b c d
    obtain ⟨p, hp, hl, hk, h2⟩ := t4 _ (lookup_mem_pair _ _ _ h)
    obtain ⟨_, _, hlet, _, _, _⟩ := spellings_facts p hp
    refine ⟨p, hp, ?_, h2⟩
    match hr : runesOf p.1, hl with
    | [x, y, z, v], _ =>
      rw [hr] at hk hlet
      simp only [List.getD_cons_zero, List.getD_cons_succ] at hk
      have hx := hlet x (by simp)
      have hy := hlet y (by simp)
      have hz := hlet z (by simp)
      have hv := hlet v (by simp)
      have ha := hw a (by simp)
      have hb := hw b (by simp)
      have hc := hw c (by simp)
      have hd := hw d (by simp)
      rw [hash4_small x y z v (by omega) (by omega) (by omega) (by omega),
        hash4_small a b c d (by omega) (by omega) (by omega) (by omega)] at hk
      have : x = a ∧ y = b ∧ z = c ∧ v = d := by omega
      rw [this.1, this.2.1, this.2.2.1, this.2.2.2]
  · obtain ⟨p, hp, h1, h2⟩ := t5 _ (lookup_mem_pair _ _ _ h)
    exact ⟨p, hp, h1, h2⟩


theorem asciiLetter_class (T : UnicodeTables) (c : Nat)
    (h : (65 ≤ c ∧ c ≤ 90) ∨ (97 ≤ c ∧ c ≤ 122)) :
    (IsLetter T c = true ∧ IsDigit T c = false ∧ IsSpace T c = false) ∧
      97 ≤ lower c ∧ lower c ≤ 122 := by
  rw [lower_eq]
  rcases h with h | h
  · obtain ⟨a, b, c2⟩ := upperLetter_class T c h.1 h.2
    simp only [h, and_self, if_true]
    exact ⟨⟨a, b, c2⟩, by omega, by omega⟩
  · obtain ⟨a, _, b, c2⟩ := lowerLetter_class T c h.1 h.2
    have : ¬ (65 ≤ c ∧ c ≤ 90) := by omega
    simp only [this, if_false]
    exact ⟨⟨a, b, c2⟩, h.1, h.2⟩

theorem add64_zero_wrap (a : Int) : add64 0 (wrap64 a) = wrap64 a := by
  unfold add64
  rw [Int.zero_add, wrap64_idem]

theorem ParseRunes_number_word (T : UnicodeTables) (ds w : List Nat) (hne : ds ≠ [])
    (hds : ∀ c ∈ ds, 48 ≤ c ∧ c ≤ 57)
    (hw : ∀ c ∈ w, (65 ≤ c ∧ c ≤ 90) ∨ (97 ≤ c ∧ c ≤ 122)) (hl1 : 1 ≤ w.length)
    (hl2 : w.length ≤ 12) :
    ParseRunes T (ds ++ w) =
      match resolve (w.map lower) with
      | none => .ret 0 (some .unknownUnit)
      | some ud => .ret (wrap64 ((decimal ds : Int) * ud.dur)) none := by
  obtain ⟨d0, dr, hd0⟩ : ∃ d0 dr, ds = d0 :: dr := by
    cases ds with
    | nil => exact absurd rfl hne
    | cons a b => exact ⟨a, b, rfl⟩
  have hdc := digit_class T d0 (hds d0 (by simp [hd0])).1 (hds d0 (by simp [hd0])).2
  have hstart : (ds ++ w).dropWhile (IsSpace T) = ds ++ w :=
    dropWhile_stop _ _ (by rw [hd0]; intro c hc; simp at hc; subst hc; exact hdc.2.2.2.2)
  have hnn : ¬ ds ++ w = [] := by rw [hd0]; simp
  have hwne : w ≠ [] := by
    intro h; rw [h] at hl1; simp at hl1
  have hshape : ds ++ w = runesOf Sign.none.text ++ (ds ++ ([] ++ (w ++ []))) := by
    have : runesOf Sign.none.text = [] := by decide
    rw [this]
    simp
  have hlen : (ds ++ w).length = (dr ++ w).length + 1 := by rw [hd0]; simp
  rw [ParseRunes_eq, hstart, if_neg hnn, hlen]
  simp only [loopOn, hnn, if_false]
  rw [hshape, bodyOn_word T .none ds [] w [] (Or.inr hne) hds (by simp)
    (fun c hc => (asciiLetter_class T c (hw c hc)).1) hwne,
    unitOn_word T w [] (fun c hc => (asciiLetter_class T c (hw c hc)).1.1) (by simp)]
  have hlen2 : ¬ (w.length = 0 ∨ w.length > 12) := by omega
  simp only [hlen2, if_false]
  cases hres : resolve (w.map lower) with
  | none => rfl
  | some ud =>
    have hr := resolve_range _ _ hres
    have hu := usedAt_replicate ud.unitType (by omega)
    have hset : setAt (List.replicate 10 false) ud.unitType true =
        .ok ((List.replicate 10 false).set ud.unitType true) := by
      have : ud.unitType < (List.replicate 10 false).length := by simp; omega
      simp only [setAt, this, if_true]
    simp only [hu, hset, List.dropWhile_nil]
    have htot : add64 0 (mul64 (mul64 (wrap64 (decimal ds : Int)) Sign.none.factor) ud.dur) =
        wrap64 ((decimal ds : Int) * ud.dur) := by
      rw [mul64_wrap, mul64_wrap, add64_zero_wrap]
      simp [Sign.factor]
    rw [htot]
    cases (dr ++ w).length <;> simp [loopOn]


/-! ## The claims -/

/-- C1. For every non-empty sequence of well-formed tokens (optional sign, non-empty run of
ASCII digits, recognized spelling) with pairwise distinct canonical units, `Parse` of the
tokens joined by single spaces returns no error and the sum of
`sign * value(digits) * nanoseconds-per-unit` reduced to a signed 64 bit integer; it is the
exact sum whenever that sum fits in 64 bits. -/
theorem parse_tokens_sum (T : UnicodeTables) (ts : List Token) (hne : ts ≠ [])
    (hwf : ∀ t ∈ ts, t.WellFormed) (hnd : (unitsOf ts).Nodup) :
    Parse T (joinTokens ts) = .ret (wrap64 (totalOf ts)) none ∧
      (-9223372036854775808 ≤ totalOf ts → totalOf ts < 9223372036854775808 →
        Parse T (joinTokens ts) = .ret (totalOf ts) none) := by
  have h := Parse_tokens T ts hne (fun t ht => (hwf t ht).readable) hnd
  refine ⟨h, fun h1 h2 => ?_⟩
  rw [h, wrap64_of_range h1 h2]

set_option maxRecDepth 100000 in
/-- Witness of C1 on the inputs `"2y 3mon 5d"` and `"999999h 999999m"`. -/
theorem parse_tokens_sum_witness :
    Parse goTables "2y 3mon 5d" =
        .ret (2 * yearDuration + 3 * monthDuration + 5 * dayDuration) none ∧
      Parse goTables "999999h 999999m" = .ret (999999 * Hour + 999999 * Minute) none :=
  ⟨(parse_tokens_sum goTables
      [⟨.none, "2", "y", defYear⟩, ⟨.none, "3", "mon", defMonth⟩, ⟨.none, "5", "d", defDay⟩]
      (by decide) (by decide) (by decide)).2 (by decide) (by decide),
   (parse_tokens_sum goTables
      [⟨.none, "999999", "h", defHour⟩, ⟨.none, "999999", "m", defMinute⟩]
      (by decide) (by decide) (by decide)).2 (by decide) (by decide)⟩

/-- C2. For every sequence of well-formed tokens in which two tokens resolve to the same
canonical unit, through the same or through different spellings, `Parse` of the tokens
joined by single spaces fails with the duplicate-unit error and returns the zero
duration. -/
theorem parse_duplicate_unit (T : UnicodeTables) (ts : List Token)
    (hwf : ∀ t ∈ ts, t.WellFormed) (hdup : ¬ (unitsOf ts).Nodup) :
    Parse T (joinTokens ts) = .ret 0 (some .duplicateUnit) :=
  Parse_tokens_dup T ts (fun t ht => (hwf t ht).readable) hdup

set_option maxRecDepth 100000 in
/-- Witness of C2 on the inputs `"1h 2h"` and `"1mon 2months"`. -/
theorem parse_duplicate_unit_witness :
    Parse goTables "1h 2h" = .ret 0 (some .duplicateUnit) ∧
      Parse goTables "1mon 2months" = .ret 0 (some .duplicateUnit) :=
  ⟨parse_duplicate_unit goTables
      [⟨.none, "1", "h", defHour⟩, ⟨.none, "2", "h", defHour⟩] (by decide) (by decide),
   parse_duplicate_unit goTables
      [⟨.none, "1", "mon", defMonth⟩, ⟨.none, "2", "months", defMonth⟩]
      (by decide) (by decide)⟩

/-- C3, counterexample. The empty list of tokens is a list of well-formed tokens with
pairwise distinct units, and `Parse` of it (the empty string) does not succeed. -/
theorem parse_permutation_empty :
    (∀ t ∈ ([] : List Token), t.WellFormed) ∧ (unitsOf []).Nodup ∧
      List.Perm ([] : List Token) [] ∧
      Parse goTables (joinTokens []) = .ret 0 (some .emptyString) := by
  refine ⟨by simp, by simp [unitsOf], List.Perm.refl _, by decide⟩

/-- C3, amended. For every non-empty list of well-formed tokens with pairwise distinct
canonical units and every permutation of it, `Parse` of the permuted list (joined by single
spaces) succeeds and returns the same duration as `Parse` of the original list. -/
theorem parse_permutation (T : UnicodeTables) (ts ps : List Token) (hne : ts ≠ [])
    (hwf : ∀ t ∈ ts, t.WellFormed) (hnd : (unitsOf ts).Nodup) (hperm : ts.Perm ps) :
    ∃ d, Parse T (joinTokens ts) = .ret d none ∧ Parse T (joinTokens ps) = .ret d none := by
  refine ⟨wrap64 (totalOf ts), Parse_tokens T ts hne (fun t ht => (hwf t ht).readable) hnd, ?_⟩
  have hne2 : ps ≠ [] := fun h => hne (by subst h; exact List.Perm.eq_nil hperm)
  have hwf2 : ∀ t ∈ ps, t.Readable := fun t ht => (hwf t (hperm.mem_iff.mpr ht)).readable
  have hnd2 : (unitsOf ps).Nodup := (List.Perm.nodup_iff (hperm.map _)).mp hnd
  have hsum : totalOf ts = totalOf ps := (hperm.map _).sum_eq
  rw [hsum]
  exact Parse_tokens T ps hne2 hwf2 hnd2

set_option maxRecDepth 100000 in
/-- Witness of C3 (amended) on `"1h 2m"` and `"2m 1h"`. -/
theorem parse_permutation_witness :
    ∃ d, Parse goTables "1h 2m" = .ret d none ∧ Parse goTables "2m 1h" = .ret d none :=
  parse_permutation goTables
    [⟨.none, "1", "h", defHour⟩, ⟨.none, "2", "m", defMinute⟩]
    [⟨.none, "2", "m", defMinute⟩, ⟨.none, "1", "h", defHour⟩]
    (by decide) (by decide) (by decide) (List.Perm.swap _ _ _)


set_option maxRecDepth 100000 in
/-- C4, counterexample. The digits `9223372036854775808` with the unit `ns`: with and
without the sign `-` the result is the same non-zero duration `-2^63`, so the one is not
the negation of the other. -/
theorem parse_sign_min :
    Parse goTables "9223372036854775808ns" = .ret (-9223372036854775808) none ∧
      Parse goTables "-9223372036854775808ns" = .ret (-9223372036854775808) none ∧
      (-9223372036854775808 : Int) ≠ -(-9223372036854775808) := by
  decide

/-- C4, amended. For every run of ASCII digits `d` and every recognized spelling `u`,
`Parse("-" + d + u)` succeeds and returns the negation of the duration of `Parse(d + u)`
reduced to a signed 64 bit integer, which is the exact negation unless that duration is
`-2^63`; `Parse("+" + d + u)` succeeds with the duration of `Parse(d + u)`, and
`Parse(d + u)` succeeds when `d` is not empty. A sign applies to its own token only:
`"1h -30m +5s"` gives `1h - 30m + 5s`. -/
theorem parse_sign (T : UnicodeTables) (d u : String) (ud : unitDef) (hd : asciiDigits d)
    (hu : (u, ud) ∈ spellings) :
    (∃ x e, Parse T (d ++ u) = .ret x e ∧ (runesOf d ≠ [] → e = none) ∧
      Parse T ("+" ++ d ++ u) = .ret x none ∧
      Parse T ("-" ++ d ++ u) = .ret (wrap64 (-x)) none ∧
      (x ≠ -9223372036854775808 → wrap64 (-x) = -x)) ∧
    Parse T "1h -30m +5s" = .ret (Hour - 30 * Minute + 5 * Second) none := by
  constructor
  · have hplus : Parse T ("+" ++ d ++ u) =
        .ret (wrap64 ((decimal (runesOf d) : Int) * ud.dur)) none := by
      have := Parse_tokens T [⟨.plus, d, u, ud⟩] (by simp) (by
        intro t ht
        simp only [List.mem_singleton] at ht
        subst ht
        exact ⟨Or.inl (by simp), hd, hu⟩) (by simp [unitsOf])
      rw [totalOf_single] at this
      simp only [Token.value, Sign.factor, one_mul] at this
      exact this
    have hminus : Parse T ("-" ++ d ++ u) =
        .ret (wrap64 (-((decimal (runesOf d) : Int) * ud.dur))) none := by
      have := Parse_tokens T [⟨.minus, d, u, ud⟩] (by simp) (by
        intro t ht
        simp only [List.mem_singleton] at ht
        subst ht
        exact ⟨Or.inl (by simp), hd, hu⟩) (by simp [unitsOf])
      rw [totalOf_single] at this
      simp only [Token.value, Sign.factor, neg_mul, one_mul] at this
      exact this
    have hrange := wrap64_range ((decimal (runesOf d) : Int) * ud.dur)
    by_cases hne : runesOf d = []
    · -- no digit: the unsigned text starts with a letter
      obtain ⟨hpos, _, hlet, _, _, _⟩ := spellings_facts _ hu
      simp only [] at hpos hlet
      have hzero : wrap64 ((decimal (runesOf d) : Int) * ud.dur) = 0 := by
        rw [hne]
        have : (decimal [] : Nat) = 0 := rfl
        rw [this]
        simp only [Nat.cast_zero, zero_mul]
        decide
      refine ⟨0, some .missingNumber, ?_, fun h => absurd hne h, ?_, ?_, fun _ => by decide⟩
      · unfold Parse
        rw [runesOf_append, hne, List.nil_append]
        cases hw : runesOf u with
        | nil => rw [hw] at hpos; simp at hpos
        | cons c rest =>
          have hc := lowerLetter_class T c (hlet c (by simp [hw])).1 (hlet c (by simp [hw])).2
          exact ParseRunes_missingNumber T c rest hc.2.2.2 (by
            have := (hlet c (by simp [hw])).1; omega) (by
            have := (hlet c (by simp [hw])).1; omega) hc.2.2.1
      · rw [hplus, hzero]
      · rw [hminus]
        have : wrap64 (-((decimal (runesOf d) : Int) * ud.dur)) = 0 := by
          rw [← wrap64_neg_wrap, hzero]; decide
        rw [this]
        decide
    · refine ⟨wrap64 ((decimal (runesOf d) : Int) * ud.dur), none, ?_, fun _ => rfl, hplus,
        ?_, fun hx => wrap64_neg_exact _ (by omega) hrange.2⟩
      · have := Parse_tokens T [⟨.none, d, u, ud⟩] (by simp) (by
          intro t ht
          simp only [List.mem_singleton] at ht
          subst ht
          exact ⟨Or.inr hne, hd, hu⟩) (by simp [unitsOf])
        rw [totalOf_single] at this
        simp only [Token.value, Sign.factor, one_mul] at this
        rw [← this]
        apply Parse_congr
        simp only [joinTokens, Token.text, Sign.text, runesOf_append]
        rfl
      · rw [hminus, wrap64_neg_wrap]
  · have := Parse_tokens T
      [⟨.none, "1", "h", defHour⟩, ⟨.minus, "30", "m", defMinute⟩, ⟨.plus, "5", "s", defSecond⟩]
      (by simp) (by decide) (by decide)
    exact this

set_option maxRecDepth 100000 in
/-- Witness of C4 (amended) at the digits `15` and the spelling `hours`. -/
theorem parse_sign_witness :
    (∃ x e, Parse goTables ("15" ++ "hours") = .ret x e ∧ (runesOf "15" ≠ [] → e = none) ∧
      Parse goTables ("+" ++ "15" ++ "hours") = .ret x none ∧
      Parse goTables ("-" ++ "15" ++ "hours") = .ret (wrap64 (-x)) none ∧
      (x ≠ -9223372036854775808 → wrap64 (-x) = -x)) ∧
    Parse goTables "1h -30m +5s" = .ret (Hour - 30 * Minute + 5 * Second) none :=
  parse_sign goTables "15" "hours" defHour (by decide) (by decide)


/-- C5. Each recognized spelling resolves to its canonical unit with that unit's fixed
magnitude: for every spelling `u` listed for a unit `U` in `spellings`, `Parse("1" + u)`
succeeds and equals the magnitude of `U`, where year = 31,536,000,000,000,000 ns = 365 days,
month = 2,592,000,000,000,000 ns = 30 days, day = 86,400 s, hour = 3,600 s, minute = 60 s,
second = 10^9 ns, millisecond = 10^6 ns, microsecond = 10^3 ns, nanosecond = 1 ns; hence
all spellings of one canonical unit give identical results. -/
theorem parse_spelling_magnitude (T : UnicodeTables) :
    (∀ p ∈ spellings, Parse T ("1" ++ p.1) = .ret p.2.dur none) ∧
    (∀ p ∈ spellings, ∀ q ∈ spellings, p.2.unitType = q.2.unitType →
      Parse T ("1" ++ p.1) = Parse T ("1" ++ q.1)) ∧
    (spellings.map fun p => p.2) =
      List.replicate 5 defYear ++ List.replicate 4 defMonth ++ List.replicate 5 defDay ++
      List.replicate 5 defHour ++ List.replicate 5 defMinute ++ List.replicate 5 defSecond ++
      List.replicate 5 defMillisecond ++ List.replicate 5 defMicrosecond ++
      List.replicate 5 defNanosecond ∧
    defYear.dur = 31536000000000000 ∧ defYear.dur = 365 * defDay.dur ∧
    defMonth.dur = 2592000000000000 ∧ defMonth.dur = 30 * defDay.dur ∧
    defDay.dur = 86400 * defSecond.dur ∧ defHour.dur = 3600 * defSecond.dur ∧
    defMinute.dur = 60 * defSecond.dur ∧ defSecond.dur = 1000000000 ∧
    defMillisecond.dur = 1000000 ∧ defMicrosecond.dur = 1000 ∧ defNanosecond.dur = 1 := by
  have main : ∀ p ∈ spellings, Parse T ("1" ++ p.1) = .ret p.2.dur none := by
    intro p hp
    have := Parse_tokens T [⟨.none, "1", p.1, p.2⟩] (by simp) (by
      intro t ht
      simp only [List.mem_singleton] at ht
      subst ht
      exact ⟨Or.inr (show runesOf "1" ≠ [] by decide), (show asciiDigits "1" by decide), hp⟩)
      (by simp [unitsOf])
    rw [totalOf_single] at this
    have hv : (⟨.none, "1", p.1, p.2⟩ : Token).value = p.2.dur := by
      have : (decimal (runesOf "1") : Int) = 1 := by decide
      simp only [Token.value, Sign.factor, this, one_mul]
    rw [hv, spellings_dur p hp] at this
    rw [← this]
    apply Parse_congr
    simp only [joinTokens, Token.text, Sign.text, runesOf_append]
    rfl
  have hsame : ∀ p ∈ spellings, ∀ q ∈ spellings, p.2.unitType = q.2.unitType →
      p.2.dur = q.2.dur := by
    decide
  refine ⟨main, ?_, by decide, by decide, by decide, by decide, by decide, by decide, by decide,
    by decide, by decide, by decide, by decide, by decide⟩
  intro p hp q hq h
  rw [main p hp, main q hq, hsame p hp q hq h]

set_option maxRecDepth 100000 in
/-- Witness of C5 at the spelling `hours`. -/
theorem parse_spelling_magnitude_witness :
    Parse goTables ("1" ++ "hours") = .ret 3600000000000 none :=
  (parse_spelling_magnitude goTables).1 ("hours", defHour) (by decide)

set_option maxRecDepth 100000 in
/-- C6, failing input. The token `ŭs` (U+016D, U+0073) consists of two letters, its
lower-cased form is not a recognized spelling, and `Parse("1ŭs")` succeeds with one
millisecond: the key `hash2` computes for it is the key of `ms`. -/
theorem parse_unit_collision :
    IsLetter goTables 0x16D = true ∧ IsLetter goTables 0x73 = true ∧
      runesOf "ŭs" = [0x16D, 0x73] ∧
      (runesOf "ŭs").map lower ∉ spellings.map (fun p => runesOf p.1) ∧
      hash2 0x16D 0x73 = hash2 'm'.toNat 's'.toNat ∧
      Parse goTables "1ŭs" = .ret Millisecond none := by
  decide


/-- C7. `Parse` is insensitive to letter case: for every input `s1` and every `s2` obtained
from it by changing the case of any of its ASCII letters, `Parse` returns on `s2` the same
duration and the same error outcome as on `s1`. -/
theorem parse_case_insensitive (T : UnicodeTables) (s1 s2 : String)
    (h : caseVariants s1 s2) : Parse T s2 = Parse T s1 := by
  unfold Parse
  rw [← ParseRunes_lower T (runesOf s2), ← ParseRunes_lower T (runesOf s1),
    caseVariants_lower _ _ h.1 h.2]

set_option maxRecDepth 100000 in
/-- Witness of C7: `"1H 2M 3S 4MS"` parses identically to `"1h 2m 3s 4ms"`. -/
theorem parse_case_insensitive_witness :
    caseVariants "1h 2m 3s 4ms" "1H 2M 3S 4MS" ∧
      Parse goTables "1H 2M 3S 4MS" = Parse goTables "1h 2m 3s 4ms" :=
  ⟨by decide, parse_case_insensitive goTables "1h 2m 3s 4ms" "1H 2M 3S 4MS" (by decide)⟩


/-- C8. For every input, if `Parse` returns an error then the duration it returns is
zero. -/
theorem parse_error_zero (T : UnicodeTables) (s : String) (d : Int) (e : ParseErr)
    (h : Parse T s = .ret d (some e)) : d = 0 := by
  unfold Parse at h
  rw [ParseRunes_eq] at h
  split at h
  · injection h with h1 _
    exact h1.symm
  · exact (loopOn_error T _ _ _ _ d e h).1

set_option maxRecDepth 100000 in
/-- Witness of C8: `"1h -"` returns an error and the duration 0, not one hour. -/
theorem parse_error_zero_witness :
    Parse goTables "1h -" = .ret 0 (some .missingUnit) ∧ (0 : Int) = 0 :=
  ⟨by decide, parse_error_zero goTables "1h -" 0 .missingUnit (by decide)⟩

/-- C9. `Parse` fails with the empty-input error if and only if the input is the empty
string or consists solely of white space characters (`unicode.IsSpace`). -/
theorem parse_empty_iff (T : UnicodeTables) (s : String) :
    (∃ d, Parse T s = .ret d (some .emptyString)) ↔ ∀ c ∈ runesOf s, IsSpace T c = true := by
  unfold Parse
  rw [ParseRunes_eq]
  constructor
  · rintro ⟨d, h⟩
    split at h
    · rename_i hnil
      exact List.dropWhile_eq_nil_iff.mp hnil
    · exact absurd rfl (loopOn_error T _ _ _ _ d _ h).2
  · intro h
    have : (runesOf s).dropWhile (IsSpace T) = [] := List.dropWhile_eq_nil_iff.mpr h
    exact ⟨0, by rw [if_pos this]⟩


/-- C10. For every input on which `Parse` reaches a unit position (`unitStartOf`, in an
iteration entered from a reached state) whose maximal run of consecutive letters is 13 or
more letters long, `Parse` fails with the generic parse error and the zero duration; it
fails in the same way when the run has zero letters (a character that is not a letter
remains at that position). -/
theorem parse_malformed_unit (T : UnicodeTables) (s : String) (st : State) (u : Nat)
    (hreach : Reaches T (runesOf s) st) (hidx : st.idx < (runesOf s).length)
    (hu : unitStartOf T (runesOf s) st = some u)
    (hrun : letterRun T (runesOf s) u = 0 ∨ 13 ≤ letterRun T (runesOf s) u) :
    Parse T s = .ret 0 (some .bare) := by
  unfold Parse
  rw [hreach.parse ((runesOf s).length + 1) (by omega)]
  simp only [loop, hidx, if_true, body_malformed T _ st u hu hrun]

set_option maxRecDepth 100000 in
/-- Witness of C10: `"1millisecondssssss"` (a run of 17 letters that starts with a
recognized spelling), `"1$"` (no letter at the unit position) and
`"1h 2millisecondssssss"` (the run in the second iteration). -/
theorem parse_malformed_unit_witness :
    Parse goTables "1millisecondssssss" = .ret 0 (some .bare) ∧
      Parse goTables "1$" = .ret 0 (some .bare) ∧
      Parse goTables "1h 2millisecondssssss" = .ret 0 (some .bare) :=
  ⟨parse_malformed_unit goTables "1millisecondssssss" ⟨0, 0, List.replicate 10 false⟩ 1
      (Reaches.start 0 (by decide) rfl (by decide)) (by decide) (by decide)
      (Or.inr (by decide)),
   parse_malformed_unit goTables "1$" ⟨0, 0, List.replicate 10 false⟩ 1
      (Reaches.start 0 (by decide) rfl (by decide)) (by decide) (by decide)
      (Or.inl (by decide)),
   parse_malformed_unit goTables "1h 2millisecondssssss"
      ⟨3, 3600000000000,
        [false, false, false, false, true, false, false, false, false, false]⟩ 4
      (Reaches.next ⟨0, 0, List.replicate 10 false⟩ _
        (Reaches.start 0 (by decide) rfl (by decide)) (by decide) rfl)
      (by decide) (by decide) (Or.inr (by decide))⟩


set_option maxRecDepth 100000 in
/-- C13, failing input. `Parse("-h")` is accepted (duration 0, no error) although no
digit stands between the sign and the unit, while `Parse("h")` is rejected with the
missing-number error. -/
theorem parse_sign_without_digit :
    Parse goTables "-h" = .ret 0 none ∧ Parse goTables "+h" = .ret 0 none ∧
      Parse goTables "1h -m" = .ret Hour none ∧
      Parse goTables "h" = .ret 0 (some .missingNumber) := by
  decide

set_option maxRecDepth 100000 in
/-- C15, failing input. Distinct sequences of lower-cased letters of the same length with
the same packed key, for each of `hash2`, `hash3` and `hash4`; the tokens `ŭs`, `miŮ` and
`minɳ` match the table entries of `ms`, `min` and `mins`. -/
theorem hash_collision :
    (IsLetter goTables 0x16D = true ∧ lower 0x16D = 0x16D ∧
      hash2 0x16D 's'.toNat = hash2 'm'.toNat 's'.toNat) ∧
    (IsLetter goTables 0x16E = true ∧ lower 0x16E = 0x16E ∧
      hash3 'm'.toNat 'i'.toNat 0x16E = hash3 'm'.toNat 'i'.toNat 'n'.toNat) ∧
    (IsLetter goTables 0x273 = true ∧ lower 0x273 = 0x273 ∧
      hash4 'm'.toNat 'i'.toNat 'n'.toNat 0x273 =
        hash4 'm'.toNat 'i'.toNat 'n'.toNat 's'.toNat) ∧
    Parse goTables "1ŭs" = .ret Millisecond none ∧
    Parse goTables "1miŮ" = .ret Minute none ∧
    Parse goTables "1minɳ" = .ret Minute none := by
  decide

set_option maxRecDepth 100000 in
/-- C16, failing input. The scanner accepts U+0663 ARABIC-INDIC DIGIT THREE as a digit and
the value it contributes is `0x663 - 0x30 = 1587`, not 3: `Parse` of U+0663 followed by `h`
is 1587 hours. -/
theorem parse_nonascii_digit :
    IsDigit goTables 0x663 = true ∧ runesOf "\u0663h" = [0x663, 'h'.toNat] ∧
      ((0x663 : Int) - ('0'.toNat : Int) = 1587) ∧
      Parse goTables "\u0663h" = .ret (1587 * Hour) none ∧
      Parse goTables "3h" = .ret (3 * Hour) none := by
  decide


/-- C17. `Parse` terminates on every input string with a result; each iteration of the
main loop entered at a position inside the input either returns or ends at a position
strictly after the one it started from, having consumed at least one letter of a unit
token; and the number of iterations entered from a state is at most the number of
characters that remain, whatever fuel the loop is given. -/
theorem parse_terminates (T : UnicodeTables) :
    (∀ s : String, ∃ d e, Parse T s = .ret d e) ∧
    (∀ (runes : List Nat) (st st2 : State), st.idx < runes.length →
      body T runes st = .ok st2 →
      st.idx < st2.idx ∧ st2.idx ≤ runes.length ∧
        ∃ u, unitStartOf T runes st = some u ∧ st.idx ≤ u ∧ 1 ≤ letterRun T runes u ∧
          u + letterRun T runes u ≤ st2.idx) ∧
    (∀ (runes : List Nat) (fuel : Nat) (st : State), st.idx ≤ runes.length →
      iterations T runes fuel st ≤ runes.length - st.idx) ∧
    (∀ s : String, iterationsOf T (runesOf s) ≤ (runesOf s).length) := by
  refine ⟨fun s => ParseRunes_ret T (runesOf s), ?_, fun runes fuel st h =>
    iterations_le T runes fuel st h, ?_⟩
  · intro runes st st2 hlt hb
    obtain ⟨h1, h2⟩ := body_progress T runes st st2 (Nat.le_of_lt hlt) hb
    exact ⟨h1, h2, body_unit T runes st st2 (Nat.le_of_lt hlt) hb⟩
  · intro s
    simp only [iterationsOf]
    split
    · omega
    · split
      · omega
      · split
        · omega
        · rename_i idx _ hlt
          have := iterations_le T (runesOf s) (runesOf s).length
            ⟨idx, 0, List.replicate 10 false⟩ (by simp only []; omega)
          omega

set_option maxRecDepth 100000 in
/-- Witness of C17: the iteration of `"1h 2m"` entered at position 0 ends at position 3
(after the unit letter at position 1 and the space), and `Parse` enters 2 iterations. -/
theorem parse_terminates_witness :
    (0 < 3 ∧ 3 ≤ (runesOf "1h 2m").length ∧
      ∃ u, unitStartOf goTables (runesOf "1h 2m") ⟨0, 0, List.replicate 10 false⟩ = some u ∧
        0 ≤ u ∧ 1 ≤ letterRun goTables (runesOf "1h 2m") u ∧
        u + letterRun goTables (runesOf "1h 2m") u ≤ 3) ∧
      iterationsOf goTables (runesOf "1h 2m") = 2 :=
  ⟨(parse_terminates goTables).2.1 (runesOf "1h 2m") ⟨0, 0, List.replicate 10 false⟩
      ⟨3, 3600000000000,
        [false, false, false, false, true, false, false, false, false, false]⟩
      (by decide) rfl, by decide⟩

/-- C19. For every input string no index operation of `Parse` is out of bounds, so `Parse`
never panics: the reads `runes[idx]`, the writes `unitBuf[i]` and the accesses
`usedUnits[unitType]` of the embedding end in `panic` when their index is out of range, and
no run of `Parse` and no iteration entered from a reached state ends so; the unit
discriminant of every unit definition a lookup returns is between 1 and 9, and
`usedUnits` keeps its 10 entries. -/
theorem parse_no_panic (T : UnicodeTables) :
    (∀ s : String, Parse T s ≠ .panic) ∧
    (∀ (s : String) (st : State), Reaches T (runesOf s) st →
      st.idx ≤ (runesOf s).length ∧ st.usedUnits.length = 10 ∧
        body T (runesOf s) st ≠ .error .panic) ∧
    (∀ (unitBuf : List Nat) (unitLen : Nat) (ud : unitDef),
      lookupUnit unitBuf unitLen = .ok (some ud) → 1 ≤ ud.unitType ∧ ud.unitType ≤ 9) := by
  refine ⟨?_, ?_, lookupUnit_range⟩
  · intro s h
    obtain ⟨d, e, hr⟩ := ParseRunes_ret T (runesOf s)
    unfold Parse at h
    rw [hr] at h
    cases h
  · intro s st hr
    exact ⟨hr.idx_le, hr.used_length.1, body_not_panic T _ st hr.idx_le hr.used_length.1⟩

/-- C20. Every input that `Parse` accepts makes the main loop run at least one and at most
nine iterations, each of which reads one unit token and marks a unit that was not marked:
a tenth token is never accepted. -/
theorem parse_token_count (T : UnicodeTables) (s : String) (d : Int)
    (h : Parse T s = .ret d none) :
    1 ≤ iterationsOf T (runesOf s) ∧ iterationsOf T (runesOf s) ≤ 9 :=
  iterationsOf_pos T (runesOf s) d h

set_option maxRecDepth 100000 in
/-- Witness of C20 on `"1y 1mon 1d 1h 1m 1s 1ms 1us 1ns"`, which has nine tokens. -/
theorem parse_token_count_witness :
    iterationsOf goTables (runesOf "1y 1mon 1d 1h 1m 1s 1ms 1us 1ns") = 9 ∧
      1 ≤ iterationsOf goTables (runesOf "1y 1mon 1d 1h 1m 1s 1ms 1us 1ns") ∧
      iterationsOf goTables (runesOf "1y 1mon 1d 1h 1m 1s 1ms 1us 1ns") ≤ 9 :=
  ⟨by decide, parse_token_count goTables "1y 1mon 1d 1h 1m 1s 1ms 1us 1ns"
    (yearDuration + monthDuration + dayDuration + Hour + Minute + Second + Millisecond +
      Microsecond + Nanosecond) (by decide)⟩


/-- C11. For every (possibly empty) sequence of well-formed tokens with pairwise distinct
units, joined by single spaces and followed, after any white space, by a final fragment
that consists of a sign and/or a run of ASCII digits and then only white space up to the
end of the input, `Parse` fails with the missing-unit error and returns the zero duration.
The white space of the tables is assumed to contain no letter and no digit. -/
theorem parse_missing_unit (T : UnicodeTables) (hT : T.Separated) (ts : List Token)
    (gap : String) (sg : Sign) (ds ws : String) (hwf : ∀ t ∈ ts, t.WellFormed)
    (hnd : (unitsOf ts).Nodup) (hgap : whiteSpace T gap) (hds : asciiDigits ds)
    (hfrag : sg ≠ .none ∨ runesOf ds ≠ []) (hws : whiteSpace T ws) :
    Parse T (joinTokens ts ++ gap ++ sg.text ++ ds ++ ws) = .ret 0 (some .missingUnit) := by
  obtain ⟨c, cs, hR, hc1, hc2⟩ := fragment_head T sg (runesOf ds) (runesOf ws) hfrag hds
  obtain ⟨tot, u, _, hloop⟩ := ParseRunes_then T hT ts (fun t ht => (hwf t ht).readable) hnd
    (runesOf gap) _ hgap c cs hR hc1 (Or.inr (Or.inr hc2))
  unfold Parse
  have hshape : runesOf (joinTokens ts ++ gap ++ sg.text ++ ds ++ ws) =
      runesOf (joinTokens ts) ++ (runesOf gap ++ (runesOf sg.text ++ (runesOf ds ++ runesOf ws))) := by
    simp only [runesOf_append, List.append_assoc]
  rw [hshape, hloop _ (Nat.le_refl _)]
  have hl : (runesOf sg.text ++ (runesOf ds ++ runesOf ws)).length = cs.length + 1 := by
    rw [hR]; simp
  rw [hl]
  have hne : ¬ runesOf sg.text ++ (runesOf ds ++ runesOf ws) = [] := by rw [hR]; simp
  simp only [loopOn, hne, if_false, bodyOn_fragment T sg _ _ hfrag hds hws]

set_option maxRecDepth 100000 in
/-- Witness of C11 on the inputs `"123"`, `"1h -"` and `"1h 5 "`. -/
theorem parse_missing_unit_witness :
    Parse goTables "123" = .ret 0 (some .missingUnit) ∧
      Parse goTables "1h -" = .ret 0 (some .missingUnit) ∧
      Parse goTables "1h 5 " = .ret 0 (some .missingUnit) :=
  ⟨parse_missing_unit goTables goTables_separated [] "" .none "123" ""
      (by decide) (by decide) (by decide) (by decide) (by decide) (by decide),
   parse_missing_unit goTables goTables_separated [⟨.none, "1", "h", defHour⟩] " " .minus
      "" "" (by decide) (by decide) (by decide) (by decide) (by decide) (by decide),
   parse_missing_unit goTables goTables_separated [⟨.none, "1", "h", defHour⟩] " " .none
      "5" " " (by decide) (by decide) (by decide) (by decide) (by decide) (by decide)⟩

set_option maxRecDepth 100000 in
/-- C12, counterexample. The well-formed token `1m` followed by the character `s`, which is
neither white space nor a sign nor a digit: `Parse("1ms")` succeeds with one millisecond;
the token `1h` followed by `x` fails with the unknown-unit error, not the missing-number
error. -/
theorem parse_letter_after_token :
    (⟨.none, "1", "m", defMinute⟩ : Token).WellFormed ∧
      joinTokens [⟨.none, "1", "m", defMinute⟩] ++ "s" = "1ms" ∧
      IsSpace goTables 's'.toNat = false ∧ IsDigit goTables 's'.toNat = false ∧
      Parse goTables "1ms" = .ret Millisecond none ∧
      Parse goTables "1hx" = .ret 0 (some .unknownUnit) := by
  decide

/-- C12, amended. For every (possibly empty) sequence of well-formed tokens with pairwise
distinct units, joined by single spaces and followed, after any white space, by a character
that is not white space, not `+`, not `-` and not a digit, `Parse` fails with the
missing-number error and returns the zero duration, whatever follows that character,
provided the character is not a letter when it stands directly behind the last token (no
white space in between). The white space of the tables is assumed to contain no letter
and no digit. -/
theorem parse_missing_number (T : UnicodeTables) (hT : T.Separated) (ts : List Token)
    (gap rem : String) (c : Nat) (cs : List Nat) (hwf : ∀ t ∈ ts, t.WellFormed)
    (hnd : (unitsOf ts).Nodup) (hgap : whiteSpace T gap) (hrem : runesOf rem = c :: cs)
    (hc1 : IsSpace T c = false) (hc2 : c ≠ '+'.toNat) (hc3 : c ≠ '-'.toNat)
    (hc4 : IsDigit T c = false)
    (hlet : ts = [] ∨ runesOf gap ≠ [] ∨ IsLetter T c = false) :
    Parse T (joinTokens ts ++ gap ++ rem) = .ret 0 (some .missingNumber) := by
  obtain ⟨tot, u, _, hloop⟩ := ParseRunes_then T hT ts (fun t ht => (hwf t ht).readable) hnd
    (runesOf gap) (runesOf rem) hgap c cs hrem hc1 hlet
  unfold Parse
  have hshape : runesOf (joinTokens ts ++ gap ++ rem) =
      runesOf (joinTokens ts) ++ (runesOf gap ++ runesOf rem) := by
    simp only [runesOf_append, List.append_assoc]
  rw [hshape, hloop _ (Nat.le_refl _), hrem]
  simp only [List.length_cons, loopOn, List.cons_ne_nil, if_false,
    bodyOn_missingNumber T c cs hc3 hc2 hc4]

set_option maxRecDepth 100000 in
/-- Witness of C12 (amended) on `"1h$2m"`, on `"  hello"` (first character after the white
space a letter) and on `"1h x"`. -/
theorem parse_missing_number_witness :
    Parse goTables "1h$2m" = .ret 0 (some .missingNumber) ∧
      Parse goTables "  hello" = .ret 0 (some .missingNumber) ∧
      Parse goTables "1h x" = .ret 0 (some .missingNumber) :=
  ⟨parse_missing_number goTables goTables_separated [⟨.none, "1", "h", defHour⟩] "" "$2m"
      '$'.toNat (runesOf "2m") (by decide) (by decide) (by decide) rfl (by decide)
      (by decide) (by decide) (by decide) (Or.inr (Or.inr (by decide))),
   parse_missing_number goTables goTables_separated [] "  " "hello"
      'h'.toNat (runesOf "ello") (by decide) (by decide) (by decide) rfl (by decide)
      (by decide) (by decide) (by decide) (Or.inl rfl),
   parse_missing_number goTables goTables_separated [⟨.none, "1", "h", defHour⟩] " " "x"
      'x'.toNat [] (by decide) (by decide) (by decide) rfl (by decide)
      (by decide) (by decide) (by decide) (Or.inr (Or.inl (by decide)))⟩

/-- C14. White space is optional and insignificant around tokens: for every sequence of
well-formed tokens, writing them with any (possibly empty) runs of white space before
the first token, between the digits and the spelling of each token and behind each token
(so between consecutive tokens and after the last one) gives the same `Parse` result as
writing them joined by single spaces. The white space of the tables is assumed to contain
no letter and no digit. -/
theorem parse_whitespace (T : UnicodeTables) (hT : T.Separated) (lead : String)
    (ss : List Spaced) (hlead : whiteSpace T lead)
    (hss : ∀ s ∈ ss, s.tok.WellFormed ∧ s.Blank T) :
    Parse T (lead ++ layout ss) = Parse T (joinTokens (ss.map Spaced.tok)) :=
  Parse_layout T hT lead ss hlead (fun s hs => ⟨(hss s hs).1.readable, (hss s hs).2⟩)

set_option maxRecDepth 100000 in
/-- Witness of C14: `"1 h\t2 m\n3 s  "` parses like `"1h 2m 3s"`, `"1h-30m"` like
`"1h -30m"`, and an input with white space beyond ASCII (U+2003, U+00A0) like `"1h"`. -/
theorem parse_whitespace_witness :
    Parse goTables "1 h\t2 m\n3 s  " = Parse goTables "1h 2m 3s" ∧
      Parse goTables "1h-30m" = Parse goTables "1h -30m" ∧
      Parse goTables " \u2003 1\u00A0h" = Parse goTables "1h" :=
  ⟨parse_whitespace goTables goTables_separated ""
      [⟨⟨.none, "1", "h", defHour⟩, " ", "\t"⟩, ⟨⟨.none, "2", "m", defMinute⟩, " ", "\n"⟩,
        ⟨⟨.none, "3", "s", defSecond⟩, " ", "  "⟩] (by decide) (by decide),
   parse_whitespace goTables goTables_separated ""
      [⟨⟨.none, "1", "h", defHour⟩, "", ""⟩, ⟨⟨.minus, "30", "m", defMinute⟩, "", ""⟩]
      (by decide) (by decide),
   parse_whitespace goTables goTables_separated " \u2003 "
      [⟨⟨.none, "1", "h", defHour⟩, "\u00A0", ""⟩] (by decide) (by decide)⟩


set_option maxRecDepth 100000 in
/-- C18, counterexample. With the empty run of digits the recognized spelling `h` is not
accepted: `Parse("" + "h")` fails with the missing-number error; and the recognized
spellings are 44, not 45. -/
theorem parse_ascii_lookup_no_digit :
    asciiDigits "" ∧ asciiLetters "h" ∧ ("h", defHour) ∈ spellings ∧
      Parse goTables ("" ++ "h") = .ret 0 (some .missingNumber) ∧
      spellings.length = 44 := by
  decide

/-- C18, amended. For unit tokens made only of ASCII letters the lookup is exact: for every
token `t` of 1 to 12 ASCII letters and every non-empty run of ASCII digits `d`, either the
ASCII-lower-cased `t` is one of the 44 recognized spellings and `Parse(d + t)` succeeds
(with the value of `d` times the magnitude of the unit, reduced to 64 bits), or it is none
of them and `Parse(d + t)` fails with the unknown-unit error; `hash2`, `hash3` and `hash4`
are injective on characters with code points below 256. -/
theorem parse_ascii_lookup (T : UnicodeTables) (d t : String) (hd : asciiDigits d)
    (hdne : runesOf d ≠ []) (ht : asciiLetters t) (hl1 : 1 ≤ (runesOf t).length)
    (hl2 : (runesOf t).length ≤ 12) :
    ((∃ p ∈ spellings, runesOf p.1 = (runesOf t).map lower ∧
        Parse T (d ++ t) = .ret (wrap64 ((decimal (runesOf d) : Int) * p.2.dur)) none) ∨
      ((∀ p ∈ spellings, runesOf p.1 ≠ (runesOf t).map lower) ∧
        Parse T (d ++ t) = .ret 0 (some .unknownUnit))) ∧
    (∀ a b a2 b2 : Nat, a < 256 → b < 256 → a2 < 256 → b2 < 256 →
      hash2 a b = hash2 a2 b2 → a = a2 ∧ b = b2) ∧
    (∀ a b c a2 b2 c2 : Nat, a < 256 → b < 256 → c < 256 → a2 < 256 → b2 < 256 → c2 < 256 →
      hash3 a b c = hash3 a2 b2 c2 → a = a2 ∧ b = b2 ∧ c = c2) ∧
    (∀ a b c e a2 b2 c2 e2 : Nat, a < 256 → b < 256 → c < 256 → e < 256 → a2 < 256 →
      b2 < 256 → c2 < 256 → e2 < 256 →
      hash4 a b c e = hash4 a2 b2 c2 e2 → a = a2 ∧ b = b2 ∧ c = c2 ∧ e = e2) := by
  refine ⟨?_, ?_, ?_, ?_⟩
  · have hw : ∀ c ∈ runesOf t, (65 ≤ c ∧ c ≤ 90) ∨ (97 ≤ c ∧ c ≤ 122) := ht
    have hlow : ∀ c ∈ (runesOf t).map lower, 97 ≤ c ∧ c ≤ 122 := by
      intro c hc
      simp only [List.mem_map] at hc
      obtain ⟨x, hx, rfl⟩ := hc
      exact (asciiLetter_class T x (hw x hx)).2
    have hP : Parse T (d ++ t) = ParseRunes T (runesOf d ++ runesOf t) := by
      unfold Parse; rw [runesOf_append]
    rw [hP, ParseRunes_number_word T _ _ hdne hd hw hl1 hl2]
    cases hres : resolve ((runesOf t).map lower) with
    | none =>
      right
      refine ⟨?_, rfl⟩
      intro p hp he
      obtain ⟨_, _, _, hr, _, _⟩ := spellings_facts p hp
      rw [he, hres] at hr
      cases hr
    | some ud =>
      left
      obtain ⟨p, hp, h1, h2⟩ := resolve_exact _ ud hlow hres
      exact ⟨p, hp, h1, by rw [h2]⟩
  · intro a b a2 b2 ha hb ha2 hb2 h
    rw [hash2_small a b ha hb, hash2_small a2 b2 ha2 hb2] at h
    omega
  · intro a b c a2 b2 c2 ha hb hc ha2 hb2 hc2 h
    rw [hash3_small a b c ha hb hc, hash3_small a2 b2 c2 ha2 hb2 hc2] at h
    omega
  · intro a b c e a2 b2 c2 e2 ha hb hc he ha2 hb2 hc2 he2 h
    rw [hash4_small a b c e ha hb hc he, hash4_small a2 b2 c2 e2 ha2 hb2 hc2 he2] at h
    omega

set_option maxRecDepth 100000 in
/-- Witness of C18 (amended) at the digits `12` and the token `HoUrS`. -/
theorem parse_ascii_lookup_witness :
    (∃ p ∈ spellings, runesOf p.1 = (runesOf "HoUrS").map lower ∧
        Parse goTables ("12" ++ "HoUrS") =
          .ret (wrap64 ((decimal (runesOf "12") : Int) * p.2.dur)) none) ∨
      ((∀ p ∈ spellings, runesOf p.1 ≠ (runesOf "HoUrS").map lower) ∧
        Parse goTables ("12" ++ "HoUrS") = .ret 0 (some .unknownUnit)) :=
  (parse_ascii_lookup goTables "12" "HoUrS" (by decide) (by decide) (by decide) (by decide)
    (by decide)).1


end Dur
